import Mathlib

/-!
Verification of the Bop interpreter (stevepryde/bop-lang) against its
natural-language specification.

This file contains a shallow embedding, in Lean 4, of the parts of the
Rust source relevant to the checked claims:

* the Memory Ledger (`src/bop/src/memory.rs`),
* the `Value` data model with byte accounting (`src/bop/src/value.rs`),
* the value methods (`src/bop/src/methods.rs`),
* the built-in functions (`src/bop/src/builtins.rs`),
* the AST (`src/bop/src/parser.rs`) and the instruction counter,
* automatic semicolon insertion (`src/bop/src/lexer.rs`),
* the tree-walking evaluator (`src/bop/src/evaluator.rs`).

Modelling conventions, used throughout:

* `u64`/`usize` arithmetic is `Nat` with explicit `% 2 ^ 64` (or the
  saturating operations the source uses, written out explicitly).
* Rust `f64` numbers are modelled as exact rationals (`Rat`).  IEEE-754
  rounding, infinities and NaN are not modelled; claims proved below do
  not depend on float rounding behaviour.
* Rust `Vec`/`String` buffer capacity is modelled as exact-fit capacity
  (`capacity = length`), so byte accounting uses lengths.  The
  alloc/dealloc pairing discipline of the source is mirrored exactly:
  every point where the Rust code constructs, clones or drops a tracked
  value performs the corresponding ledger operation in the embedding.
* The ledger is thread-local state in Rust; the embedding threads it
  explicitly through every operation that touches it.
-/

namespace Bop

/-! ## Memory ledger (`memory.rs`) -/

/-- Maximum value of `usize` on a 64-bit target. -/
def usizeMax : Nat := 2 ^ 64 - 1

/-- Saturating `usize` addition (`usize::saturating_add`). -/
def satAdd (a b : Nat) : Nat := min (a + b) usizeMax

/-- Saturating `usize` multiplication (`usize::saturating_mul`). -/
def satMul (a b : Nat) : Nat := min (a * b) usizeMax

/-- The memory ledger state: the thread-local `USED` and `LIMIT` cells of
`memory.rs`. -/
structure Mem where
  used : Nat
  limit : Nat
deriving Repr, DecidableEq

/-- Ledger reset, `bop_memory_init`. -/
def memInit (limit : Nat) : Mem := { used := 0, limit := limit }

/-- Track an allocation, `bop_alloc` (saturating add, no limit check). -/
def memAlloc (m : Mem) (bytes : Nat) : Mem :=
  { m with used := satAdd m.used bytes }

/-- Track a deallocation, `bop_dealloc` (saturating sub).  `Nat`
subtraction is itself saturating, matching `usize::saturating_sub`. -/
def memDealloc (m : Mem) (bytes : Nat) : Mem :=
  { m with used := m.used - bytes }

/-- Limit check, `bop_memory_exceeded`: `USED > LIMIT`. -/
def memExceeded (m : Mem) : Bool := m.limit < m.used

/-- Pre-flight check, `bop_would_exceed`: `USED.saturating_add(bytes) > LIMIT`. -/
def memWouldExceed (m : Mem) (bytes : Nat) : Bool := m.limit < satAdd m.used bytes

/-! ## Errors (`error.rs`) -/

/-- The error record `BopError`. -/
structure BopError where
  line : Option Nat
  column : Option Nat
  message : String
  friendlyHint : Option String
deriving Repr, DecidableEq

/-- Construct an error with a line, `builtins::error`. -/
def mkError (line : Nat) (message : String) : BopError :=
  { line := some line, column := none, message := message, friendlyHint := none }

/-- Construct an error with a line and hint, `builtins::error_with_hint`. -/
def mkErrorHint (line : Nat) (message : String) (hint : String) : BopError :=
  { line := some line, column := none, message := message, friendlyHint := some hint }

/-! ## Values (`value.rs`)

The Rust `Value` is a tagged sum; the tracked newtypes `BopStr`,
`BopArray`, `BopDict` are modelled by the payloads directly.  Byte
accounting is explicit at every construction/clone/drop site of the
evaluator embedding below. -/

/-- The runtime value type. `number` carries a rational modelling `f64`;
`array` models `BopArray(Vec<Value>)`; `dict` models
`BopDict(Vec<(String, Value)>)` (insertion-ordered pairs). -/
inductive Value where
  | number : Rat → Value
  | str : String → Value
  | bool : Bool → Value
  | none : Value
  | array : List Value → Value
  | dict : List (String × Value) → Value
deriving Repr

/-- Size in bytes of the Rust `Value` enum (`size_of::<Value>()` on a
64-bit target); the exact figure does not matter for any theorem. -/
def sizeofValue : Nat := 32

/-- Size in bytes of a `(String, Value)` dict entry
(`size_of::<(String, Value)>()` on a 64-bit target). -/
def sizeofPair : Nat := 56

mutual

/-- Ledger footprint of a value tree: the sum of the per-node buffer
bytes tracked by `Value::new_str` / `new_array` / `new_dict` (with
capacity modelled as length).  Constructing a tree bottom-up through the
tracked constructors allocates exactly this many bytes, a deep `Clone`
allocates exactly this many bytes, and dropping the tree deallocates
exactly this many bytes. -/
def bytesVal : Value → Nat
  | .number _ => 0
  | .bool _ => 0
  | .none => 0
  | .str s => s.utf8ByteSize
  | .array l => l.length * sizeofValue + bytesValList l
  | .dict l => l.length * sizeofPair + bytesValDict l

/-- Footprint of the elements of an array payload. -/
def bytesValList : List Value → Nat
  | [] => 0
  | v :: vs => bytesVal v + bytesValList vs

/-- Footprint of the entries of a dict payload: key buffer bytes plus
value footprints (`new_dict` allocates the key capacities together with
the entry buffer). -/
def bytesValDict : List (String × Value) → Nat
  | [] => 0
  | (k, v) :: rest => k.utf8ByteSize + bytesVal v + bytesValDict rest

end

/-- Truthiness, `Value::is_truthy`. -/
def isTruthy : Value → Bool
  | .bool b => b
  | .none => false
  | .number n => n != 0
  | .str s => !(s.isEmpty)
  | .array a => !(a.isEmpty)
  | .dict d => !(d.isEmpty)

/-- Type name, `Value::type_name`. -/
def typeName : Value → String
  | .number _ => "number"
  | .str _ => "string"
  | .bool _ => "bool"
  | .none => "none"
  | .array _ => "array"
  | .dict _ => "dict"

/-- Rendering of a number for display.  Models the `Display` arm for
`Value::Number`: a finite float that equals its integer truncation is
shown as an integer.  The exact decimal rendering of non-integer floats
is not modelled (the rational is rendered as `num/den`); no claim
depends on it. -/
def displayNum (q : Rat) : String :=
  if q.den = 1 then toString q.num else toString q.num ++ "/" ++ toString q.den

mutual

/-- Display form of a value (`impl Display for Value`): strings
unquoted, composites render their items in inspect form. -/
def displayVal : Value → String
  | .number n => displayNum n
  | .str s => s
  | .bool b => if b then "true" else "false"
  | .none => "none"
  | .array items => "[" ++ displayItems items ++ "]"
  | .dict entries => "\x7b" ++ displayEntries entries ++ "\x7d"

/-- Comma-separated inspect forms of array items. -/
def displayItems : List Value → String
  | [] => ""
  | [v] => inspectVal v
  | v :: rest => inspectVal v ++ ", " ++ displayItems rest

/-- Comma-separated `"key": value` pairs of dict entries. -/
def displayEntries : List (String × Value) → String
  | [] => ""
  | [(k, v)] => "\"" ++ k ++ "\": " ++ inspectVal v
  | (k, v) :: rest => "\"" ++ k ++ "\": " ++ inspectVal v ++ ", " ++ displayEntries rest

/-- Inspect form (`Value::inspect`): like display, but strings are
double-quoted. -/
def inspectVal : Value → String
  | .str s => "\"" ++ s ++ "\""
  | v => displayVal v

end

/-- Find the value for a key in a dict payload
(`entries.iter().find(|(k, _)| k == key)`). -/
def findEntry (entries : List (String × Value)) (key : String) : Option Value :=
  match entries with
  | [] => Option.none
  | (k, v) :: rest => if k == key then some v else findEntry rest key

mutual

/-- Deep equality, `values_equal`: numbers/strings/bools by value,
arrays element-wise after a length check, dicts by length plus
key-lookup of every left entry in the right dict; mixed variants are
unequal. -/
def valuesEqual : Value → Value → Bool
  | .number x, .number y => x == y
  | .str x, .str y => x == y
  | .bool x, .bool y => x == y
  | .none, .none => true
  | .array x, .array y => x.length == y.length && valuesEqualZip x y
  | .dict x, .dict y => x.length == y.length && dictEntriesIn x y
  | _, _ => false

/-- Pairwise equality of array elements
(`x.iter().zip(y.iter()).all(...)`; zip truncates at the shorter list,
the caller has already compared lengths). -/
def valuesEqualZip : List Value → List Value → Bool
  | a :: as', b :: bs => valuesEqual a b && valuesEqualZip as' bs
  | _, _ => true

/-- Check that every `(k, v)` of the first dict has an entry with key
`k` and an equal value in the second
(`x.iter().all(|(k, v)| y.iter().find(..).is_some_and(..))`). -/
def dictEntriesIn : List (String × Value) → List (String × Value) → Bool
  | [], _ => true
  | (k, v) :: rest, ys =>
      (match findEntry ys k with
       | some v2 => valuesEqual v v2
       | Option.none => false) && dictEntriesIn rest ys

end

/-! ## Numeric casts

Rust numeric casts used by the interpreter, modelled exactly:
`f64 as i64` truncates toward zero and saturates to the `i64` range;
`i64 as usize` reinterprets modulo `2 ^ 64`; `usize as i64` likewise;
`f64 as usize` truncates and saturates to `[0, usize::MAX]`.
(The NaN-to-0 case of float casts has no counterpart in the rational
model.) -/

/-- Truncation of a rational toward zero (`f64::trunc`). -/
def ratTrunc (q : Rat) : Int := q.num.tdiv q.den

/-- Smallest `i64` value. -/
def i64Min : Int := -(2 ^ 63)

/-- Largest `i64` value. -/
def i64Max : Int := 2 ^ 63 - 1

/-- The saturating cast `f64 as i64`. -/
def toI64 (q : Rat) : Int := max i64Min (min i64Max (ratTrunc q))

/-- The reinterpreting cast `i64 as usize` (two's complement, modulo
`2 ^ 64`). -/
def i64ToUsize (i : Int) : Nat := (i % (2 ^ 64 : Int)).toNat

/-- The reinterpreting cast `usize as i64`. -/
def usizeToI64 (n : Nat) : Int :=
  let r : Int := (n : Int) % (2 ^ 64 : Int)
  if r < 2 ^ 63 then r else r - 2 ^ 64

/-- Wrapping `i64` addition (release-mode `+` on `i64`). -/
def addI64 (x y : Int) : Int := ((x + y + 2 ^ 63) % (2 ^ 64 : Int)) - 2 ^ 63

/-- The saturating cast `f64 as usize`. -/
def toUsize (q : Rat) : Nat := (max 0 (min ((2 ^ 64 : Int) - 1) (ratTrunc q))).toNat

/-! ## Value-layer operations that thread the ledger -/

/-- Result of a ledger-threading operation: the `Result` value together
with the ledger state afterwards (needed because error paths can drop
tracked values). -/
structure MResult (α : Type) where
  res : Except BopError α
  mem : Mem

/-- Indexed read, `Evaluator::index_into`.  Arrays and strings accept
numeric indices (`*n as i64`), negative indices are offset by the length
using the source's `(len as i64 + i) as usize` cast chain; dicts accept
string keys.  A successful read returns a deep clone of the element,
which the ledger tracks. -/
def indexInto (obj idx : Value) (line : Nat) (m : Mem) : MResult Value :=
  match obj, idx with
  | .array arr, .number n =>
      let i : Int := toI64 n
      let actual : Nat :=
        if i < 0 then i64ToUsize (addI64 (usizeToI64 arr.length) i) else i64ToUsize i
      match arr.get? actual with
      | some v => { res := .ok v, mem := memAlloc m (bytesVal v) }
      | Option.none =>
          { res := .error (mkError line ("Index " ++ toString i ++
              " is out of bounds (array has " ++ toString arr.length ++ " items)")),
            mem := m }
  | .str s, .number n =>
      let i : Int := toI64 n
      let chars := s.toList
      let actual : Nat :=
        if i < 0 then i64ToUsize (addI64 (usizeToI64 chars.length) i) else i64ToUsize i
      match chars.get? actual with
      | some c =>
          { res := .ok (.str (String.singleton c)),
            mem := memAlloc m (String.singleton c).utf8ByteSize }
      | Option.none =>
          { res := .error (mkError line ("Index " ++ toString i ++
              " is out of bounds (string has " ++ toString chars.length ++ " characters)")),
            mem := m }
  | .dict entries, .str key =>
      match findEntry entries key with
      | some v => { res := .ok v, mem := memAlloc m (bytesVal v) }
      | Option.none =>
          { res := .error (mkError line ("Key \"" ++ key ++ "\" not found in dict")),
            mem := m }
  | _, _ =>
      { res := .error (mkError line ("Can't index " ++ typeName obj ++ " with " ++
          typeName idx)),
        mem := m }

/-- Dict key set/replace, `BopDict::set_key`.  Replacing drops the old
value; inserting allocates the key's buffer and one entry slot of
buffer growth (exact-fit capacity model). -/
def setKey (entries : List (String × Value)) (key : String) (v : Value) (m : Mem) :
    List (String × Value) × Mem :=
  match entries with
  | [] => ([(key, v)], memAlloc (memAlloc m key.utf8ByteSize) sizeofPair)
  | (k, v0) :: rest =>
      if k == key then ((k, v) :: rest, memDealloc m (bytesVal v0))
      else
        let r := setKey rest key v m
        ((k, v0) :: r.1, r.2)

/-- Indexed write, `Evaluator::set_index`.  Only in-range array slots
(old value dropped) and dict keys (via `set_key`) are allowed; on any
error the value being stored is dropped (it was moved into the
function). -/
def setIndex (obj idx v : Value) (line : Nat) (m : Mem) : MResult Value :=
  match obj, idx with
  | .array arr, .number n =>
      let i : Int := toI64 n
      let len := arr.length
      let actual : Nat :=
        if i < 0 then i64ToUsize (addI64 (usizeToI64 len) i) else i64ToUsize i
      if h : actual < len then
        let old := arr.get ⟨actual, h⟩
        { res := .ok (.array (arr.set actual v)),
          mem := memDealloc m (bytesVal old) }
      else
        { res := .error (mkError line ("Index " ++ toString i ++
            " is out of bounds (array has " ++ toString len ++ " items)")),
          mem := memDealloc m (bytesVal v) }
  | .dict entries, .str key =>
      let r := setKey entries key v m
      { res := .ok (.dict r.1), mem := r.2 }
  | _, _ =>
      { res := .error (mkError line "Can't set index with these types"),
        mem := memDealloc m (bytesVal v) }

/-! ## String algorithm helpers

Rust `str` algorithms (`contains`, `find`, `split`, `replace`, `trim`,
case mapping) modelled over code-point lists.  UTF-8 byte order and
code-point order agree, so lexicographic comparison over code points
models Rust's byte-wise `str` ordering. -/

/-- UTF-8 byte length of a list of code points. -/
def charsByteLen (l : List Char) : Nat :=
  match l with
  | [] => 0
  | c :: rest => c.utf8Size + charsByteLen rest

/-- Whether `hay` starts with `needle` (code-point-wise). -/
def charsLeadWith (needle hay : List Char) : Bool :=
  match needle, hay with
  | [], _ => true
  | _ :: _, [] => false
  | a :: as', b :: bs => a == b && charsLeadWith as' bs

/-- Whether `hay` ends with `needle`. -/
def charsEndWith (needle hay : List Char) : Bool :=
  charsLeadWith needle.reverse hay.reverse

/-- First code-point index at which `needle` occurs in `hay`
(`str::find` up to the byte/char index conversion). -/
def charsFindSub (hay needle : List Char) : Option Nat :=
  match hay with
  | [] => if needle.isEmpty then some 0 else Option.none
  | _ :: rest =>
      if charsLeadWith needle hay then some 0
      else (charsFindSub rest needle).map (· + 1)

/-- Lexicographic strict comparison of code-point lists (models the
byte-wise `Ord` on Rust `str`). -/
def charsLt (a b : List Char) : Bool :=
  match a, b with
  | [], [] => false
  | [], _ :: _ => true
  | _ :: _, [] => false
  | x :: xs, y :: ys => x < y || (x == y && charsLt xs ys)

/-- Splitting on a non-empty separator, with `fuel` bounding the scan
(callers pass the hay length; each step consumes at least one
character). -/
def splitSubGo (fuel : Nat) (hay needle : List Char) (cur : List Char) :
    List (List Char) :=
  match fuel with
  | 0 => [cur.reverse]
  | f + 1 =>
      match hay with
      | [] => [cur.reverse]
      | c :: rest =>
          if charsLeadWith needle hay then
            cur.reverse :: splitSubGo f (hay.drop needle.length) needle []
          else
            splitSubGo f rest needle (c :: cur)

/-- Rust `str::split`: for an empty pattern the pieces are the empty
boundaries around every character; otherwise the standard split that
keeps empty pieces. -/
def splitSub (hay needle : List Char) : List (List Char) :=
  if needle.isEmpty then [] :: hay.map (fun c => [c]) ++ [[]]
  else splitSubGo (hay.length + 1) hay needle []

/-- Rust `str::trim` (Unicode whitespace from both ends). -/
def trimChars (l : List Char) : List Char :=
  ((l.dropWhile Char.isWhitespace).reverse.dropWhile Char.isWhitespace).reverse

/-- Display forms of values joined with a separator (used by `.join()`
and `print`). -/
def displayJoin (sep : String) (vals : List Value) : String :=
  String.intercalate sep (vals.map displayVal)

/-! ## Argument helpers (`builtins.rs`) -/

/-- Arity check, `builtins::expect_args`. -/
def expectArgs (name : String) (args : List Value) (expected : Nat) (line : Nat) :
    Except BopError Unit :=
  if args.length ≠ expected then
    .error (mkError line ("`" ++ name ++ "` expects " ++ toString expected ++
      " argument" ++ (if expected = 1 then "" else "s") ++ ", but got " ++
      toString args.length))
  else .ok ()

/-- Number extraction, `builtins::expect_number`. -/
def expectNumber (funcName : String) (v : Value) (line : Nat) : Except BopError Rat :=
  match v with
  | .number n => .ok n
  | _ => .error (mkError line ("`" ++ funcName ++ "` expects a number, but got " ++
      typeName v))

/-- Wrapping `usize` addition as it appears in the un-saturated
`a_len + b_len` of the pre-flight checks (release-mode wrap). -/
def wrapU64 (n : Nat) : Nat := n % 2 ^ 64

/-- Pre-flight check for string repeat,
`builtins::check_string_repeat_memory`. -/
def checkStringRepeatMemory (len count line : Nat) (m : Mem) : Except BopError Unit :=
  if memWouldExceed m (satMul len count) then
    .error (mkErrorHint line "Memory limit exceeded"
      "This string repeat would use too much memory.")
  else .ok ()

/-- Pre-flight check for string concat,
`builtins::check_string_concat_memory`. -/
def checkStringConcatMemory (aLen bLen line : Nat) (m : Mem) : Except BopError Unit :=
  if memWouldExceed m (wrapU64 (aLen + bLen)) then
    .error (mkErrorHint line "Memory limit exceeded"
      "This string concatenation would use too much memory.")
  else .ok ()

/-- Pre-flight check for array concat,
`builtins::check_array_concat_memory`. -/
def checkArrayConcatMemory (aLen bLen line : Nat) (m : Mem) : Except BopError Unit :=
  if memWouldExceed m (wrapU64 ((aLen + bLen) * sizeofValue)) then
    .error (mkErrorHint line "Memory limit exceeded"
      "This array concatenation would use too much memory.")
  else .ok ()

/-! ## Methods (`methods.rs`)

Each method returns `(return_value, optional_mutated_object)`.  Ledger
effects mirror the source: `arr.to_vec()` deep-clones every element
(each clone allocates its footprint), `args[i].clone()` likewise, and
`Value::new_array` / `new_str` allocate the result buffer. -/

/-- First index of an equal element, `arr.iter().position(...)`. -/
def findValueIdx (arr : List Value) (target : Value) : Option Nat :=
  match arr with
  | [] => Option.none
  | v :: rest =>
      if valuesEqual v target then some 0
      else (findValueIdx rest target).map (· + 1)

/-- Comparator of `.sort()`: numbers by `partial_cmp` (total on the
rational model), strings byte-wise, mixed pairs treated as equal.  The
`Bool` result is "not greater", which drives a stable merge sort
matching Rust's stable `sort_by`. -/
def sortLe (a b : Value) : Bool :=
  match a, b with
  | .number x, .number y => x ≤ y
  | .str x, .str y => !(charsLt y.toList x.toList)
  | _, _ => true

/-- Array methods, `methods::array_method`. -/
def arrayMethod (arr : List Value) (method : String) (args : List Value)
    (line : Nat) (m : Mem) : MResult (Value × Option Value) :=
  match method with
  | "len" => { res := .ok (.number arr.length, Option.none), mem := m }
  | "push" =>
      match args with
      | [a] =>
          let m1 := memAlloc m (bytesValList arr)
          let m2 := memAlloc m1 (bytesVal a)
          let newArr := arr ++ [a]
          { res := .ok (.none, some (.array newArr)),
            mem := memAlloc m2 (newArr.length * sizeofValue) }
      | _ => { res := .error (mkError line ".push() needs exactly 1 argument"), mem := m }
  | "pop" =>
      let m1 := memAlloc m (bytesValList arr)
      let popped := arr.getLast?.getD Value.none
      let newArr := arr.dropLast
      { res := .ok (popped, some (.array newArr)),
        mem := memAlloc m1 (newArr.length * sizeofValue) }
  | "has" =>
      match args with
      | [a] => { res := .ok (.bool (arr.any (fun v => valuesEqual v a)), Option.none), mem := m }
      | _ => { res := .error (mkError line ".has() needs exactly 1 argument"), mem := m }
  | "index_of" =>
      match args with
      | [a] =>
          let r : Rat := match findValueIdx arr a with
            | some i => (i : Rat)
            | Option.none => -1
          { res := .ok (.number r, Option.none), mem := m }
      | _ => { res := .error (mkError line ".index_of() needs exactly 1 argument"), mem := m }
  | "insert" =>
      match args with
      | [a0, a1] =>
          match expectNumber "insert" a0 line with
          | .error e => { res := .error e, mem := m }
          | .ok n =>
              let i := toUsize n
              let m1 := memAlloc m (bytesValList arr)
              if i > arr.length then
                { res := .error (mkError line ("Insert index " ++ toString i ++
                    " is out of bounds")),
                  mem := memDealloc m1 (bytesValList arr) }
              else
                let m2 := memAlloc m1 (bytesVal a1)
                let newArr := arr.insertIdx i a1
                { res := .ok (.none, some (.array newArr)),
                  mem := memAlloc m2 (newArr.length * sizeofValue) }
      | _ => { res := .error (mkError line ".insert() needs 2 arguments: index and value"),
               mem := m }
  | "remove" =>
      match args with
      | [a0] =>
          match expectNumber "remove" a0 line with
          | .error e => { res := .error e, mem := m }
          | .ok n =>
              let i := toUsize n
              let m1 := memAlloc m (bytesValList arr)
              if h : i < arr.length then
                let removed := arr.get ⟨i, h⟩
                let newArr := arr.eraseIdx i
                { res := .ok (removed, some (.array newArr)),
                  mem := memAlloc m1 (newArr.length * sizeofValue) }
              else
                { res := .error (mkError line ("Remove index " ++ toString i ++
                    " is out of bounds")),
                  mem := memDealloc m1 (bytesValList arr) }
      | _ => { res := .error (mkError line ".remove() needs exactly 1 argument (index)"),
               mem := m }
  | "slice" =>
      match args with
      | [a0, a1] =>
          match expectNumber "slice" a0 line with
          | .error e => { res := .error e, mem := m }
          | .ok n0 =>
              match expectNumber "slice" a1 line with
              | .error e => { res := .error e, mem := m }
              | .ok n1 =>
                  let start0 := toUsize n0
                  let endIdx := min (toUsize n1) arr.length
                  let start := min start0 endIdx
                  let piece := (arr.drop start).take (endIdx - start)
                  let m1 := memAlloc m (bytesValList piece)
                  { res := .ok (.array piece, Option.none),
                    mem := memAlloc m1 (piece.length * sizeofValue) }
      | _ => { res := .error (mkError line ".slice() needs 2 arguments: start and end"),
               mem := m }
  | "reverse" =>
      let m1 := memAlloc m (bytesValList arr)
      let newArr := arr.reverse
      { res := .ok (.none, some (.array newArr)),
        mem := memAlloc m1 (newArr.length * sizeofValue) }
  | "sort" =>
      let m1 := memAlloc m (bytesValList arr)
      let newArr := arr.mergeSort sortLe
      { res := .ok (.none, some (.array newArr)),
        mem := memAlloc m1 (newArr.length * sizeofValue) }
  | "join" =>
      match args with
      | [a] =>
          match a with
          | .str sep =>
              let result := displayJoin sep arr
              { res := .ok (.str result, Option.none),
                mem := memAlloc m result.utf8ByteSize }
          | _ => { res := .error (mkError line ".join() separator must be a string"), mem := m }
      | _ => { res := .error (mkError line ".join() needs exactly 1 argument (separator)"),
               mem := m }
  | _ =>
      { res := .error (mkError line ("Array doesn't have a ." ++ method ++ "() method")),
        mem := m }

/-- String methods, `methods::string_method`. -/
def stringMethod (s : String) (method : String) (args : List Value)
    (line : Nat) (m : Mem) : MResult (Value × Option Value) :=
  match method with
  | "len" => { res := .ok (.number s.toList.length, Option.none), mem := m }
  | "contains" =>
      match args with
      | [.str sub] =>
          { res := .ok (.bool (charsFindSub s.toList sub.toList).isSome, Option.none), mem := m }
      | [_] => { res := .error (mkError line ".contains() needs a string argument"), mem := m }
      | _ => { res := .error (mkError line ".contains() needs 1 argument"), mem := m }
  | "starts_with" =>
      match args with
      | [.str p] =>
          { res := .ok (.bool (charsLeadWith p.toList s.toList), Option.none), mem := m }
      | [_] => { res := .error (mkError line ".starts_with() needs a string"), mem := m }
      | _ => { res := .error (mkError line ".starts_with() needs 1 argument"), mem := m }
  | "ends_with" =>
      match args with
      | [.str suf] =>
          { res := .ok (.bool (charsEndWith suf.toList s.toList), Option.none), mem := m }
      | [_] => { res := .error (mkError line ".ends_with() needs a string"), mem := m }
      | _ => { res := .error (mkError line ".ends_with() needs 1 argument"), mem := m }
  | "index_of" =>
      match args with
      | [.str sub] =>
          let r : Rat := match charsFindSub s.toList sub.toList with
            | some i => (charsByteLen (s.toList.take i) : Rat)
            | Option.none => -1
          { res := .ok (.number r, Option.none), mem := m }
      | [_] => { res := .error (mkError line ".index_of() needs a string"), mem := m }
      | _ => { res := .error (mkError line ".index_of() needs 1 argument"), mem := m }
  | "split" =>
      match args with
      | [.str sep] =>
          let pieces := (splitSub s.toList sep.toList).map (fun cs => String.mk cs)
          let m1 := memAlloc m ((pieces.map String.utf8ByteSize).sum)
          { res := .ok (.array (pieces.map Value.str), Option.none),
            mem := memAlloc m1 (pieces.length * sizeofValue) }
      | [_] => { res := .error (mkError line ".split() needs a string"), mem := m }
      | _ => { res := .error (mkError line ".split() needs 1 argument"), mem := m }
  | "replace" =>
      match args with
      | [.str old, .str new] =>
          let result := String.intercalate new
            ((splitSub s.toList old.toList).map (fun cs => String.mk cs))
          { res := .ok (.str result, Option.none),
            mem := memAlloc m result.utf8ByteSize }
      | [_, _] => { res := .error (mkError line ".replace() arguments must be strings"),
                    mem := m }
      | _ => { res := .error (mkError line ".replace() needs 2 arguments: old and new"),
               mem := m }
  | "upper" =>
      let result := String.mk (s.toList.map Char.toUpper)
      { res := .ok (.str result, Option.none), mem := memAlloc m result.utf8ByteSize }
  | "lower" =>
      let result := String.mk (s.toList.map Char.toLower)
      { res := .ok (.str result, Option.none), mem := memAlloc m result.utf8ByteSize }
  | "trim" =>
      let result := String.mk (trimChars s.toList)
      { res := .ok (.str result, Option.none), mem := memAlloc m result.utf8ByteSize }
  | "slice" =>
      match args with
      | [a0, a1] =>
          match expectNumber "slice" a0 line with
          | .error e => { res := .error e, mem := m }
          | .ok n0 =>
              match expectNumber "slice" a1 line with
              | .error e => { res := .error e, mem := m }
              | .ok n1 =>
                  let chars := s.toList
                  let start0 := toUsize n0
                  let endIdx := min (toUsize n1) chars.length
                  let start := min start0 endIdx
                  let result := String.mk ((chars.drop start).take (endIdx - start))
                  { res := .ok (.str result, Option.none),
                    mem := memAlloc m result.utf8ByteSize }
      | _ => { res := .error (mkError line ".slice() needs 2 arguments: start and end"),
               mem := m }
  | _ =>
      { res := .error (mkError line ("String doesn't have a ." ++ method ++ "() method")),
        mem := m }

/-- Dict methods, `methods::dict_method`. -/
def dictMethod (entries : List (String × Value)) (method : String) (args : List Value)
    (line : Nat) (m : Mem) : MResult (Value × Option Value) :=
  match method with
  | "len" => { res := .ok (.number entries.length, Option.none), mem := m }
  | "keys" =>
      let keys := entries.map (fun e => Value.str e.1)
      let m1 := memAlloc m ((entries.map (fun e => e.1.utf8ByteSize)).sum)
      { res := .ok (.array keys, Option.none),
        mem := memAlloc m1 (keys.length * sizeofValue) }
  | "values" =>
      let vals := entries.map (fun e => e.2)
      let m1 := memAlloc m (bytesValList vals)
      { res := .ok (.array vals, Option.none),
        mem := memAlloc m1 (vals.length * sizeofValue) }
  | "has" =>
      match args with
      | [.str key] =>
          { res := .ok (.bool (entries.any (fun e => e.1 == key)), Option.none), mem := m }
      | [_] => { res := .error (mkError line ".has() needs a string key"), mem := m }
      | _ => { res := .error (mkError line ".has() needs 1 argument"), mem := m }
  | _ =>
      { res := .error (mkError line ("Dict doesn't have a ." ++ method ++ "() method")),
        mem := m }

/-- The fixed set of mutating methods, `methods::is_mutating_method`. -/
def isMutatingMethod (method : String) : Bool :=
  method == "push" || method == "pop" || method == "insert" ||
  method == "remove" || method == "reverse" || method == "sort"

/-! ## Built-in functions (`builtins.rs`) -/

/-- Digit run to a natural number (most significant first). -/
def digitsToNat (l : List Char) : Nat :=
  l.foldl (fun acc c => acc * 10 + (c.toNat - '0'.toNat)) 0

/-- Modelled from the Rust standard library: `str::parse::<f64>` as used
by `builtin_int` on string arguments.  Accepts an optional sign, a
decimal mantissa and an optional decimal exponent, producing the exact
rational; the float-specific inputs (`inf`, `NaN`, hex) and rounding are
not modelled. -/
def parseF64 (s : String) : Option Rat :=
  let cs := s.toList
  let sgnCs : Int × List Char :=
    match cs with
    | '-' :: r => (-1, r)
    | '+' :: r => (1, r)
    | _ => (1, cs)
  let sgn := sgnCs.1
  let cs1 := sgnCs.2
  let intPart := cs1.takeWhile Char.isDigit
  let rest1 := cs1.dropWhile Char.isDigit
  let fracRest : List Char × List Char :=
    match rest1 with
    | '.' :: r => (r.takeWhile Char.isDigit, r.dropWhile Char.isDigit)
    | _ => ([], rest1)
  let frac := fracRest.1
  let rest2 := fracRest.2
  if intPart.isEmpty ∧ frac.isEmpty then Option.none
  else
    let mant : Rat := (digitsToNat (intPart ++ frac) : Rat) / ((10 : Rat) ^ frac.length)
    match rest2 with
    | [] => some (sgn * mant)
    | 'e' :: r | 'E' :: r =>
        let esgnCs : Int × List Char :=
          match r with
          | '-' :: r2 => (-1, r2)
          | '+' :: r2 => (1, r2)
          | _ => (1, r)
        let eds := esgnCs.2
        if eds.isEmpty ∨ ¬(eds.all Char.isDigit) then Option.none
        else some (sgn * mant * (10 : Rat) ^ (esgnCs.1 * digitsToNat eds))
    | _ => Option.none

/-- Ascending range loop of `builtin_range` (`while i < end &&
result.len() < max_items`); `remaining` is `max_items - result.len()`. -/
def rangeLoopUp (i endv step : Rat) (remaining : Nat) : List Rat :=
  match remaining with
  | 0 => []
  | r + 1 => if i < endv then i :: rangeLoopUp (i + step) endv step r else []

/-- Descending range loop of `builtin_range` (`while i > end && ...`). -/
def rangeLoopDown (i endv step : Rat) (remaining : Nat) : List Rat :=
  match remaining with
  | 0 => []
  | r + 1 => if endv < i then i :: rangeLoopDown (i + step) endv step r else []

/-- The hard cap on produced elements in `builtin_range`
(`max_items`). -/
def rangeMaxItems : Nat := 10000

/-- The built-in `range`, `builtins::builtin_range`.  The `rand_state`
parameter is unused, as in the source. -/
def builtinRange (args : List Value) (line : Nat) (randState : Nat) (m : Mem) :
    MResult Value :=
  let _ := randState
  let go : Rat → Rat → Rat → MResult Value := fun start endv step =>
    let result :=
      if 0 < step then rangeLoopUp start endv step rangeMaxItems
      else rangeLoopDown start endv step rangeMaxItems
    { res := .ok (.array (result.map Value.number)),
      mem := memAlloc m (result.length * sizeofValue) }
  match args with
  | [a] =>
      match expectNumber "range" a line with
      | .error e => { res := .error e, mem := m }
      | .ok n => go 0 n 1
  | [a, b] =>
      match expectNumber "range" a line with
      | .error e => { res := .error e, mem := m }
      | .ok start =>
          match expectNumber "range" b line with
          | .error e => { res := .error e, mem := m }
          | .ok endv => go start endv (if start ≤ endv then 1 else -1)
  | [a, b, c] =>
      match expectNumber "range" a line with
      | .error e => { res := .error e, mem := m }
      | .ok start =>
          match expectNumber "range" b line with
          | .error e => { res := .error e, mem := m }
          | .ok endv =>
              match expectNumber "range" c line with
              | .error e => { res := .error e, mem := m }
              | .ok step =>
                  if step == 0 then
                    { res := .error (mkError line "range step can't be 0"), mem := m }
                  else go start endv step
  | _ => { res := .error (mkError line "range takes 1, 2, or 3 arguments"), mem := m }

/-- The built-in `str`, `builtins::builtin_str`. -/
def builtinStr (args : List Value) (line : Nat) (m : Mem) : MResult Value :=
  match expectArgs "str" args 1 line with
  | .error e => { res := .error e, mem := m }
  | .ok _ =>
      match args with
      | a :: _ =>
          let s := displayVal a
          { res := .ok (.str s), mem := memAlloc m s.utf8ByteSize }
      | [] => { res := .error (mkError line "`str` expects 1 argument, but got 0"), mem := m }

/-- The built-in `int`, `builtins::builtin_int`. -/
def builtinInt (args : List Value) (line : Nat) (m : Mem) : MResult Value :=
  match expectArgs "int" args 1 line with
  | .error e => { res := .error e, mem := m }
  | .ok _ =>
      match args with
      | .number n :: _ => { res := .ok (.number (ratTrunc n : Int)), mem := m }
      | .str s :: _ =>
          match parseF64 s with
          | some n => { res := .ok (.number (ratTrunc n : Int)), mem := m }
          | Option.none =>
              { res := .error (mkError line ("Can't convert \"" ++ s ++ "\" to a number")),
                mem := m }
      | .bool b :: _ => { res := .ok (.number (if b then 1 else 0)), mem := m }
      | v :: _ =>
          { res := .error (mkError line ("Can't convert " ++ typeName v ++ " to int")),
            mem := m }
      | [] => { res := .error (mkError line "`int` expects 1 argument, but got 0"), mem := m }

/-- The built-in `type`, `builtins::builtin_type`. -/
def builtinType (args : List Value) (line : Nat) (m : Mem) : MResult Value :=
  match expectArgs "type" args 1 line with
  | .error e => { res := .error e, mem := m }
  | .ok _ =>
      match args with
      | a :: _ =>
          let s := typeName a
          { res := .ok (.str s), mem := memAlloc m s.utf8ByteSize }
      | [] => { res := .error (mkError line "`type` expects 1 argument, but got 0"), mem := m }

/-- The built-in `abs`, `builtins::builtin_abs`. -/
def builtinAbs (args : List Value) (line : Nat) (m : Mem) : MResult Value :=
  match expectArgs "abs" args 1 line with
  | .error e => { res := .error e, mem := m }
  | .ok _ =>
      match args with
      | a :: _ =>
          match expectNumber "abs" a line with
          | .error e => { res := .error e, mem := m }
          | .ok n => { res := .ok (.number (if n < 0 then -n else n)), mem := m }
      | [] => { res := .error (mkError line "`abs` expects 1 argument, but got 0"), mem := m }

/-- The built-in `min`, `builtins::builtin_min`. -/
def builtinMin (args : List Value) (line : Nat) (m : Mem) : MResult Value :=
  match expectArgs "min" args 2 line with
  | .error e => { res := .error e, mem := m }
  | .ok _ =>
      match args with
      | a :: b :: _ =>
          match expectNumber "min" a line with
          | .error e => { res := .error e, mem := m }
          | .ok x =>
              match expectNumber "min" b line with
              | .error e => { res := .error e, mem := m }
              | .ok y => { res := .ok (.number (min x y)), mem := m }
      | _ => { res := .error (mkError line "`min` expects 2 arguments"), mem := m }

/-- The built-in `max`, `builtins::builtin_max`. -/
def builtinMax (args : List Value) (line : Nat) (m : Mem) : MResult Value :=
  match expectArgs "max" args 2 line with
  | .error e => { res := .error e, mem := m }
  | .ok _ =>
      match args with
      | a :: b :: _ =>
          match expectNumber "max" a line with
          | .error e => { res := .error e, mem := m }
          | .ok x =>
              match expectNumber "max" b line with
              | .error e => { res := .error e, mem := m }
              | .ok y => { res := .ok (.number (max x y)), mem := m }
      | _ => { res := .error (mkError line "`max` expects 2 arguments"), mem := m }

/-- The LCG multiplier of `builtin_rand`. -/
def randMul : Nat := 6364136223846793005

/-- The LCG increment of `builtin_rand`. -/
def randInc : Nat := 1442695040888963407

/-- The built-in `rand`, `builtins::builtin_rand`: deterministic
wrapping-u64 LCG; returns the result together with the updated
generator state. -/
def builtinRand (args : List Value) (line : Nat) (randState : Nat) (m : Mem) :
    MResult Value × Nat :=
  match expectArgs "rand" args 1 line with
  | .error e => ({ res := .error e, mem := m }, randState)
  | .ok _ =>
      match args with
      | a :: _ =>
          match expectNumber "rand" a line with
          | .error e => ({ res := .error e, mem := m }, randState)
          | .ok q =>
              let n : Int := toI64 q
              if n ≤ 0 then
                ({ res := .error (mkError line "rand needs a positive number"), mem := m },
                 randState)
              else
                let state' := (randState * randMul + randInc) % 2 ^ 64
                let value : Nat := (state' / 2 ^ 33) % n.toNat
                ({ res := .ok (.number (value : Rat)), mem := m }, state')
      | [] => ({ res := .error (mkError line "`rand` expects 1 argument, but got 0"), mem := m },
               randState)

/-- The built-in `len`, `builtins::builtin_len`. -/
def builtinLen (args : List Value) (line : Nat) (m : Mem) : MResult Value :=
  match expectArgs "len" args 1 line with
  | .error e => { res := .error e, mem := m }
  | .ok _ =>
      match args with
      | .str s :: _ => { res := .ok (.number s.toList.length), mem := m }
      | .array a :: _ => { res := .ok (.number a.length), mem := m }
      | .dict d :: _ => { res := .ok (.number d.length), mem := m }
      | v :: _ =>
          { res := .error (mkError line ("Can't get length of " ++ typeName v)), mem := m }
      | [] => { res := .error (mkError line "`len` expects 1 argument, but got 0"), mem := m }

/-- The built-in `inspect`, `builtins::builtin_inspect`. -/
def builtinInspect (args : List Value) (line : Nat) (m : Mem) : MResult Value :=
  match expectArgs "inspect" args 1 line with
  | .error e => { res := .error e, mem := m }
  | .ok _ =>
      match args with
      | a :: _ =>
          let s := inspectVal a
          { res := .ok (.str s), mem := memAlloc m s.utf8ByteSize }
      | [] => { res := .error (mkError line "`inspect` expects 1 argument, but got 0"),
                mem := m }

/-! ## Tokens and automatic semicolon insertion (`lexer.rs`) -/

/-- A piece of an interpolated string, `lexer::StringPart`. -/
inductive StringPart where
  | literal : String → StringPart
  | variable : String → StringPart
deriving Repr, DecidableEq

/-- The token type, `lexer::Token`. -/
inductive Token where
  | number : Rat → Token
  | str : String → Token
  | stringInterp : List StringPart → Token
  | kwTrue | kwFalse | kwNone
  | ident : String → Token
  | kwLet | kwFn | kwReturn | kwIf | kwElse | kwWhile | kwFor | kwIn
  | kwRepeat | kwBreak | kwContinue
  | plus | minus | star | slash | percent
  | eqEq | bangEq | lt | gt | ltEq | gtEq
  | ampAmp | pipePipe | bang
  | eq | plusEq | minusEq | starEq | slashEq | percentEq
  | lparen | rparen | lbracket | rbracket | lbrace | rbrace
  | comma | colon | dot | semicolon
  | newline
  | eof
deriving Repr, DecidableEq

/-- A token with its source line, `lexer::SpannedToken`. -/
structure SpannedToken where
  token : Token
  line : Nat
deriving Repr, DecidableEq

/-- Whether a token can legally end a statement,
`lexer::triggers_semicolon`. -/
def triggersSemicolon (t : Token) : Bool :=
  match t with
  | .ident _ => true
  | .number _ => true
  | .str _ => true
  | .stringInterp _ => true
  | .kwTrue => true
  | .kwFalse => true
  | .kwNone => true
  | .kwBreak => true
  | .kwContinue => true
  | .kwReturn => true
  | .rparen => true
  | .rbracket => true
  | .rbrace => true
  | _ => false

/-- The accumulating loop of `lexer::insert_semicolons`: `result` is the
vector built so far, `raw` the remaining input. -/
def insertSemicolonsGo (result : List SpannedToken) (raw : List SpannedToken) :
    List SpannedToken :=
  match raw with
  | [] => result
  | t :: rest =>
      if t.token = Token.newline then
        match result.getLast? with
        | some last =>
            if triggersSemicolon last.token then
              insertSemicolonsGo (result ++ [⟨Token.semicolon, t.line⟩]) rest
            else insertSemicolonsGo result rest
        | Option.none => insertSemicolonsGo result rest
      else insertSemicolonsGo (result ++ [t]) rest

/-- Automatic semicolon insertion, `lexer::insert_semicolons`: newlines
become semicolons after statement-ending tokens and are otherwise
discarded. -/
def insertSemicolons (raw : List SpannedToken) : List SpannedToken :=
  insertSemicolonsGo [] raw

/-! ## AST (`parser.rs`) -/

/-- Binary operators, `parser::BinOp`. -/
inductive BinOp where
  | add | sub | mul | div | mod
  | beq | bneq | blt | bgt | bltEq | bgtEq
  | band | bor
deriving Repr, DecidableEq

/-- Unary operators, `parser::UnaryOp`. -/
inductive UnaryOp where
  | neg | not
deriving Repr, DecidableEq

/-- Assignment operators, `parser::AssignOp`. -/
inductive AssignOp where
  | eq | addEq | subEq | mulEq | divEq | modEq
deriving Repr, DecidableEq

mutual

/-- An expression with its source line, `parser::Expr`. -/
inductive Expr where
  | mk : ExprKind → Nat → Expr

/-- Expression forms, `parser::ExprKind`. -/
inductive ExprKind where
  | number : Rat → ExprKind
  | str : String → ExprKind
  | stringInterp : List StringPart → ExprKind
  | bool : Bool → ExprKind
  | none : ExprKind
  | ident : String → ExprKind
  | binaryOp : Expr → BinOp → Expr → ExprKind
  | unaryOp : UnaryOp → Expr → ExprKind
  | call : Expr → List Expr → ExprKind
  | methodCall : Expr → String → List Expr → ExprKind
  | index : Expr → Expr → ExprKind
  | array : List Expr → ExprKind
  | dict : List (String × Expr) → ExprKind
  | ifExpr : Expr → Expr → Expr → ExprKind

end

/-- The expression's form. -/
def Expr.kind : Expr → ExprKind
  | .mk k _ => k

/-- The expression's source line. -/
def Expr.line : Expr → Nat
  | .mk _ l => l

/-- Assignment targets, `parser::AssignTarget`: a variable or an
`object[index]` place. -/
inductive AssignTarget where
  | variable : String → AssignTarget
  | index : Expr → Expr → AssignTarget

mutual

/-- A statement with its source line, `parser::Stmt`. -/
inductive Stmt where
  | mk : StmtKind → Nat → Stmt

/-- Statement forms, `parser::StmtKind`.  `sIf` carries the `if` body,
the `else if` branches and the optional `else` body. -/
inductive StmtKind where
  | sLet : String → Expr → StmtKind
  | assign : AssignTarget → AssignOp → Expr → StmtKind
  | sIf : Expr → List Stmt → List (Expr × List Stmt) → Option (List Stmt) → StmtKind
  | sWhile : Expr → List Stmt → StmtKind
  | sRepeat : Expr → List Stmt → StmtKind
  | forIn : String → Expr → List Stmt → StmtKind
  | fnDecl : String → List String → List Stmt → StmtKind
  | sReturn : Option Expr → StmtKind
  | sBreak : StmtKind
  | sContinue : StmtKind
  | exprStmt : Expr → StmtKind

end

/-- The statement's form. -/
def Stmt.kind : Stmt → StmtKind
  | .mk k _ => k

/-- The statement's source line. -/
def Stmt.line : Stmt → Nat
  | .mk _ l => l

/-! ## Instruction counting (`parser.rs`, `count_instructions`) -/

/-- Wrapping `u32` arithmetic (the counter is a `u32`; release-mode adds
wrap). -/
def wrapU32 (n : Nat) : Nat := n % 2 ^ 32

mutual

/-- Instruction count of a statement list, `parser::count_instructions`:
each statement contributes 1; `if`/`while`/`repeat`/`for` recurse into
their bodies; `fn` counts 1 without recursing into the function body. -/
def countInstructions : List Stmt → Nat
  | [] => 0
  | s :: rest => wrapU32 (countStmt s + countInstructions rest)

/-- Contribution of one statement (the 1 for the statement itself plus
its recursive bodies). -/
def countStmt : Stmt → Nat
  | .mk k _ =>
      match k with
      | .sIf _ body elifs elseB =>
          wrapU32 (1 + countInstructions body + countElifBodies elifs +
            countOptBlock elseB)
      | .sWhile _ body => wrapU32 (1 + countInstructions body)
      | .sRepeat _ body => wrapU32 (1 + countInstructions body)
      | .forIn _ _ body => wrapU32 (1 + countInstructions body)
      | _ => 1

/-- Count of the `else if` branch bodies. -/
def countElifBodies : List (Expr × List Stmt) → Nat
  | [] => 0
  | (_, b) :: rest => wrapU32 (countInstructions b + countElifBodies rest)

/-- Count of an optional `else` body. -/
def countOptBlock : Option (List Stmt) → Nat
  | Option.none => 0
  | some b => countInstructions b

end

/-! ## Evaluator state (`evaluator.rs`, `lib.rs`) -/

/-- Resource limits, `BopLimits` (`max_steps: u64`,
`max_memory: usize`). -/
structure BopLimits where
  maxSteps : Nat
  maxMemory : Nat
deriving Repr, DecidableEq

/-- A user function definition, `evaluator::FnDef`. -/
structure FnDef where
  params : List String
  body : List Stmt

/-- The host contract (`BopHost`), modelled as pure functions over an
opaque host state `σ`.  A `call` that returns `some` may hand back a
`Value`; the embedding tracks that value's construction (in Rust a host
can only build `Value`s through the tracked constructors). -/
structure Host (σ : Type) where
  call : σ → String → List Value → Nat → σ × Option (Except BopError Value)
  onPrint : σ → String → σ
  functionHint : σ → String
  onTick : σ → σ × Option BopError

/-- The evaluator state: lexical scope stack (head = innermost), flat
function table, step counter (`u64`), call depth, limits, PRNG state
(`u64`), the thread-local memory ledger and the host state. -/
structure EvalState (σ : Type) where
  scopes : List (List (String × Value))
  functions : List (String × FnDef)
  steps : Nat
  callDepth : Nat
  limits : BopLimits
  randState : Nat
  mem : Mem
  host : σ

/-- Result of an evaluator operation: success or error, each with the
evaluator state afterwards (in Rust, `self` survives an `Err` return),
or fuel exhaustion of the embedding.  `out` is an artefact of the
fuel-indexed encoding: a run that returns `out` for every fuel is a
diverging Rust execution. -/
inductive RunRes (σ : Type) (α : Type) where
  | ok : α → EvalState σ → RunRes σ α
  | err : BopError → EvalState σ → RunRes σ α
  | out : RunRes σ α

/-- Control-flow signals of block execution, `evaluator::Signal`. -/
inductive Signal where
  | none : Signal
  | brk : Signal
  | cont : Signal
  | ret : Value → Signal

/-- Footprint of a signal (a `Return` carries a value). -/
def bytesSignal : Signal → Nat
  | .ret v => bytesVal v
  | _ => 0

/-- Footprint of one scope (keys are plain Rust `String`s, not tracked
values). -/
def scopeBytes (sc : List (String × Value)) : Nat :=
  match sc with
  | [] => 0
  | (_, v) :: rest => bytesVal v + scopeBytes rest

/-- Footprint of a scope stack. -/
def scopesBytes (l : List (List (String × Value))) : Nat :=
  match l with
  | [] => 0
  | sc :: rest => scopeBytes sc + scopesBytes rest

/-- Ledger allocation applied to the evaluator state. -/
def stAlloc {σ : Type} (st : EvalState σ) (bytes : Nat) : EvalState σ :=
  { st with mem := memAlloc st.mem bytes }

/-- Ledger deallocation applied to the evaluator state. -/
def stDealloc {σ : Type} (st : EvalState σ) (bytes : Nat) : EvalState σ :=
  { st with mem := memDealloc st.mem bytes }

/-- Variable lookup, `Evaluator::get_var`: innermost scope outward. -/
def getVar {σ : Type} (st : EvalState σ) (name : String) : Option Value :=
  lookupScopes st.scopes name
where
  /-- Walk the scope stack. -/
  lookupScopes : List (List (String × Value)) → String → Option Value
    | [], _ => Option.none
    | sc :: rest, n =>
        match lookupScope sc n with
        | some v => some v
        | Option.none => lookupScopes rest n
  /-- Walk one scope. -/
  lookupScope : List (String × Value) → String → Option Value
    | [], _ => Option.none
    | (k, v) :: rest, n => if k = n then some v else lookupScope rest n

/-- Insert-or-replace in one scope (`HashMap::insert`); replacing drops
the old value. -/
def scopeInsert (sc : List (String × Value)) (name : String) (v : Value) (m : Mem) :
    List (String × Value) × Mem :=
  match sc with
  | [] => ([(name, v)], m)
  | (k, v0) :: rest =>
      if k = name then ((k, v) :: rest, memDealloc m (bytesVal v0))
      else
        let r := scopeInsert rest name v m
        ((k, v0) :: r.1, r.2)

/-- Whether a scope contains a name (`HashMap::contains_key`). -/
def scopeHas (sc : List (String × Value)) (name : String) : Bool :=
  match sc with
  | [] => false
  | (k, _) :: rest => k = name || scopeHas rest name

/-- Define in the innermost scope, `Evaluator::define`.  With no scope
on the stack the value is simply dropped (the `if let` fails). -/
def defineVar {σ : Type} (st : EvalState σ) (name : String) (v : Value) : EvalState σ :=
  match st.scopes with
  | [] => stDealloc st (bytesVal v)
  | sc :: rest =>
      let r := scopeInsert sc name v st.mem
      { st with scopes := r.1 :: rest, mem := r.2 }

/-- Walk of `Evaluator::set_var` over the scope stack: replace in the
first scope that contains the name (dropping the old value); report
whether a scope was found.  When no scope contains the name the moved-in
value is dropped by `set_var`. -/
def setVarScopes (scopes : List (List (String × Value))) (name : String) (v : Value)
    (m : Mem) : List (List (String × Value)) × Mem × Bool :=
  match scopes with
  | [] => ([], memDealloc m (bytesVal v), false)
  | sc :: rest =>
      if scopeHas sc name then
        let r := scopeInsert sc name v m
        (r.1 :: rest, r.2, true)
      else
        let r := setVarScopes rest name v m
        (sc :: r.1, r.2.1, r.2.2)

/-- Assignment to an existing variable, `Evaluator::set_var`. -/
def setVar {σ : Type} (st : EvalState σ) (name : String) (v : Value) :
    EvalState σ × Bool :=
  let r := setVarScopes st.scopes name v st.mem
  ({ st with scopes := r.1, mem := r.2.1 }, r.2.2)

/-- Open a scope, `Evaluator::push_scope`. -/
def pushScope {σ : Type} (st : EvalState σ) : EvalState σ :=
  { st with scopes := [] :: st.scopes }

/-- Close the innermost scope, `Evaluator::pop_scope`; its values are
dropped. -/
def popScope {σ : Type} (st : EvalState σ) : EvalState σ :=
  match st.scopes with
  | [] => st
  | sc :: rest => { st with scopes := rest, mem := memDealloc st.mem (scopeBytes sc) }

/-- Insert-or-replace in the function table
(`self.functions.insert`). -/
def fnInsert (fns : List (String × FnDef)) (name : String) (fd : FnDef) :
    List (String × FnDef) :=
  match fns with
  | [] => [(name, fd)]
  | (k, f0) :: rest =>
      if k = name then (k, fd) :: rest else (k, f0) :: fnInsert rest name fd

/-- Function table lookup. -/
def fnLookup (fns : List (String × FnDef)) (name : String) : Option FnDef :=
  match fns with
  | [] => Option.none
  | (k, f) :: rest => if k = name then some f else fnLookup rest name

/-- Bind call arguments to parameters in the innermost scope
(`params.iter().zip(args)` with `define`). -/
def bindParams {σ : Type} (params : List String) (args : List Value)
    (st : EvalState σ) : EvalState σ :=
  match params, args with
  | p :: ps, a :: as' => bindParams ps as' (defineVar st p a)
  | _, _ => st

/-- One tick, `Evaluator::tick`: wrapping-u64 step increment, step-limit
check, memory check, host `on_tick`. -/
def tick {σ : Type} (H : Host σ) (line : Nat) (st : EvalState σ) : RunRes σ Unit :=
  let steps' := (st.steps + 1) % 2 ^ 64
  let st1 : EvalState σ := { st with steps := steps' }
  if st1.limits.maxSteps < steps' then
    .err (mkErrorHint line "Your code took too many steps (possible infinite loop)"
      "Check your loops — make sure they have a condition that eventually stops them.") st1
  else if memExceeded st1.mem then
    .err (mkErrorHint line "Memory limit exceeded"
      "Your code is using too much memory. Check for large strings or arrays growing in loops.")
      st1
  else
    match H.onTick st1.host with
    | (h', some e) => .err e { st1 with host := h' }
    | (h', Option.none) => .ok () { st1 with host := h' }

/-- Rust `str::repeat`. -/
def strRepeat (s : String) (n : Nat) : String :=
  String.join (List.replicate n s)

/-- Hand a builtin's result back to `call_function`: the borrowed
argument vector is dropped when `call_function` returns. -/
def finishBuiltin {σ : Type} (st : EvalState σ) (args : List Value)
    (r : MResult Value) : RunRes σ Value :=
  match r.res with
  | .ok v => .ok v (stDealloc { st with mem := r.mem } (bytesValList args))
  | .error e => .err e (stDealloc { st with mem := r.mem } (bytesValList args))

/-- Binary operators on values, `Evaluator::binary_op` (with the
`numeric_op` and `compare_op` helpers inlined as their match arms).
Operands are borrowed; the caller drops them. -/
def binaryOp (left : Value) (op : BinOp) (right : Value) (line : Nat) (m : Mem) :
    MResult Value :=
  match op with
  | .add =>
      match left, right with
      | .number a, .number b => { res := .ok (.number (a + b)), mem := m }
      | .str a, .str b =>
          match checkStringConcatMemory a.utf8ByteSize b.utf8ByteSize line m with
          | .error e => { res := .error e, mem := m }
          | .ok _ =>
              let s := a ++ b
              { res := .ok (.str s), mem := memAlloc m s.utf8ByteSize }
      | .str a, b =>
          let bd := displayVal b
          match checkStringConcatMemory a.utf8ByteSize bd.utf8ByteSize line m with
          | .error e => { res := .error e, mem := m }
          | .ok _ =>
              let s := a ++ bd
              { res := .ok (.str s), mem := memAlloc m s.utf8ByteSize }
      | a, .str b =>
          let ad := displayVal a
          match checkStringConcatMemory ad.utf8ByteSize b.utf8ByteSize line m with
          | .error e => { res := .error e, mem := m }
          | .ok _ =>
              let s := ad ++ b
              { res := .ok (.str s), mem := memAlloc m s.utf8ByteSize }
      | .array a, .array b =>
          match checkArrayConcatMemory a.length b.length line m with
          | .error e => { res := .error e, mem := m }
          | .ok _ =>
              let m1 := memAlloc m (bytesValList a + bytesValList b)
              let res := a ++ b
              { res := .ok (.array res), mem := memAlloc m1 (res.length * sizeofValue) }
      | _, _ =>
          { res := .error (mkError line ("Can't add " ++ typeName left ++ " and " ++
              typeName right)), mem := m }
  | .sub =>
      match left, right with
      | .number a, .number b => { res := .ok (.number (a - b)), mem := m }
      | _, _ =>
          { res := .error (mkError line ("Can't use `-` with " ++ typeName left ++
              " and " ++ typeName right)), mem := m }
  | .mul =>
      match left, right with
      | .number a, .number b => { res := .ok (.number (a * b)), mem := m }
      | .str s, .number n | .number n, .str s =>
          if n < 0 then
            { res := .error (mkError line ("Can't repeat a string " ++ displayNum n ++
                " times")), mem := m }
          else
            let count := toUsize n
            match checkStringRepeatMemory s.utf8ByteSize count line m with
            | .error e => { res := .error e, mem := m }
            | .ok _ =>
                let r := strRepeat s count
                { res := .ok (.str r), mem := memAlloc m r.utf8ByteSize }
      | _, _ =>
          { res := .error (mkError line ("Can't multiply " ++ typeName left ++ " and " ++
              typeName right)), mem := m }
  | .div =>
      match left, right with
      | .number a, .number b =>
          if b == 0 then
            { res := .error (mkErrorHint line "Division by zero" "You can't divide by 0."),
              mem := m }
          else { res := .ok (.number (a / b)), mem := m }
      | _, _ =>
          { res := .error (mkError line ("Can't divide " ++ typeName left ++ " by " ++
              typeName right)), mem := m }
  | .mod =>
      match left, right with
      | .number a, .number b =>
          if b == 0 then
            { res := .error (mkErrorHint line "Modulo by zero" "You can't use % with 0."),
              mem := m }
          else
            { res := .ok (.number (a - b * (ratTrunc (a / b) : Int))), mem := m }
      | _, _ =>
          { res := .error (mkError line ("Can't use % with " ++ typeName left ++ " and " ++
              typeName right)), mem := m }
  | .beq => { res := .ok (.bool (valuesEqual left right)), mem := m }
  | .bneq => { res := .ok (.bool (!(valuesEqual left right))), mem := m }
  | .blt =>
      match left, right with
      | .number a, .number b => { res := .ok (.bool (a < b)), mem := m }
      | .str a, .str b => { res := .ok (.bool (charsLt a.toList b.toList)), mem := m }
      | _, _ =>
          { res := .error (mkError line ("Can't compare " ++ typeName left ++ " and " ++
              typeName right ++ " with `<`")), mem := m }
  | .bgt =>
      match left, right with
      | .number a, .number b => { res := .ok (.bool (b < a)), mem := m }
      | .str a, .str b => { res := .ok (.bool (charsLt b.toList a.toList)), mem := m }
      | _, _ =>
          { res := .error (mkError line ("Can't compare " ++ typeName left ++ " and " ++
              typeName right ++ " with `>`")), mem := m }
  | .bltEq =>
      match left, right with
      | .number a, .number b => { res := .ok (.bool (a ≤ b)), mem := m }
      | .str a, .str b => { res := .ok (.bool (!(charsLt b.toList a.toList))), mem := m }
      | _, _ =>
          { res := .error (mkError line ("Can't compare " ++ typeName left ++ " and " ++
              typeName right ++ " with `<=`")), mem := m }
  | .bgtEq =>
      match left, right with
      | .number a, .number b => { res := .ok (.bool (b ≤ a)), mem := m }
      | .str a, .str b => { res := .ok (.bool (!(charsLt a.toList b.toList))), mem := m }
      | _, _ =>
          { res := .error (mkError line ("Can't compare " ++ typeName left ++ " and " ++
              typeName right ++ " with `>=`")), mem := m }
  | .band | .bor =>
      { res := .error (mkError line "unreachable: handled in eval_expr"), mem := m }

/-- Compound-assignment operator application,
`Evaluator::apply_compound_op`.  The `Eq` arm clones the right-hand
value. -/
def applyCompoundOp (left : Value) (op : AssignOp) (right : Value) (line : Nat)
    (m : Mem) : MResult Value :=
  match op with
  | .eq => { res := .ok right, mem := memAlloc m (bytesVal right) }
  | .addEq => binaryOp left .add right line m
  | .subEq => binaryOp left .sub right line m
  | .mulEq => binaryOp left .mul right line m
  | .divEq => binaryOp left .div right line m
  | .modEq => binaryOp left .mod right line m

/-- Method dispatch by receiver variant, `Evaluator::call_method`. -/
def callMethod (obj : Value) (method : String) (args : List Value) (line : Nat)
    (m : Mem) : MResult (Value × Option Value) :=
  match obj with
  | .array arr => arrayMethod arr method args line m
  | .str s => stringMethod s method args line m
  | .dict entries => dictMethod entries method args line m
  | _ =>
      { res := .error (mkError line (typeName obj ++ " doesn't have a ." ++ method ++
          "() method")), mem := m }

/-- String interpolation loop of `eval_expr`'s `StringInterp` arm: each
variable is looked up, cloned, rendered in display form, and the clone
dropped. -/
def interpParts {σ : Type} (parts : List StringPart) (line : Nat) (acc : String)
    (st : EvalState σ) : RunRes σ String :=
  match parts with
  | [] => .ok acc st
  | .literal s :: rest => interpParts rest line (acc ++ s) st
  | .variable name :: rest =>
      match getVar st name with
      | some v =>
          interpParts rest line (acc ++ displayVal v)
            (stDealloc (stAlloc st (bytesVal v)) (bytesVal v))
      | Option.none =>
          .err (mkError line ("Variable `" ++ name ++ "` not found")) st

/-! ## The evaluator (`evaluator.rs`)

All evaluation functions are indexed by a fuel parameter; every
recursive call consumes one unit.  `RunRes.out` marks fuel exhaustion;
the termination theorem below computes a fuel that is always
sufficient.  Ledger deallocations are inserted exactly at the points
where the Rust code drops a tracked temporary (including along `?`
error-propagation paths, where Rust unwinds locals). -/

set_option maxHeartbeats 3200000 in
mutual

/-- Block execution, `Evaluator::exec_block`. -/
def execBlock {σ : Type} (H : Host σ) (fuel : Nat) (stmts : List Stmt)
    (st : EvalState σ) : RunRes σ Signal :=
  match fuel with
  | 0 => .out
  | f + 1 =>
      match stmts with
      | [] => .ok .none st
      | s :: rest =>
          match execStmt H f s st with
          | .ok .none st1 => execBlock H f rest st1
          | .ok sig st1 => .ok sig st1
          | .err e st1 => .err e st1
          | .out => .out

/-- Statement execution, `Evaluator::exec_stmt`: one tick, then
dispatch on the statement form. -/
def execStmt {σ : Type} (H : Host σ) (fuel : Nat) (stmt : Stmt)
    (st : EvalState σ) : RunRes σ Signal :=
  match fuel with
  | 0 => .out
  | f + 1 =>
      match stmt with
      | .mk kind line =>
          match tick H line st with
          | .err e st0 => .err e st0
          | .out => .out
          | .ok _ st0 =>
              match kind with
              | .sLet name value =>
                  match evalExpr H f value st0 with
                  | .ok v st1 => .ok .none (defineVar st1 name v)
                  | .err e st1 => .err e st1
                  | .out => .out
              | .assign target op value =>
                  match evalExpr H f value st0 with
                  | .ok v st1 =>
                      match execAssign H f target op v line st1 with
                      | .ok _ st2 => .ok .none st2
                      | .err e st2 => .err e st2
                      | .out => .out
                  | .err e st1 => .err e st1
                  | .out => .out
              | .sIf cond body elifs elseB =>
                  match evalExpr H f cond st0 with
                  | .ok cv st1 =>
                      let st2 := stDealloc st1 (bytesVal cv)
                      if isTruthy cv then
                        match execBlock H f body (pushScope st2) with
                        | .ok sig st3 => .ok sig (popScope st3)
                        | .err e st3 => .err e st3
                        | .out => .out
                      else execIfChain H f elifs elseB st2
                  | .err e st1 => .err e st1
                  | .out => .out
              | .sWhile cond body => whileLoop H f line cond body st0
              | .sRepeat count body =>
                  match evalExpr H f count st0 with
                  | .ok (.number n) st1 =>
                      repeatLoop H f line (max (toI64 n) 0).toNat body st1
                  | .ok other st1 =>
                      .err (mkError line ("repeat needs a number, but got " ++
                        typeName other)) (stDealloc st1 (bytesVal other))
                  | .err e st1 => .err e st1
                  | .out => .out
              | .forIn var iterable body =>
                  match evalExpr H f iterable st0 with
                  | .ok (.array items) st1 =>
                      -- `arr.take()`: the buffer leaves Value supervision; the
                      -- emptied array value is dropped (0 bytes) at arm end
                      forLoop H f line var items body
                        (stDealloc st1 (items.length * sizeofValue))
                  | .ok (.str s) st1 =>
                      -- one fresh single-character string per code point; the
                      -- original string value is dropped when the arm ends
                      let items := s.toList.map (fun c => Value.str (String.singleton c))
                      match forLoop H f line var items body
                          (stAlloc st1 (bytesValList items)) with
                      | .ok sig st2 => .ok sig (stDealloc st2 s.utf8ByteSize)
                      | .err e st2 => .err e (stDealloc st2 s.utf8ByteSize)
                      | .out => .out
                  | .ok other st1 =>
                      .err (mkError line ("Can't iterate over " ++ typeName other))
                        (stDealloc st1 (bytesVal other))
                  | .err e st1 => .err e st1
                  | .out => .out
              | .fnDecl name params body =>
                  .ok .none
                    { st0 with functions :=
                        fnInsert st0.functions name { params := params, body := body } }
              | .sReturn value =>
                  match value with
                  | some e =>
                      match evalExpr H f e st0 with
                      | .ok v st1 => .ok (.ret v) st1
                      | .err e2 st1 => .err e2 st1
                      | .out => .out
                  | Option.none => .ok (.ret .none) st0
              | .sBreak => .ok .brk st0
              | .sContinue => .ok .cont st0
              | .exprStmt e =>
                  match evalExpr H f e st0 with
                  | .ok v st1 => .ok .none (stDealloc st1 (bytesVal v))
                  | .err e2 st1 => .err e2 st1
                  | .out => .out

/-- The `else if` / `else` cascade of the `If` arm of `exec_stmt`. -/
def execIfChain {σ : Type} (H : Host σ) (fuel : Nat)
    (elifs : List (Expr × List Stmt)) (elseB : Option (List Stmt))
    (st : EvalState σ) : RunRes σ Signal :=
  match fuel with
  | 0 => .out
  | f + 1 =>
      match elifs with
      | [] =>
          match elseB with
          | some eb =>
              match execBlock H f eb (pushScope st) with
              | .ok sig st1 => .ok sig (popScope st1)
              | .err e st1 => .err e st1
              | .out => .out
          | Option.none => .ok .none st
      | (c, b) :: rest =>
          match evalExpr H f c st with
          | .ok cv st1 =>
              let st2 := stDealloc st1 (bytesVal cv)
              if isTruthy cv then
                match execBlock H f b (pushScope st2) with
                | .ok sig st3 => .ok sig (popScope st3)
                | .err e st3 => .err e st3
                | .out => .out
              else execIfChain H f rest elseB st2
          | .err e st1 => .err e st1
          | .out => .out

/-- The `loop` of the `While` arm of `exec_stmt`: tick, test, body. -/
def whileLoop {σ : Type} (H : Host σ) (fuel : Nat) (line : Nat) (cond : Expr)
    (body : List Stmt) (st : EvalState σ) : RunRes σ Signal :=
  match fuel with
  | 0 => .out
  | f + 1 =>
      match tick H line st with
      | .err e st1 => .err e st1
      | .out => .out
      | .ok _ st1 =>
          match evalExpr H f cond st1 with
          | .ok cv st2 =>
              let st3 := stDealloc st2 (bytesVal cv)
              if isTruthy cv then
                match execBlock H f body (pushScope st3) with
                | .ok sig st4 =>
                    let st5 := popScope st4
                    match sig with
                    | .brk => .ok .none st5
                    | .ret v => .ok (.ret v) st5
                    | _ => whileLoop H f line cond body st5
                | .err e st4 => .err e st4
                | .out => .out
              else .ok .none st3
          | .err e st2 => .err e st2
          | .out => .out

/-- The `for _ in 0..n` loop of the `Repeat` arm of `exec_stmt`. -/
def repeatLoop {σ : Type} (H : Host σ) (fuel : Nat) (line : Nat) (count : Nat)
    (body : List Stmt) (st : EvalState σ) : RunRes σ Signal :=
  match fuel with
  | 0 => .out
  | f + 1 =>
      match count with
      | 0 => .ok .none st
      | k + 1 =>
          match tick H line st with
          | .err e st1 => .err e st1
          | .out => .out
          | .ok _ st1 =>
              match execBlock H f body (pushScope st1) with
              | .ok sig st2 =>
                  let st3 := popScope st2
                  match sig with
                  | .brk => .ok .none st3
                  | .ret v => .ok (.ret v) st3
                  | _ => repeatLoop H f line k body st3
              | .err e st2 => .err e st2
              | .out => .out

/-- The `for item in items` loop of the `ForIn` arm of `exec_stmt`.
Remaining items are dropped when the loop is left early (break, return,
or an error unwinding the iterator). -/
def forLoop {σ : Type} (H : Host σ) (fuel : Nat) (line : Nat) (var : String)
    (items : List Value) (body : List Stmt) (st : EvalState σ) : RunRes σ Signal :=
  match fuel with
  | 0 => .out
  | f + 1 =>
      match items with
      | [] => .ok .none st
      | item :: rest =>
          match tick H line st with
          | .err e st1 =>
              .err e (stDealloc st1 (bytesVal item + bytesValList rest))
          | .out => .out
          | .ok _ st1 =>
              match execBlock H f body (defineVar (pushScope st1) var item) with
              | .ok sig st2 =>
                  let st3 := popScope st2
                  match sig with
                  | .brk => .ok .none (stDealloc st3 (bytesValList rest))
                  | .ret v => .ok (.ret v) (stDealloc st3 (bytesValList rest))
                  | _ => forLoop H f line var rest body st3
              | .err e st2 => .err e (stDealloc st2 (bytesValList rest))
              | .out => .out

/-- Assignment execution, `Evaluator::exec_assign`.  The right-hand
value has already been evaluated by the caller and is owned here. -/
def execAssign {σ : Type} (H : Host σ) (fuel : Nat) (target : AssignTarget)
    (op : AssignOp) (newVal : Value) (line : Nat) (st : EvalState σ) :
    RunRes σ Unit :=
  match fuel with
  | 0 => .out
  | f + 1 =>
      match target with
      | .variable name =>
          match op with
          | .eq =>
              let sv := setVar st name newVal
              if sv.2 then .ok () sv.1
              else
                .err (mkErrorHint line ("Variable `" ++ name ++ "` doesn't exist yet")
                  ("Use `let` to create a new variable: let " ++ name ++ " = ...")) sv.1
          | _ =>
              match getVar st name with
              | Option.none =>
                  .err (mkError line ("Variable `" ++ name ++ "` doesn't exist yet"))
                    (stDealloc st (bytesVal newVal))
              | some current =>
                  let st1 := stAlloc st (bytesVal current)
                  let r := applyCompoundOp current op newVal line st1.mem
                  match r.res with
                  | .error e =>
                      .err e { st1 with
                        mem := memDealloc r.mem (bytesVal current + bytesVal newVal) }
                  | .ok finalVal =>
                      let st2 : EvalState σ := { st1 with
                        mem := memDealloc r.mem (bytesVal current + bytesVal newVal) }
                      let sv := setVar st2 name finalVal
                      if sv.2 then .ok () sv.1
                      else
                        .err (mkErrorHint line
                          ("Variable `" ++ name ++ "` doesn't exist yet")
                          ("Use `let` to create a new variable: let " ++ name ++ " = ..."))
                          sv.1
      | .index object index =>
          match evalExpr H f index st with
          | .err e st1 => .err e (stDealloc st1 (bytesVal newVal))
          | .out => .out
          | .ok idx st1 =>
              -- compute the value to store; `pending` is the footprint of
              -- `new_val` when it is still owned by `exec_assign` afterwards
              match op with
              | .eq => execAssignIndexStore H f object idx newVal 0 line st1
              | _ =>
                  match evalExpr H f object st1 with
                  | .err e st2 =>
                      .err e (stDealloc st2 (bytesVal idx + bytesVal newVal))
                  | .out => .out
                  | .ok obj st2 =>
                      let r := indexInto obj idx line st2.mem
                      match r.res with
                      | .error e =>
                          let stE : EvalState σ := { st2 with mem := r.mem }
                          .err e (stDealloc stE
                            (bytesVal obj + bytesVal idx + bytesVal newVal))
                      | .ok current =>
                          let rc := applyCompoundOp current op newVal line r.mem
                          match rc.res with
                          | .error e =>
                              let stE : EvalState σ := { st2 with mem := rc.mem }
                              .err e (stDealloc stE
                                (bytesVal obj + bytesVal current + bytesVal idx +
                                  bytesVal newVal))
                          | .ok valToSet =>
                              -- `obj` and `current` are dropped at the end of
                              -- the computation of `val_to_set`
                              let stC : EvalState σ := { st2 with mem := rc.mem }
                              execAssignIndexStore H f object idx valToSet
                                (bytesVal newVal) line
                                (stDealloc stC (bytesVal obj + bytesVal current))

/-- Store step of the `Index` arm of `exec_assign`: requires the object
expression to be a plain variable, clones it, mutates the clone via
`set_index` and writes it back.  `pending` is dropped (the caller-owned
`new_val`) at every exit. -/
def execAssignIndexStore {σ : Type} (H : Host σ) (fuel : Nat) (object : Expr)
    (idx : Value) (valToSet : Value) (pending : Nat) (line : Nat)
    (st : EvalState σ) : RunRes σ Unit :=
  match fuel with
  | 0 => .out
  | _ + 1 =>
      let _ := H
      match object.kind with
      | .ident name =>
          match getVar st name with
          | Option.none =>
              .err (mkError line ("Variable `" ++ name ++ "` doesn't exist"))
                (stDealloc st (bytesVal valToSet + bytesVal idx + pending))
          | some obj0 =>
              let st1 := stAlloc st (bytesVal obj0)
              let r := setIndex obj0 idx valToSet line st1.mem
              match r.res with
              | .error e =>
                  let stE : EvalState σ := { st1 with mem := r.mem }
                  .err e (stDealloc stE (bytesVal obj0 + bytesVal idx + pending))
              | .ok newObj =>
                  let sv := setVar { st1 with mem := r.mem } name newObj
                  .ok () (stDealloc sv.1 (bytesVal idx + pending))
      | _ =>
          .err (mkError line "Can only assign to indexed variables (like `arr[0] = val`)")
            (stDealloc st (bytesVal valToSet + bytesVal idx + pending))

/-- Expression evaluation, `Evaluator::eval_expr`. -/
def evalExpr {σ : Type} (H : Host σ) (fuel : Nat) (e : Expr) (st : EvalState σ) :
    RunRes σ Value :=
  match fuel with
  | 0 => .out
  | f + 1 =>
      match e with
      | .mk kind line =>
          match kind with
          | .number n => .ok (.number n) st
          | .str s => .ok (.str s) (stAlloc st s.utf8ByteSize)
          | .bool b => .ok (.bool b) st
          | .none => .ok .none st
          | .stringInterp parts =>
              match interpParts parts line "" st with
              | .ok result st1 => .ok (.str result) (stAlloc st1 result.utf8ByteSize)
              | .err e2 st1 => .err e2 st1
              | .out => .out
          | .ident name =>
              match getVar st name with
              | some v => .ok v (stAlloc st (bytesVal v))
              | Option.none =>
                  .err (mkErrorHint line ("Variable `" ++ name ++ "` not found")
                    "Did you forget to create it with `let`?") st
          | .binaryOp l op r =>
              match op with
              | .band =>
                  match evalExpr H f l st with
                  | .ok lv st1 =>
                      if !(isTruthy lv) then
                        .ok (.bool false) (stDealloc st1 (bytesVal lv))
                      else
                        match evalExpr H f r st1 with
                        | .ok rv st2 =>
                            .ok (.bool (isTruthy rv))
                              (stDealloc st2 (bytesVal lv + bytesVal rv))
                        | .err e2 st2 => .err e2 (stDealloc st2 (bytesVal lv))
                        | .out => .out
                  | .err e2 st1 => .err e2 st1
                  | .out => .out
              | .bor =>
                  match evalExpr H f l st with
                  | .ok lv st1 =>
                      if isTruthy lv then
                        .ok (.bool true) (stDealloc st1 (bytesVal lv))
                      else
                        match evalExpr H f r st1 with
                        | .ok rv st2 =>
                            .ok (.bool (isTruthy rv))
                              (stDealloc st2 (bytesVal lv + bytesVal rv))
                        | .err e2 st2 => .err e2 (stDealloc st2 (bytesVal lv))
                        | .out => .out
                  | .err e2 st1 => .err e2 st1
                  | .out => .out
              | _ =>
                  match evalExpr H f l st with
                  | .ok lv st1 =>
                      match evalExpr H f r st1 with
                      | .ok rv st2 =>
                          let r2 := binaryOp lv op rv line st2.mem
                          let st3 : EvalState σ := { st2 with
                            mem := memDealloc r2.mem (bytesVal lv + bytesVal rv) }
                          match r2.res with
                          | .ok v => .ok v st3
                          | .error e2 => .err e2 st3
                      | .err e2 st2 => .err e2 (stDealloc st2 (bytesVal lv))
                      | .out => .out
                  | .err e2 st1 => .err e2 st1
                  | .out => .out
          | .unaryOp op inner =>
              match evalExpr H f inner st with
              | .ok v st1 =>
                  match op with
                  | .neg =>
                      match v with
                      | .number n => .ok (.number (-n)) st1
                      | _ =>
                          .err (mkError line ("Can't negate a " ++ typeName v))
                            (stDealloc st1 (bytesVal v))
                  | .not => .ok (.bool (!(isTruthy v))) (stDealloc st1 (bytesVal v))
              | .err e2 st1 => .err e2 st1
              | .out => .out
          | .call callee args =>
              match callee.kind with
              | .ident name =>
                  match evalExprList H f args st with
                  | .ok vs st1 => callFunction H f name vs line st1
                  | .err e2 st1 => .err e2 st1
                  | .out => .out
              | _ => .err (mkError line "Can only call named functions") st
          | .methodCall object method args =>
              match evalExprList H f args st with
              | .ok vs st1 =>
                  match evalExpr H f object st1 with
                  | .ok objv st2 =>
                      let r := callMethod objv method vs line st2.mem
                      match r.res with
                      | .error e2 =>
                          let stE : EvalState σ := { st2 with mem := r.mem }
                          .err e2 (stDealloc stE (bytesVal objv + bytesValList vs))
                      | .ok (ret, mutated) =>
                          let st3 : EvalState σ := { st2 with mem := r.mem }
                          let st4 :=
                            if isMutatingMethod method then
                              match object.kind, mutated with
                              | .ident name, some newObj => (setVar st3 name newObj).1
                              | _, some newObj => stDealloc st3 (bytesVal newObj)
                              | _, Option.none => st3
                            else
                              match mutated with
                              | some newObj => stDealloc st3 (bytesVal newObj)
                              | Option.none => st3
                          .ok ret (stDealloc st4 (bytesVal objv + bytesValList vs))
                  | .err e2 st2 => .err e2 (stDealloc st2 (bytesValList vs))
                  | .out => .out
              | .err e2 st1 => .err e2 st1
              | .out => .out
          | .index object index =>
              match evalExpr H f object st with
              | .ok obj st1 =>
                  match evalExpr H f index st1 with
                  | .ok idx st2 =>
                      let r := indexInto obj idx line st2.mem
                      let st3 : EvalState σ := { st2 with
                        mem := memDealloc r.mem (bytesVal obj + bytesVal idx) }
                      match r.res with
                      | .ok v => .ok v st3
                      | .error e2 => .err e2 st3
                  | .err e2 st2 => .err e2 (stDealloc st2 (bytesVal obj))
                  | .out => .out
              | .err e2 st1 => .err e2 st1
              | .out => .out
          | .array elements =>
              match evalExprList H f elements st with
              | .ok vs st1 => .ok (.array vs) (stAlloc st1 (vs.length * sizeofValue))
              | .err e2 st1 => .err e2 st1
              | .out => .out
          | .dict entries =>
              match evalDictEntries H f entries st with
              | .ok pairs st1 =>
                  .ok (.dict pairs)
                    (stAlloc st1 (pairs.length * sizeofPair +
                      (pairs.map (fun p => p.1.utf8ByteSize)).sum))
              | .err e2 st1 => .err e2 st1
              | .out => .out
          | .ifExpr cond thenE elseE =>
              match evalExpr H f cond st with
              | .ok cv st1 =>
                  let st2 := stDealloc st1 (bytesVal cv)
                  if isTruthy cv then evalExpr H f thenE st2
                  else evalExpr H f elseE st2
              | .err e2 st1 => .err e2 st1
              | .out => .out

/-- Left-to-right evaluation of an argument/element list (the `for arg
in args` accumulation loops of `eval_expr`); on error the
already-evaluated values are dropped. -/
def evalExprList {σ : Type} (H : Host σ) (fuel : Nat) (es : List Expr)
    (st : EvalState σ) : RunRes σ (List Value) :=
  match fuel with
  | 0 => .out
  | f + 1 =>
      match es with
      | [] => .ok [] st
      | e :: rest =>
          match evalExpr H f e st with
          | .ok v st1 =>
              match evalExprList H f rest st1 with
              | .ok vs st2 => .ok (v :: vs) st2
              | .err e2 st2 => .err e2 (stDealloc st2 (bytesVal v))
              | .out => .out
          | .err e2 st1 => .err e2 st1
          | .out => .out

/-- Left-to-right evaluation of dict-literal entries. -/
def evalDictEntries {σ : Type} (H : Host σ) (fuel : Nat)
    (entries : List (String × Expr)) (st : EvalState σ) :
    RunRes σ (List (String × Value)) :=
  match fuel with
  | 0 => .out
  | f + 1 =>
      match entries with
      | [] => .ok [] st
      | (k, e) :: rest =>
          match evalExpr H f e st with
          | .ok v st1 =>
              match evalDictEntries H f rest st1 with
              | .ok pairs st2 => .ok ((k, v) :: pairs) st2
              | .err e2 st2 => .err e2 (stDealloc st2 (bytesVal v))
              | .out => .out
          | .err e2 st1 => .err e2 st1
          | .out => .out

/-- Function call resolution and execution,
`Evaluator::call_function`: built-ins first, then the host, then user
functions with a clean scope stack and the recursion-depth cap.  The
argument vector is owned: built-ins borrow it (the caller drops it
afterwards), user calls consume it into the parameter scope. -/
def callFunction {σ : Type} (H : Host σ) (fuel : Nat) (name : String)
    (args : List Value) (line : Nat) (st : EvalState σ) : RunRes σ Value :=
  match fuel with
  | 0 => .out
  | f + 1 =>
      match name with
      | "range" => finishBuiltin st args (builtinRange args line st.randState st.mem)
      | "str" => finishBuiltin st args (builtinStr args line st.mem)
      | "int" => finishBuiltin st args (builtinInt args line st.mem)
      | "type" => finishBuiltin st args (builtinType args line st.mem)
      | "abs" => finishBuiltin st args (builtinAbs args line st.mem)
      | "min" => finishBuiltin st args (builtinMin args line st.mem)
      | "max" => finishBuiltin st args (builtinMax args line st.mem)
      | "rand" =>
          let r := builtinRand args line st.randState st.mem
          finishBuiltin { st with randState := r.2 } args r.1
      | "len" => finishBuiltin st args (builtinLen args line st.mem)
      | "inspect" => finishBuiltin st args (builtinInspect args line st.mem)
      | "print" =>
          let message := displayJoin " " args
          .ok .none
            (stDealloc { st with host := H.onPrint st.host message }
              (bytesValList args))
      | _ =>
          match H.call st.host name args line with
          | (h', some result) =>
              let st1 : EvalState σ := { st with host := h' }
              match result with
              | .ok v =>
                  .ok v (stDealloc (stAlloc st1 (bytesVal v)) (bytesValList args))
              | .error e => .err e (stDealloc st1 (bytesValList args))
          | (h', Option.none) =>
              let st1 : EvalState σ := { st with host := h' }
              match fnLookup st1.functions name with
              | Option.none =>
                  let hint := H.functionHint st1.host
                  .err
                    (if hint.isEmpty then
                      mkError line ("Function `" ++ name ++ "` not found")
                    else
                      mkErrorHint line ("Function `" ++ name ++ "` not found") hint)
                    (stDealloc st1 (bytesValList args))
              | some fd =>
                  if args.length ≠ fd.params.length then
                    .err (mkError line ("`" ++ name ++ "` expects " ++
                      toString fd.params.length ++ " argument" ++
                      (if fd.params.length = 1 then "" else "s") ++ ", but got " ++
                      toString args.length)) (stDealloc st1 (bytesValList args))
                  else if 64 ≤ st1.callDepth then
                    .err (mkErrorHint line
                      "Too many nested function calls (possible infinite recursion)"
                      "Check that your recursive function has a base case that stops calling itself.")
                      (stDealloc st1 (bytesValList args))
                  else
                    let st2 : EvalState σ := { st1 with
                      callDepth := st1.callDepth + 1, scopes := [[]] }
                    let st3 := bindParams fd.params args st2
                    match execBlock H f fd.body st3 with
                    | .ok sig stR =>
                        let memF := memDealloc stR.mem (scopesBytes stR.scopes)
                        let stF : EvalState σ := { stR with
                          scopes := st1.scopes, callDepth := stR.callDepth - 1,
                          mem := memF }
                        match sig with
                        | .ret v => .ok v stF
                        | .brk => .err (mkError line "break used outside of a loop") stF
                        | .cont =>
                            .err (mkError line "continue used outside of a loop") stF
                        | .none => .ok .none stF
                    | .err e stR =>
                        let memF := memDealloc stR.mem (scopesBytes stR.scopes)
                        let stF : EvalState σ := { stR with
                          scopes := st1.scopes, callDepth := stR.callDepth - 1,
                          mem := memF }
                        .err e stF
                    | .out => .out

end

/-- Top-level program execution, `Evaluator::run`: a top-level break or
continue is an error; a top-level `Return` value is dropped. -/
def runStmts {σ : Type} (H : Host σ) (fuel : Nat) (stmts : List Stmt)
    (st : EvalState σ) : RunRes σ Unit :=
  match execBlock H fuel stmts st with
  | .ok .brk st1 => .err (mkError 0 "break used outside of a loop") st1
  | .ok .cont st1 => .err (mkError 0 "continue used outside of a loop") st1
  | .ok sig st1 => .ok () (stDealloc st1 (bytesSignal sig))
  | .err e st1 => .err e st1
  | .out => .out

/-- The evaluator's initial state, `Evaluator::new`: one outer scope, a
freshly initialised ledger, counters at zero. -/
def initState {σ : Type} (host : σ) (limits : BopLimits) : EvalState σ :=
  { scopes := [[]], functions := [], steps := 0, callDepth := 0, limits := limits,
    randState := 0, mem := memInit limits.maxMemory, host := host }

/-- Run a parsed program from a fresh evaluator (`lib::run` after
lexing and parsing). -/
def evalProgram {σ : Type} (H : Host σ) (fuel : Nat) (host : σ) (limits : BopLimits)
    (stmts : List Stmt) : RunRes σ Unit :=
  runStmts H fuel stmts (initState host limits)

/-- The ledger after the evaluator itself is dropped (its scope stack,
and with it every tracked value still owned, is deallocated); `none`
when the fuel ran out. -/
def finalLedger {σ : Type} : RunRes σ Unit → Option Mem
  | .ok _ st => some (memDealloc st.mem (scopesBytes st.scopes))
  | .err _ st => some (memDealloc st.mem (scopesBytes st.scopes))
  | .out => Option.none

/-! ## The standard host

Model of `StdHost` / the default `BopHost` implementations: no custom
builtins, printing has no observable effect on the host model, no
function hint, `on_tick` always succeeds. -/

/-- The default host, `StdHost`. -/
def stdHost : Host Unit :=
  { call := fun s _ _ _ => (s, Option.none),
    onPrint := fun s _ => s,
    functionHint := fun _ => "",
    onTick := fun s => (s, Option.none) }

/-! ## Claim C9: `.pop()` on an empty array -/

/-- Claim C9: calling `.pop()` on an empty array is not an error: the
result value is `None`, the written-back array is empty (and `pop` is
in the mutating set that drives write-back), and execution continues
normally. -/
theorem pop_empty_array_returns_none :
    ∀ (m : Mem) (args : List Value) (line : Nat),
      (arrayMethod [] "pop" args line m).res =
        .ok (Value.none, some (Value.array [])) ∧
      isMutatingMethod "pop" = true := by
  intro m args line
  constructor
  · rfl
  · rfl

/-! ## Claim C4: the `range` element cap -/

/-- Length bound for the ascending range loop. -/
theorem rangeLoopUp_length_le (rem : Nat) (i endv step : Rat) :
    (rangeLoopUp i endv step rem).length ≤ rem := by
  induction rem generalizing i with
  | zero => simp [rangeLoopUp]
  | succ r ih =>
      simp only [rangeLoopUp]
      split
      · simpa using Nat.succ_le_succ (ih (i + step))
      · simp

/-- Length bound for the descending range loop. -/
theorem rangeLoopDown_length_le (rem : Nat) (i endv step : Rat) :
    (rangeLoopDown i endv step rem).length ≤ rem := by
  induction rem generalizing i with
  | zero => simp [rangeLoopDown]
  | succ r ih =>
      simp only [rangeLoopDown]
      split
      · simpa using Nat.succ_le_succ (ih (i + step))
      · simp

/-- The ascending loop with step 1 produces exactly `rem` elements when
the interval is long enough. -/
theorem rangeLoopUp_length_eq (rem : Nat) (i endv : Rat) (h : i + rem ≤ endv) :
    (rangeLoopUp i endv 1 rem).length = rem := by
  induction rem generalizing i with
  | zero => simp [rangeLoopUp]
  | succ r ih =>
      have hlt : i < endv := by
        have : (0 : Rat) < (r : Rat) + 1 := by positivity
        push_cast at h ⊢
        linarith
      simp only [rangeLoopUp, if_pos hlt, List.length_cons]
      rw [ih (i + 1) (by push_cast at h ⊢; linarith)]

/-- Counterexample to claim C4 as stated: `range(100000)` does not fail
with a resource error — the call returns `Ok` with the (truncated)
array. -/
theorem range_100000_returns_ok :
    (builtinRange [Value.number 100000] 1 0 (memInit (10 * 1024 * 1024))).res =
      .ok (.array ((rangeLoopUp 0 100000 1 10000).map Value.number)) := rfl

/-- Claim C4, amended: `range` enforces the hard cap of 10,000 produced
elements by truncating the produced array; every successful call
returns an array of at most 10,000 numbers, and `range(100000)` in
particular returns exactly 10,000 elements rather than an error. -/
theorem range_hard_cap :
    (∀ (args : List Value) (line rs : Nat) (m : Mem) (v : Value),
        (builtinRange args line rs m).res = .ok v →
        ∃ l : List Rat, v = .array (l.map Value.number) ∧ l.length ≤ rangeMaxItems)
    ∧ (rangeLoopUp 0 100000 1 rangeMaxItems).length = rangeMaxItems := by
  constructor
  · intro args line rs m v h
    unfold builtinRange at h
    simp only [expectNumber] at h
    repeat' split at h
    all_goals simp_all
    all_goals
      first
      | exact ⟨_, h.symm, rangeLoopUp_length_le _ _ _ _⟩
      | exact ⟨_, h.symm, rangeLoopDown_length_le _ _ _ _⟩
  · exact rangeLoopUp_length_eq rangeMaxItems 0 100000 (by norm_num [rangeMaxItems])

/-- Witness for the amended C4 theorem at a concrete input. -/
theorem range_hard_cap_witness :
    ∃ l : List Rat,
      Value.array ((rangeLoopUp 0 100000 1 10000).map Value.number) =
        .array (l.map Value.number) ∧ l.length ≤ rangeMaxItems := by
  exact range_hard_cap.1 [Value.number 100000] 1 0 (memInit (10 * 1024 * 1024)) _
    range_100000_returns_ok

/-! ## Claim C6: automatic semicolon insertion -/

/-- The `insert_semicolons` loop processes token lists piecewise: the
accumulator after a prefix is the processed prefix. -/
theorem insertSemicolonsGo_append (xs : List SpannedToken) :
    ∀ (acc ys : List SpannedToken),
      insertSemicolonsGo acc (xs ++ ys) =
        insertSemicolonsGo (insertSemicolonsGo acc xs) ys := by
  induction xs with
  | nil => intro acc ys; rfl
  | cons t xs ih =>
      intro acc ys
      simp only [List.cons_append, insertSemicolonsGo]
      split
      · split
        · split
          · exact ih _ _
          · exact ih _ _
        · exact ih _ _
      · exact ih _ _

/-- Wording of claim C6: whether the token immediately preceding a
newline in the emitted stream (the last token emitted for the prefix
before it) is one that can legally end a statement. -/
def asiPrecedingTriggers (xs : List SpannedToken) : Bool :=
  match (insertSemicolons xs).getLast? with
  | some t => triggersSemicolon t.token
  | Option.none => false

/-- Claim C6: a newline is replaced by a semicolon iff the immediately
preceding emitted token is an identifier, a number / string /
interpolated-string literal, `true`, `false`, `none`, `break`,
`continue`, `return`, or a closing `)`, `]`, `}`; every other newline
(including one with no preceding emitted token) is discarded. -/
theorem asi_newline_semicolon_iff :
    (∀ (xs ys : List SpannedToken) (l : Nat), asiPrecedingTriggers xs = true →
        insertSemicolons (xs ++ SpannedToken.mk Token.newline l :: ys) =
          insertSemicolons (xs ++ SpannedToken.mk Token.semicolon l :: ys))
    ∧ (∀ (xs ys : List SpannedToken) (l : Nat), asiPrecedingTriggers xs = false →
        insertSemicolons (xs ++ SpannedToken.mk Token.newline l :: ys) =
          insertSemicolons (xs ++ ys))
    ∧ (∀ t : Token, triggersSemicolon t = true ↔
        ((∃ s, t = .ident s) ∨ (∃ q, t = .number q) ∨ (∃ s, t = .str s) ∨
         (∃ ps, t = .stringInterp ps) ∨ t = .kwTrue ∨ t = .kwFalse ∨ t = .kwNone ∨
         t = .kwBreak ∨ t = .kwContinue ∨ t = .kwReturn ∨ t = .rparen ∨
         t = .rbracket ∨ t = .rbrace)) := by
  refine ⟨?_, ?_, ?_⟩
  · intro xs ys l h
    unfold asiPrecedingTriggers insertSemicolons at h
    unfold insertSemicolons
    rw [insertSemicolonsGo_append, insertSemicolonsGo_append]
    conv_lhs => rw [insertSemicolonsGo]
    conv_rhs => rw [insertSemicolonsGo]
    cases hlast : (insertSemicolonsGo [] xs).getLast? with
    | none => simp [hlast] at h
    | some last =>
        rw [hlast] at h
        simp only [] at h
        simp [hlast, h]
  · intro xs ys l h
    unfold asiPrecedingTriggers insertSemicolons at h
    unfold insertSemicolons
    rw [insertSemicolonsGo_append, insertSemicolonsGo_append]
    conv_lhs => rw [insertSemicolonsGo]
    cases hlast : (insertSemicolonsGo [] xs).getLast? with
    | none => simp [hlast]
    | some last =>
        rw [hlast] at h
        simp only [] at h
        simp [hlast, h]
  · intro t
    cases t <;> simp [triggersSemicolon]

/-- Witness for the C6 theorem at concrete token streams. -/
theorem asi_newline_semicolon_iff_witness :
    insertSemicolons [SpannedToken.mk (Token.ident "a") 1, SpannedToken.mk Token.newline 1] =
      insertSemicolons [SpannedToken.mk (Token.ident "a") 1,
        SpannedToken.mk Token.semicolon 1] :=
  asi_newline_semicolon_iff.1 [SpannedToken.mk (Token.ident "a") 1] [] 1 (by decide)

/-! ## Claim C7: instruction counting -/

mutual

/-- Claim-side restatement of the instruction count (the ideal,
non-wrapping sum described by the spec): each statement contributes 1,
`if`/`while`/`repeat`/`for` additionally add the counts of their
bodies, and `fn` contributes exactly 1. -/
def specCountStmts : List Stmt → Nat
  | [] => 0
  | s :: rest => specCountStmt s + specCountStmts rest

/-- Ideal contribution of one statement. -/
def specCountStmt : Stmt → Nat
  | .mk k _ =>
      match k with
      | .sIf _ body elifs elseB =>
          1 + specCountStmts body + specCountElifs elifs + specCountOpt elseB
      | .sWhile _ body => 1 + specCountStmts body
      | .sRepeat _ body => 1 + specCountStmts body
      | .forIn _ _ body => 1 + specCountStmts body
      | _ => 1

/-- Ideal count of the `else if` branch bodies. -/
def specCountElifs : List (Expr × List Stmt) → Nat
  | [] => 0
  | (_, b) :: rest => specCountStmts b + specCountElifs rest

/-- Ideal count of an optional `else` body. -/
def specCountOpt : Option (List Stmt) → Nat
  | Option.none => 0
  | some b => specCountStmts b

end

/-- The `u32` instruction counter agrees with the ideal sum modulo
`2 ^ 32` (stepwise wrapping is congruent to wrapping once). -/
theorem countInstructions_mod :
    ∀ l : List Stmt, countInstructions l = specCountStmts l % 2 ^ 32 := by
  have main := countInstructions.induct
    (fun l => countInstructions l = specCountStmts l % 2 ^ 32)
    (fun s => countStmt s = specCountStmt s % 2 ^ 32)
    (fun ob => countOptBlock ob = specCountOpt ob % 2 ^ 32)
    (fun el => countElifBodies el = specCountElifs el % 2 ^ 32)
  apply main <;> intros <;>
    first
    | (rename_i k line hIf hWhile hRepeat hFor
       cases k <;>
         first
         | (exfalso; solve_by_elim)
         | (simp only [countStmt, specCountStmt]; omega))
    | (simp only [countInstructions, countStmt, countElifBodies, countOptBlock,
        specCountStmts, specCountStmt, specCountElifs, specCountOpt, wrapU32]
       omega)

/-- Claim C7: for every parsed program whose ideal instruction total
fits in the `u32` counter, `count_instructions` equals the sum in which
each statement contributes 1, `if`/`while`/`repeat`/`for` statements
additionally add the counts of their bodies (including `else if` and
`else` branches), and an `fn` declaration contributes exactly 1 without
counting the statements of its body. -/
theorem count_instructions_spec (stmts : List Stmt)
    (h : specCountStmts stmts < 2 ^ 32) :
    countInstructions stmts = specCountStmts stmts := by
  rw [countInstructions_mod, Nat.mod_eq_of_lt h]

/-- Witness for the C7 theorem: a program with one `fn` declaration
(whose body is not counted), one `while` with a two-statement body, and
one bare expression statement counts 5. -/
theorem count_instructions_spec_witness :
    countInstructions
      [Stmt.mk (.fnDecl "f" []
         [Stmt.mk .sBreak 1, Stmt.mk .sBreak 1, Stmt.mk .sBreak 1]) 1,
       Stmt.mk (.sWhile (Expr.mk (.bool true) 2)
         [Stmt.mk .sContinue 3, Stmt.mk (.exprStmt (Expr.mk .none 4)) 4]) 2,
       Stmt.mk (.exprStmt (Expr.mk .none 5)) 5] = 5 := by
  rw [count_instructions_spec _ (by decide)]
  decide

/-! ## Claim C8: dict equality is order-independent, mixed variants unequal -/

/-- A found entry is a member of the dict payload. -/
theorem findEntry_some_mem (l : List (String × Value)) (k : String) (v : Value)
    (h : findEntry l k = some v) : (k, v) ∈ l := by
  induction l with
  | nil => simp [findEntry] at h
  | cons e rest ih =>
      obtain ⟨k2, v2⟩ := e
      simp only [findEntry] at h
      split at h
      · rename_i hk
        simp only [Option.some.injEq] at h
        simp [← h, (by simpa using hk : k2 = k)]
      · simp [ih h]

/-- A key with an entry in the dict is found by `findEntry`. -/
theorem findEntry_isSome (l : List (String × Value)) (k : String) (v : Value)
    (h : (k, v) ∈ l) : ∃ v2, findEntry l k = some v2 := by
  induction l with
  | nil => simp at h
  | cons e rest ih =>
      obtain ⟨k2, v2⟩ := e
      rcases List.mem_cons.1 h with heq | hmem
      · refine ⟨v2, ?_⟩
        have : k2 = k := by
          injection heq.symm
        simp [findEntry, this]
      · by_cases hk : k2 = k
        · exact ⟨v2, by simp [findEntry, hk]⟩
        · simpa [findEntry, hk] using ih hmem

/-- Every left entry has an equal-valued entry under the same key on
the right implies the `dictEntriesIn` check succeeds. -/
theorem dictEntriesIn_of (d1 d2 : List (String × Value))
    (hmem : ∀ k v, (k, v) ∈ d1 → ∃ v2, (k, v2) ∈ d2)
    (heq : ∀ k v1 v2, (k, v1) ∈ d1 → (k, v2) ∈ d2 → valuesEqual v1 v2 = true) :
    dictEntriesIn d1 d2 = true := by
  induction d1 with
  | nil => rfl
  | cons e rest ih =>
      obtain ⟨k, v⟩ := e
      simp only [dictEntriesIn, Bool.and_eq_true]
      constructor
      · obtain ⟨v2, hv2⟩ := hmem k v (by simp)
        obtain ⟨v2', hfind⟩ := findEntry_isSome d2 k v2 hv2
        rw [hfind]
        exact heq k v v2' (by simp) (findEntry_some_mem _ _ _ hfind)
      · exact ih (fun k v h => hmem k v (by simp [h]))
          (fun k v1 v2 h1 h2 => heq k v1 v2 (by simp [h1]) h2)

/-- Constructor tag of a value (two values are "of different variants"
when their tags differ). -/
def variantIdx : Value → Nat
  | .number _ => 0
  | .str _ => 1
  | .bool _ => 2
  | .none => 3
  | .array _ => 4
  | .dict _ => 5

/-- Claim C8: two dicts with unique keys, the same key set, and
`values_equal` values under each key compare equal regardless of entry
order; and two values of different variants always compare unequal. -/
theorem values_equal_dict_order_and_variants :
    (∀ d1 d2 : List (String × Value),
        (d1.map Prod.fst).Nodup → (d2.map Prod.fst).Nodup →
        (∀ k, (∃ v, (k, v) ∈ d1) ↔ (∃ v, (k, v) ∈ d2)) →
        (∀ k v1 v2, (k, v1) ∈ d1 → (k, v2) ∈ d2 → valuesEqual v1 v2 = true) →
        valuesEqual (.dict d1) (.dict d2) = true)
    ∧ (∀ v w : Value, variantIdx v ≠ variantIdx w → valuesEqual v w = false) := by
  constructor
  · intro d1 d2 hn1 hn2 hkeys heq
    have hperm : List.Perm (d1.map Prod.fst) (d2.map Prod.fst) := by
      rw [List.perm_ext_iff_of_nodup hn1 hn2]
      intro k
      constructor
      · intro hk
        obtain ⟨⟨k', v⟩, hm, rfl⟩ := List.mem_map.1 hk
        obtain ⟨v2, hv2⟩ := (hkeys k').1 ⟨v, hm⟩
        exact List.mem_map.2 ⟨(k', v2), hv2, rfl⟩
      · intro hk
        obtain ⟨⟨k', v⟩, hm, rfl⟩ := List.mem_map.1 hk
        obtain ⟨v2, hv2⟩ := (hkeys k').2 ⟨v, hm⟩
        exact List.mem_map.2 ⟨(k', v2), hv2, rfl⟩
    have hlen : d1.length = d2.length := by
      have := hperm.length_eq
      simpa using this
    simp only [valuesEqual, Bool.and_eq_true, beq_iff_eq]
    exact ⟨hlen, dictEntriesIn_of d1 d2
      (fun k v h => (hkeys k).1 ⟨v, h⟩) heq⟩
  · intro v w h
    cases v <;> cases w <;> first
      | exact absurd rfl h
      | rfl

/-- Witness for the C8 theorem at concrete dicts with swapped entry
order. -/
theorem values_equal_dict_order_witness :
    valuesEqual (.dict [("a", .number 1), ("b", .bool true)])
      (.dict [("b", .bool true), ("a", .number 1)]) = true := by
  apply values_equal_dict_order_and_variants.1
  · decide
  · decide
  · intro k
    simp only [List.mem_cons, List.not_mem_nil, or_false, Prod.mk.injEq,
      exists_or, exists_eq_right_right, exists_eq_right]
    tauto
  · intro k v1 v2 h1 h2
    simp only [List.mem_cons, List.not_mem_nil, or_false, Prod.mk.injEq] at h1 h2
    rcases h1 with ⟨rfl, rfl⟩ | ⟨rfl, rfl⟩ <;>
      rcases h2 with ⟨hk, rfl⟩ | ⟨hk, rfl⟩ <;>
      first
      | (exact absurd hk (by decide))
      | decide

/-! ## Claim C5: array index reads -/

/-- The `f64 as i64` cast is the identity on the `i64` range. -/
theorem toI64_eq (n : Rat) (h1 : i64Min ≤ ratTrunc n) (h2 : ratTrunc n ≤ i64Max) :
    toI64 n = ratTrunc n := by
  simp only [toI64, i64Min, i64Max] at *
  omega

/-- The `i64 as usize` cast is `toNat` on non-negative in-range
values. -/
theorem i64ToUsize_nonneg (i : Int) (h0 : 0 ≤ i) (h1 : i < 2 ^ 64) :
    i64ToUsize i = i.toNat := by
  simp only [i64ToUsize]
  omega

/-- The `i64 as usize` cast of a negative value wraps to
`i + 2 ^ 64`. -/
theorem i64ToUsize_neg (i : Int) (h0 : -(2 ^ 63) ≤ i) (h1 : i < 0) :
    i64ToUsize i = (i + 2 ^ 64).toNat := by
  simp only [i64ToUsize]
  omega

/-- The `usize as i64` cast is the identity below `2 ^ 63`. -/
theorem usizeToI64_small (L : Nat) (h : (L : Int) < 2 ^ 63) :
    usizeToI64 L = L := by
  simp only [usizeToI64]
  omega

/-- Wrapping `i64` addition is plain addition when the sum is in
range. -/
theorem addI64_eq (x y : Int) (hl : -(2 ^ 63) ≤ x + y) (hr : x + y < 2 ^ 63) :
    addI64 x y = x + y := by
  simp only [addI64]
  omega

/-- Claim C5: for an array of length `L < 2 ^ 63` and a numeric index
whose integer truncation is `i`: if `0 ≤ i < L` the read returns (a
clone of) the element at `i`; if `-L ≤ i < 0` it returns the element at
`L + i`; for every other `i` — including very large negative values
whose position arithmetic wraps through the `as usize` cast — it fails
with the out-of-bounds error naming the array's length. -/
theorem index_into_array_spec (arr : List Value) (n : Rat) (line : Nat) (m : Mem)
    (hL : (arr.length : Int) < 2 ^ 63) :
    ((0 ≤ ratTrunc n → ratTrunc n < (arr.length : Int) →
        ∀ h : (ratTrunc n).toNat < arr.length,
          (indexInto (.array arr) (.number n) line m).res =
            .ok (arr.get ⟨(ratTrunc n).toNat, h⟩))
     ∧ (-(arr.length : Int) ≤ ratTrunc n → ratTrunc n < 0 →
        ∀ h : ((arr.length : Int) + ratTrunc n).toNat < arr.length,
          (indexInto (.array arr) (.number n) line m).res =
            .ok (arr.get ⟨((arr.length : Int) + ratTrunc n).toNat, h⟩))
     ∧ (ratTrunc n < -(arr.length : Int) ∨ (arr.length : Int) ≤ ratTrunc n →
        (indexInto (.array arr) (.number n) line m).res =
          .error (mkError line ("Index " ++ toString (toI64 n) ++
            " is out of bounds (array has " ++ toString arr.length ++ " items)")))) := by
  refine ⟨?_, ?_, ?_⟩
  · intro h0 h1 hb
    have hi : toI64 n = ratTrunc n :=
      toI64_eq n (by simp only [i64Min]; omega) (by simp only [i64Max]; omega)
    simp only [indexInto, hi, if_neg (by omega : ¬ ratTrunc n < 0)]
    rw [i64ToUsize_nonneg _ h0 (by omega)]
    rw [List.get?_eq_get hb]
  · intro h0 h1 hb
    have hi : toI64 n = ratTrunc n :=
      toI64_eq n (by simp only [i64Min]; omega) (by simp only [i64Max]; omega)
    simp only [indexInto, hi, if_pos h1]
    rw [usizeToI64_small _ hL, addI64_eq _ _ (by omega) (by omega),
      i64ToUsize_nonneg _ (by omega) (by omega)]
    rw [List.get?_eq_get hb]
  · intro hout
    rcases hout with hneg | hpos
    · have hi : toI64 n < -(arr.length : Int) := by
        simp only [toI64, i64Min, i64Max]
        omega
      have hi2 : -(2 ^ 63) ≤ toI64 n := by
        simp only [toI64, i64Min, i64Max]
        omega
      simp only [indexInto, if_pos (by omega : toI64 n < 0)]
      rw [usizeToI64_small _ hL, addI64_eq _ _ (by omega) (by omega),
        i64ToUsize_neg _ (by omega) (by omega)]
      rw [List.get?_eq_none.2 (by omega)]
    · have hi : (arr.length : Int) ≤ toI64 n ∧ toI64 n < 2 ^ 63 := by
        constructor <;> (simp only [toI64, i64Min, i64Max]; omega)
      simp only [indexInto, if_neg (by omega : ¬ toI64 n < 0)]
      rw [i64ToUsize_nonneg _ (by omega) (by omega)]
      rw [List.get?_eq_none.2 (by omega)]

/-- Witness for the C5 theorem: a negative in-range index reads from
the end; a hugely negative index is an out-of-bounds error naming the
length. -/
theorem index_into_array_spec_witness :
    (indexInto (.array [.number 5, .str "x"]) (.number (-1)) 7 (memInit 100)).res =
      .ok (.str "x") ∧
    (indexInto (.array [.number 5, .str "x"]) (.number (-1000000000000)) 7
        (memInit 100)).res =
      .error (mkError 7 "Index -1000000000000 is out of bounds (array has 2 items)") := by
  constructor
  · have h := (index_into_array_spec [.number 5, .str "x"] (-1) 7 (memInit 100)
      (by decide)).2.1 (by decide) (by decide) (by decide)
    simpa using h
  · have h := (index_into_array_spec [.number 5, .str "x"] (-1000000000000) 7
      (memInit 100) (by decide)).2.2 (Or.inl (by decide))
    simpa using h

/-! ## Claims C3 and C10: short-circuit evaluation of `&&` / `||` -/

/-- Claim C3: for every expression `X`, every fuel, every state and
every host, `false && X` evaluates to `false` and `true || X` evaluates
to `true` with the state unchanged — `X` is never evaluated, even when
evaluating `X` would fail. -/
theorem short_circuit_never_evaluates_right :
    ∀ (σ : Type) (H : Host σ) (fuel : Nat) (X : Expr) (st : EvalState σ)
      (line bline : Nat),
      evalExpr H (fuel + 2)
          (Expr.mk (.binaryOp (Expr.mk (.bool false) bline) .band X) line) st =
        .ok (.bool false) st ∧
      evalExpr H (fuel + 2)
          (Expr.mk (.binaryOp (Expr.mk (.bool true) bline) .bor X) line) st =
        .ok (.bool true) st := by
  intro σ H fuel X st line bline
  constructor <;>
    simp [evalExpr, isTruthy, bytesVal, stDealloc, memDealloc]

/-- Claim C10: `&&` and `||` always produce a `Bool` value — the
truthiness of the deciding operand — never one of the operand values;
concretely `1 && 2` yields `true` and `0 || ""` yields `false`. -/
theorem logical_ops_always_bool :
    (∀ (σ : Type) (H : Host σ) (fuel : Nat) (l r : Expr) (line : Nat)
        (st st' : EvalState σ) (v : Value),
        (evalExpr H fuel (Expr.mk (.binaryOp l .band r) line) st = .ok v st' ∨
         evalExpr H fuel (Expr.mk (.binaryOp l .bor r) line) st = .ok v st') →
        ∃ b, v = .bool b)
    ∧ (∀ (σ : Type) (H : Host σ) (fuel : Nat) (l r : Expr) (line : Nat)
        (st st1 : EvalState σ) (lv : Value),
        evalExpr H fuel l st = .ok lv st1 →
        (isTruthy lv = false →
          evalExpr H (fuel + 1) (Expr.mk (.binaryOp l .band r) line) st =
            .ok (.bool false) (stDealloc st1 (bytesVal lv))) ∧
        (isTruthy lv = true → ∀ (rv : Value) (st2 : EvalState σ),
          evalExpr H fuel r st1 = .ok rv st2 →
          evalExpr H (fuel + 1) (Expr.mk (.binaryOp l .band r) line) st =
            .ok (.bool (isTruthy rv)) (stDealloc st2 (bytesVal lv + bytesVal rv))) ∧
        (isTruthy lv = true →
          evalExpr H (fuel + 1) (Expr.mk (.binaryOp l .bor r) line) st =
            .ok (.bool true) (stDealloc st1 (bytesVal lv))) ∧
        (isTruthy lv = false → ∀ (rv : Value) (st2 : EvalState σ),
          evalExpr H fuel r st1 = .ok rv st2 →
          evalExpr H (fuel + 1) (Expr.mk (.binaryOp l .bor r) line) st =
            .ok (.bool (isTruthy rv)) (stDealloc st2 (bytesVal lv + bytesVal rv))))
    ∧ (evalExpr stdHost 2
          (Expr.mk (.binaryOp (Expr.mk (.number 1) 1) .band (Expr.mk (.number 2) 1)) 1)
          (initState () { maxSteps := 100, maxMemory := 4096 }) =
        .ok (.bool true) (initState () { maxSteps := 100, maxMemory := 4096 }))
    ∧ (evalExpr stdHost 2
          (Expr.mk (.binaryOp (Expr.mk (.number 0) 1) .bor (Expr.mk (.str "") 1)) 1)
          (initState () { maxSteps := 100, maxMemory := 4096 }) =
        .ok (.bool false)
          (stDealloc (stAlloc (initState () { maxSteps := 100, maxMemory := 4096 }) 0)
            0)) := by
  refine ⟨?_, ?_, ?_, ?_⟩
  · intro σ H fuel l r line st st' v h
    match fuel with
    | 0 => rcases h with h | h <;> simp [evalExpr] at h
    | f + 1 =>
        rcases h with h | h <;>
          · simp only [evalExpr] at h
            cases hl : evalExpr H f l st with
            | ok lv st1 =>
                rw [hl] at h
                dsimp only at h
                split at h
                · injection h with h1 h2
                  exact ⟨_, h1.symm⟩
                · cases hr : evalExpr H f r st1 with
                  | ok rv st2 =>
                      rw [hr] at h
                      injection h with h1 h2
                      exact ⟨_, h1.symm⟩
                  | err e s2 => rw [hr] at h; simp at h
                  | out => rw [hr] at h; simp at h
            | err e s1 => rw [hl] at h; simp at h
            | out => rw [hl] at h; simp at h
  · intro σ H fuel l r line st st1 lv hl
    refine ⟨?_, ?_, ?_, ?_⟩
    · intro hf
      simp [evalExpr, hl, hf]
    · intro ht rv st2 hr
      simp [evalExpr, hl, ht, hr]
    · intro ht
      simp [evalExpr, hl, ht]
    · intro hf rv st2 hr
      simp [evalExpr, hl, hf, hr]
  · simp [evalExpr, isTruthy, bytesVal, stDealloc, memDealloc]
    try decide
  · simp [evalExpr, isTruthy, bytesVal, stDealloc, stAlloc, memDealloc, memAlloc]
    try decide

/-- Witness for the C10 theorem: `1 && 2` evaluates to the boolean
`true` (the truthiness of the deciding right operand). -/
theorem logical_ops_always_bool_witness :
    ∃ b, Value.bool true = Value.bool b := by
  apply logical_ops_always_bool.1 Unit stdHost 2
    (Expr.mk (.number 1) 1) (Expr.mk (.number 2) 1) 1
    (initState () { maxSteps := 100, maxMemory := 4096 })
    (initState () { maxSteps := 100, maxMemory := 4096 })
  exact Or.inl logical_ops_always_bool.2.2.1

/-! ## Claim C1: termination under the step budget

The evaluator only recurses (a) into structurally smaller work items,
(b) into function bodies after bumping the capped call depth, or
(c) after a successful tick, which strictly increases the step counter
toward `max_steps`.  A lexicographic measure over (remaining steps,
remaining call depth, work-item size) therefore bounds the recursion
depth, and the fuel computed from it is always sufficient — except when
`max_steps = 2 ^ 64 - 1`, where the `u64` step counter wraps and the
too-many-steps check can never fire. -/

mutual

/-- Node count of an expression. -/
def sizeExpr : Expr → Nat
  | .mk k _ =>
      match k with
      | .binaryOp l _ r => 1 + sizeExpr l + sizeExpr r
      | .unaryOp _ e => 1 + sizeExpr e
      | .call c args => 1 + sizeExpr c + sizeExprList args
      | .methodCall o _ args => 1 + sizeExpr o + sizeExprList args
      | .index o i => 1 + sizeExpr o + sizeExpr i
      | .array es => 1 + sizeExprList es
      | .dict es => 1 + sizeDictEntries es
      | .ifExpr c t e => 1 + sizeExpr c + sizeExpr t + sizeExpr e
      | _ => 1

/-- Node count of an expression list. -/
def sizeExprList : List Expr → Nat
  | [] => 0
  | e :: r => sizeExpr e + sizeExprList r

/-- Node count of dict-literal entries. -/
def sizeDictEntries : List (String × Expr) → Nat
  | [] => 0
  | (_, e) :: r => sizeExpr e + sizeDictEntries r

end

/-- Node count of an assignment target. -/
def sizeTarget : AssignTarget → Nat
  | .variable _ => 1
  | .index o i => 1 + sizeExpr o + sizeExpr i

mutual

/-- Node count of a statement. -/
def sizeStmt : Stmt → Nat
  | .mk k _ =>
      match k with
      | .sLet _ e => 1 + sizeExpr e
      | .assign t _ e => 1 + sizeTarget t + sizeExpr e
      | .sIf c b el eb => 1 + sizeExpr c + sizeStmts b + sizeElifs el + sizeOptBlock eb
      | .sWhile c b => 1 + sizeExpr c + sizeStmts b
      | .sRepeat c b => 1 + sizeExpr c + sizeStmts b
      | .forIn _ e b => 1 + sizeExpr e + sizeStmts b
      | .fnDecl _ _ b => 1 + sizeStmts b
      | .sReturn (some e) => 1 + sizeExpr e
      | .exprStmt e => 1 + sizeExpr e
      | _ => 1

/-- Node count of a statement list. -/
def sizeStmts : List Stmt → Nat
  | [] => 0
  | s :: r => sizeStmt s + sizeStmts r

/-- Node count of `else if` branches. -/
def sizeElifs : List (Expr × List Stmt) → Nat
  | [] => 0
  | (c, b) :: r => sizeExpr c + sizeStmts b + sizeElifs r

/-- Node count of an optional `else` body. -/
def sizeOptBlock : Option (List Stmt) → Nat
  | Option.none => 0
  | some b => sizeStmts b

end

/-- The execution invariant for the termination proof, with `P` a bound
on the size of any executable code: the step counter is within budget,
the budget leaves room before the `u64` wrap, the call depth respects
the cap, and every stored function body is bounded by `P`. -/
def Inv (P : Nat) {σ : Type} (st : EvalState σ) : Prop :=
  st.steps ≤ st.limits.maxSteps ∧
  st.limits.maxSteps ≤ 2 ^ 64 - 2 ∧
  st.callDepth ≤ 64 ∧
  ∀ p ∈ st.functions, sizeStmts (FnDef.body p.2) ≤ P

/-- The termination measure: lexicographic (remaining steps, remaining
call depth, work-item size) flattened into one natural number.
`2 * P + 5` strictly bounds every work-item size. -/
def evalMeasure (P : Nat) {σ : Type} (st : EvalState σ) (s : Nat) : Nat :=
  (st.limits.maxSteps - st.steps) * (65 * (2 * P + 5)) +
    (64 - st.callDepth) * (2 * P + 5) + s

/-- Measure decrease: same budget position, same depth, smaller item. -/
theorem evalMeasure_lt_size (P : Nat) {σ : Type} (st st' : EvalState σ)
    (s s' : Nat) (hlim : st'.limits.maxSteps = st.limits.maxSteps)
    (hst : st.steps ≤ st'.steps) (hd : st'.callDepth = st.callDepth)
    (hs : s' < s) :
    evalMeasure P st' s' < evalMeasure P st s := by
  unfold evalMeasure
  rw [hlim, hd]
  have h1 : st.limits.maxSteps - st'.steps ≤ st.limits.maxSteps - st.steps :=
    Nat.sub_le_sub_left hst _
  have h2 : (st.limits.maxSteps - st'.steps) * (65 * (2 * P + 5)) ≤
      (st.limits.maxSteps - st.steps) * (65 * (2 * P + 5)) :=
    Nat.mul_le_mul_right _ h1
  omega

/-- Measure decrease: the step counter strictly advanced within budget;
any admissible depth and item size. -/
theorem evalMeasure_lt_steps (P : Nat) {σ : Type} (st st' : EvalState σ)
    (s s' : Nat) (hlim : st'.limits.maxSteps = st.limits.maxSteps)
    (hst : st.steps < st'.steps) (hst2 : st'.steps ≤ st'.limits.maxSteps)
    (hd : st'.callDepth ≤ 64) (hs : s' < 2 * P + 5) :
    evalMeasure P st' s' < evalMeasure P st s := by
  unfold evalMeasure
  have hR : st.limits.maxSteps - st'.steps < st.limits.maxSteps - st.steps := by
    omega
  have h2 : (st.limits.maxSteps - st'.steps) * (65 * (2 * P + 5)) + 65 * (2 * P + 5) ≤
      (st.limits.maxSteps - st.steps) * (65 * (2 * P + 5)) := by
    have := Nat.succ_le_of_lt hR
    calc (st.limits.maxSteps - st'.steps) * (65 * (2 * P + 5)) + 65 * (2 * P + 5)
        = (st.limits.maxSteps - st'.steps + 1) * (65 * (2 * P + 5)) := by ring
      _ ≤ (st.limits.maxSteps - st.steps) * (65 * (2 * P + 5)) :=
          Nat.mul_le_mul_right _ this
  have h3 : (64 - st'.callDepth) * (2 * P + 5) + s' < 65 * (2 * P + 5) := by
    have : (64 - st'.callDepth) * (2 * P + 5) ≤ 64 * (2 * P + 5) :=
      Nat.mul_le_mul_right _ (by omega)
    omega
  rw [hlim]
  omega

/-- Measure decrease: one level deeper in the call stack; any item
size. -/
theorem evalMeasure_lt_depth (P : Nat) {σ : Type} (st st' : EvalState σ)
    (s s' : Nat) (hlim : st'.limits.maxSteps = st.limits.maxSteps)
    (hst : st.steps ≤ st'.steps)
    (hd : st'.callDepth = st.callDepth + 1) (hd0 : st.callDepth ≤ 63)
    (hs : s' < 2 * P + 5) :
    evalMeasure P st' s' < evalMeasure P st s := by
  unfold evalMeasure
  rw [hlim]
  have h1 : st.limits.maxSteps - st'.steps ≤ st.limits.maxSteps - st.steps :=
    Nat.sub_le_sub_left hst _
  have h2 : (st.limits.maxSteps - st'.steps) * (65 * (2 * P + 5)) ≤
      (st.limits.maxSteps - st.steps) * (65 * (2 * P + 5)) :=
    Nat.mul_le_mul_right _ h1
  have h3 : (64 - st'.callDepth) * (2 * P + 5) + (2 * P + 5) = (64 - st.callDepth) * (2 * P + 5) := by
    have : 64 - st.callDepth = (64 - st'.callDepth) + 1 := by omega
    rw [this]
    ring
  omega

/-! ### State-shape lemmas for the evaluator helpers

The ledger- and scope-manipulating helpers leave the step counter, call
depth, function table and limits untouched. -/

@[simp] theorem stAlloc_steps {σ : Type} (st : EvalState σ) (b : Nat) :
    (stAlloc st b).steps = st.steps := rfl

@[simp] theorem stAlloc_callDepth {σ : Type} (st : EvalState σ) (b : Nat) :
    (stAlloc st b).callDepth = st.callDepth := rfl

@[simp] theorem stAlloc_functions {σ : Type} (st : EvalState σ) (b : Nat) :
    (stAlloc st b).functions = st.functions := rfl

@[simp] theorem stAlloc_limits {σ : Type} (st : EvalState σ) (b : Nat) :
    (stAlloc st b).limits = st.limits := rfl

@[simp] theorem stDealloc_steps {σ : Type} (st : EvalState σ) (b : Nat) :
    (stDealloc st b).steps = st.steps := rfl

@[simp] theorem stDealloc_callDepth {σ : Type} (st : EvalState σ) (b : Nat) :
    (stDealloc st b).callDepth = st.callDepth := rfl

@[simp] theorem stDealloc_functions {σ : Type} (st : EvalState σ) (b : Nat) :
    (stDealloc st b).functions = st.functions := rfl

@[simp] theorem stDealloc_limits {σ : Type} (st : EvalState σ) (b : Nat) :
    (stDealloc st b).limits = st.limits := rfl

@[simp] theorem pushScope_steps {σ : Type} (st : EvalState σ) :
    (pushScope st).steps = st.steps := rfl

@[simp] theorem pushScope_callDepth {σ : Type} (st : EvalState σ) :
    (pushScope st).callDepth = st.callDepth := rfl

@[simp] theorem pushScope_functions {σ : Type} (st : EvalState σ) :
    (pushScope st).functions = st.functions := rfl

@[simp] theorem pushScope_limits {σ : Type} (st : EvalState σ) :
    (pushScope st).limits = st.limits := rfl

@[simp] theorem popScope_steps {σ : Type} (st : EvalState σ) :
    (popScope st).steps = st.steps := by
  unfold popScope
  split <;> rfl

@[simp] theorem popScope_callDepth {σ : Type} (st : EvalState σ) :
    (popScope st).callDepth = st.callDepth := by
  unfold popScope
  split <;> rfl

@[simp] theorem popScope_functions {σ : Type} (st : EvalState σ) :
    (popScope st).functions = st.functions := by
  unfold popScope
  split <;> rfl

@[simp] theorem popScope_limits {σ : Type} (st : EvalState σ) :
    (popScope st).limits = st.limits := by
  unfold popScope
  split <;> rfl

@[simp] theorem defineVar_steps {σ : Type} (st : EvalState σ) (n : String) (v : Value) :
    (defineVar st n v).steps = st.steps := by
  unfold defineVar
  split <;> rfl

@[simp] theorem defineVar_callDepth {σ : Type} (st : EvalState σ) (n : String)
    (v : Value) : (defineVar st n v).callDepth = st.callDepth := by
  unfold defineVar
  split <;> rfl

@[simp] theorem defineVar_functions {σ : Type} (st : EvalState σ) (n : String)
    (v : Value) : (defineVar st n v).functions = st.functions := by
  unfold defineVar
  split <;> rfl

@[simp] theorem defineVar_limits {σ : Type} (st : EvalState σ) (n : String)
    (v : Value) : (defineVar st n v).limits = st.limits := by
  unfold defineVar
  split <;> rfl

@[simp] theorem setVar_steps {σ : Type} (st : EvalState σ) (n : String) (v : Value) :
    (setVar st n v).1.steps = st.steps := rfl

@[simp] theorem setVar_callDepth {σ : Type} (st : EvalState σ) (n : String)
    (v : Value) : (setVar st n v).1.callDepth = st.callDepth := rfl

@[simp] theorem setVar_functions {σ : Type} (st : EvalState σ) (n : String)
    (v : Value) : (setVar st n v).1.functions = st.functions := rfl

@[simp] theorem setVar_limits {σ : Type} (st : EvalState σ) (n : String)
    (v : Value) : (setVar st n v).1.limits = st.limits := rfl

@[simp] theorem bindParams_steps {σ : Type} (ps : List String) (args : List Value)
    (st : EvalState σ) : (bindParams ps args st).steps = st.steps := by
  induction ps generalizing args st with
  | nil => rfl
  | cons p ps ih =>
      cases args with
      | nil => rfl
      | cons a as' => simp [bindParams, ih]

@[simp] theorem bindParams_callDepth {σ : Type} (ps : List String)
    (args : List Value) (st : EvalState σ) :
    (bindParams ps args st).callDepth = st.callDepth := by
  induction ps generalizing args st with
  | nil => rfl
  | cons p ps ih =>
      cases args with
      | nil => rfl
      | cons a as' => simp [bindParams, ih]

@[simp] theorem bindParams_functions {σ : Type} (ps : List String)
    (args : List Value) (st : EvalState σ) :
    (bindParams ps args st).functions = st.functions := by
  induction ps generalizing args st with
  | nil => rfl
  | cons p ps ih =>
      cases args with
      | nil => rfl
      | cons a as' => simp [bindParams, ih]

@[simp] theorem bindParams_limits {σ : Type} (ps : List String)
    (args : List Value) (st : EvalState σ) :
    (bindParams ps args st).limits = st.limits := by
  induction ps generalizing args st with
  | nil => rfl
  | cons p ps ih =>
      cases args with
      | nil => rfl
      | cons a as' => simp [bindParams, ih]

/-! ### Tick lemmas -/

/-- A successful tick advances the wrapped step counter within budget
and changes nothing else except the host state. -/
theorem tick_ok_shape {σ : Type} (H : Host σ) (line : Nat) (st st' : EvalState σ)
    (a : Unit) (h : tick H line st = .ok a st') :
    st'.steps = (st.steps + 1) % 2 ^ 64 ∧ ¬ st.limits.maxSteps < st'.steps ∧
    st'.callDepth = st.callDepth ∧ st'.functions = st.functions ∧
    st'.limits = st.limits ∧ st'.scopes = st.scopes ∧ st'.mem = st.mem := by
  simp only [tick] at h
  split at h
  · exact absurd h (by simp)
  · split at h
    · exact absurd h (by simp)
    · rename_i hlt hmem
      cases hot : H.onTick st.host with
      | mk h2 opt =>
          rw [hot] at h
          cases opt with
          | some e => exact absurd h (by simp)
          | none =>
              cases h
              exact ⟨rfl, hlt, rfl, rfl, rfl, rfl, rfl⟩

/-- Under the invariant (budget below the wrap point), a successful
tick increments the step counter by exactly one and stays within
budget. -/
theorem tick_ok_steps {σ : Type} (P : Nat) (H : Host σ) (line : Nat)
    (st st' : EvalState σ) (a : Unit) (hInv : Inv P st)
    (h : tick H line st = .ok a st') :
    st'.steps = st.steps + 1 ∧ st'.steps ≤ st.limits.maxSteps ∧ Inv P st' ∧
    st'.callDepth = st.callDepth ∧ st'.limits = st.limits ∧
    st'.scopes = st.scopes ∧ st'.mem = st.mem := by
  obtain ⟨h1, h2, h3, h4, h5, h6, h7⟩ := tick_ok_shape H line st st' a h
  obtain ⟨i1, i2, i3, i4⟩ := hInv
  have hnw : (st.steps + 1) % 2 ^ 64 = st.steps + 1 := Nat.mod_eq_of_lt (by omega)
  rw [hnw] at h1
  have hle : st'.steps ≤ st.limits.maxSteps := by omega
  have hm : st'.limits.maxSteps = st.limits.maxSteps := by rw [h5]
  refine ⟨h1, hle, ⟨by omega, by omega, by omega, ?_⟩, h3, h5, h6, h7⟩
  rw [h4]
  exact i4

/-- A failed tick leaves the step counter at most one past the budget
and preserves the limits. -/
theorem tick_err_shape {σ : Type} (P : Nat) (H : Host σ) (line : Nat)
    (st st' : EvalState σ) (e : BopError) (hInv : Inv P st)
    (h : tick H line st = .err e st') :
    st'.steps ≤ st.limits.maxSteps + 1 ∧ st'.limits = st.limits := by
  obtain ⟨i1, i2, i3, i4⟩ := hInv
  have hnw : (st.steps + 1) % 2 ^ 64 = st.steps + 1 := Nat.mod_eq_of_lt (by omega)
  simp only [tick] at h
  split at h
  · cases h
    refine ⟨?_, rfl⟩
    show (st.steps + 1) % 2 ^ 64 ≤ st.limits.maxSteps + 1
    omega
  · split at h
    · cases h
      refine ⟨?_, rfl⟩
      show (st.steps + 1) % 2 ^ 64 ≤ st.limits.maxSteps + 1
      omega
    · cases hot : H.onTick st.host with
      | mk h2 opt =>
          rw [hot] at h
          cases opt with
          | some e2 =>
              cases h
              refine ⟨?_, rfl⟩
              show (st.steps + 1) % 2 ^ 64 ≤ st.limits.maxSteps + 1
              omega
          | none => exact absurd h (by simp)

/-- The tick never exhausts fuel. -/
theorem tick_ne_out {σ : Type} (H : Host σ) (line : Nat) (st : EvalState σ) :
    tick H line st ≠ .out := by
  simp only [tick]
  split
  · simp
  · split
    · simp
    · split <;> simp

/-! ### Invariant-transfer packaging -/

/-- Conclusion of the preservation lemma on a successful result. -/
def PresOk (P : Nat) {σ : Type} (st st' : EvalState σ) : Prop :=
  Inv P st' ∧ st.steps ≤ st'.steps ∧ st'.callDepth = st.callDepth ∧
    st'.limits = st.limits

/-- Conclusion of the preservation lemma on an error result. -/
def PresErr {σ : Type} (st st' : EvalState σ) : Prop :=
  st'.steps ≤ st.limits.maxSteps + 1 ∧ st'.limits = st.limits

/-- Preservation statement for an evaluation result. -/
def presP (P : Nat) {σ α : Type} (st : EvalState σ) : RunRes σ α → Prop
  | .ok _ st' => PresOk P st st'
  | .err _ st' => PresErr st st'
  | .out => True

theorem PresOk.refl {σ : Type} (P : Nat) (st : EvalState σ) (h : Inv P st) :
    PresOk P st st := ⟨h, le_refl _, rfl, rfl⟩

theorem PresOk.trans {σ : Type} {P : Nat} {st st1 st2 : EvalState σ}
    (h1 : PresOk P st st1) (h2 : PresOk P st1 st2) : PresOk P st st2 := by
  obtain ⟨a1, a2, a3, a4⟩ := h1
  obtain ⟨b1, b2, b3, b4⟩ := h2
  exact ⟨b1, le_trans a2 b2, by rw [b3, a3], by rw [b4, a4]⟩

theorem PresOk.err_trans {σ : Type} {P : Nat} {st st1 st2 : EvalState σ}
    (h1 : PresOk P st st1) (h2 : PresErr st1 st2) : PresErr st st2 := by
  obtain ⟨a1, a2, a3, a4⟩ := h1
  obtain ⟨b1, b2⟩ := h2
  rw [a4] at b1
  exact ⟨b1, by rw [b2, a4]⟩

theorem PresErr.of_inv {σ : Type} {P : Nat} {st : EvalState σ} (h : Inv P st) :
    PresErr st st := ⟨le_trans h.1 (by omega), rfl⟩

/-- A change that only touches the ledger, the scopes, the PRNG state
or the host preserves the invariant. -/
theorem Inv.of_fields {σ : Type} {P : Nat} {st st' : EvalState σ} (h : Inv P st)
    (hsteps : st'.steps = st.steps) (hd : st'.callDepth = st.callDepth)
    (hf : st'.functions = st.functions) (hl : st'.limits = st.limits) :
    Inv P st' := by
  obtain ⟨a, b, c, d⟩ := h
  have hm : st'.limits.maxSteps = st.limits.maxSteps := by rw [hl]
  exact ⟨by omega, by omega, by omega, by rw [hf]; exact d⟩

theorem PresOk.mem_right {σ : Type} {P : Nat} {st st' : EvalState σ}
    (h : PresOk P st st') (b : Nat) : PresOk P st (stDealloc st' b) := by
  obtain ⟨a1, a2, a3, a4⟩ := h
  exact ⟨Inv.of_fields a1 rfl rfl rfl rfl, by simpa using a2, by simpa using a3,
    by simpa using a4⟩

theorem PresOk.alloc_right {σ : Type} {P : Nat} {st st' : EvalState σ}
    (h : PresOk P st st') (b : Nat) : PresOk P st (stAlloc st' b) := by
  obtain ⟨a1, a2, a3, a4⟩ := h
  exact ⟨Inv.of_fields a1 rfl rfl rfl rfl, by simpa using a2, by simpa using a3,
    by simpa using a4⟩

def PresErr.mem_right {σ : Type} {st st' : EvalState σ}
    (h : PresErr st st') (b : Nat) : PresErr st (stDealloc st' b) := by
  obtain ⟨a1, a2⟩ := h
  exact ⟨by simpa using a1, by simpa using a2⟩

/-! ### Transfer along state rebuilds -/

theorem PresOk.congr {σ : Type} {P : Nat} {st st1 st2 : EvalState σ}
    (h : PresOk P st st1) (hs : st2.steps = st1.steps)
    (hd : st2.callDepth = st1.callDepth) (hf : st2.functions = st1.functions)
    (hl : st2.limits = st1.limits) : PresOk P st st2 := by
  obtain ⟨a1, a2, a3, a4⟩ := h
  exact ⟨Inv.of_fields a1 hs hd hf hl, by omega, by rw [hd, a3], by rw [hl, a4]⟩

def PresErr.congr {σ : Type} {st st1 st2 : EvalState σ}
    (h : PresErr st st1) (hs : st2.steps = st1.steps)
    (hl : st2.limits = st1.limits) : PresErr st st2 := by
  obtain ⟨a1, a2⟩ := h
  exact ⟨by omega, by rw [hl, a2]⟩

theorem PresOk.toErr {σ : Type} {P : Nat} {st st1 : EvalState σ}
    (h : PresOk P st st1) : PresErr st st1 := by
  obtain ⟨⟨i1, i2, i3, i4⟩, a2, a3, a4⟩ := h
  have hm : st1.limits.maxSteps = st.limits.maxSteps := by rw [a4]
  exact ⟨by omega, a4⟩

theorem tick_presOk {σ : Type} {P : Nat} {H : Host σ} {line : Nat}
    {st st0 : EvalState σ} {a : Unit} (hInv : Inv P st)
    (ht : tick H line st = .ok a st0) : PresOk P st st0 := by
  obtain ⟨h1, h2, h3, h4, h5, h6, h7⟩ := tick_ok_steps P H line st st0 a hInv ht
  exact ⟨h3, by omega, h4, h5⟩

/-! ### Measure decrease at every recursive call site -/

theorem measure_lt_chain {σ : Type} {P : Nat} {st stx : EvalState σ}
    (hp : PresOk P st stx) (sx s : Nat) (hs : sx < s) :
    evalMeasure P stx sx < evalMeasure P st s := by
  obtain ⟨a1, a2, a3, a4⟩ := hp
  exact evalMeasure_lt_size P st stx s sx (by rw [a4]) a2 a3 hs

theorem measure_lt_after_tick {σ : Type} {P : Nat} {H : Host σ} {line : Nat}
    {st st0 stx : EvalState σ} {a : Unit} (hInv : Inv P st)
    (ht : tick H line st = .ok a st0) (hp : PresOk P st0 stx)
    (sx s : Nat) (hs : sx < 2 * P + 5) :
    evalMeasure P stx sx < evalMeasure P st s := by
  obtain ⟨h1, h2, h3, h4, h5, h6, h7⟩ := tick_ok_steps P H line st st0 a hInv ht
  obtain ⟨⟨i1, i2, i3, i4⟩, b2, b3, b4⟩ := hp
  refine evalMeasure_lt_steps P st stx s sx ?_ (by omega) i1 i3 hs
  rw [b4, h5]

theorem measure_lt_call (P : Nat) {σ : Type} (st stx : EvalState σ)
    (hs0 : st.steps ≤ stx.steps) (hd : stx.callDepth = st.callDepth + 1)
    (hl : stx.limits = st.limits) (hd0 : st.callDepth ≤ 63)
    (sx s : Nat) (hsx : sx < 2 * P + 5) :
    evalMeasure P stx sx < evalMeasure P st s :=
  evalMeasure_lt_depth P st stx s sx (by rw [hl]) hs0 hd hd0 hsx

/-! ### Size positivity and function-table lemmas -/

theorem sizeExpr_pos (e : Expr) : 1 ≤ sizeExpr e := by
  obtain ⟨k, l⟩ := e
  cases k <;> simp [sizeExpr] <;> omega

theorem sizeStmt_pos (s : Stmt) : 1 ≤ sizeStmt s := by
  obtain ⟨k, l⟩ := s
  cases k with
  | sReturn v => cases v <;> simp [sizeStmt]
  | _ =>
      simp only [sizeStmt]
      omega

theorem sizeTarget_pos (t : AssignTarget) : 1 ≤ sizeTarget t := by
  cases t <;> simp only [sizeTarget] <;> omega

theorem fnInsert_mem (fns : List (String × FnDef)) (name : String) (fd : FnDef)
    (p : String × FnDef) (hp : p ∈ fnInsert fns name fd) :
    p.2 = fd ∨ p ∈ fns := by
  induction fns with
  | nil =>
      simp only [fnInsert, List.mem_singleton] at hp
      left
      rw [hp]
  | cons q rest ih =>
      obtain ⟨k, f0⟩ := q
      simp only [fnInsert] at hp
      split at hp
      · rcases List.mem_cons.1 hp with h | h
        · left
          rw [h]
        · right
          exact List.mem_cons_of_mem _ h
      · rcases List.mem_cons.1 hp with h | h
        · right
          rw [h]
          exact List.mem_cons_self _ _
        · rcases ih h with h2 | h2
          · left
            exact h2
          · right
            exact List.mem_cons_of_mem _ h2

theorem fnLookup_mem (fns : List (String × FnDef)) (name : String) (fd : FnDef)
    (h : fnLookup fns name = some fd) : ∃ k, (k, fd) ∈ fns := by
  induction fns with
  | nil => simp [fnLookup] at h
  | cons q rest ih =>
      obtain ⟨k, f0⟩ := q
      simp only [fnLookup] at h
      split at h
      · cases h
        exact ⟨k, List.mem_cons_self _ _⟩
      · obtain ⟨k2, hk⟩ := ih h
        exact ⟨k2, List.mem_cons_of_mem _ hk⟩

/-! ### Helper-routine state shapes -/

/-- String interpolation touches only the ledger and host-invisible
data: counters, function table and limits pass through on every
outcome, and it never runs out of fuel (it consumes none). -/
theorem interpParts_fields {σ : Type} (parts : List StringPart) (line : Nat)
    (acc : String) (st : EvalState σ) :
    (∀ r st', interpParts parts line acc st = .ok r st' →
      st'.steps = st.steps ∧ st'.callDepth = st.callDepth ∧
      st'.functions = st.functions ∧ st'.limits = st.limits) ∧
    (∀ e st', interpParts parts line acc st = .err e st' →
      st'.steps = st.steps ∧ st'.callDepth = st.callDepth ∧
      st'.functions = st.functions ∧ st'.limits = st.limits) ∧
    interpParts parts line acc st ≠ .out := by
  induction parts generalizing acc st with
  | nil =>
      refine ⟨?_, ?_, by simp [interpParts]⟩
      · intro r st' h
        simp only [interpParts] at h
        cases h
        exact ⟨rfl, rfl, rfl, rfl⟩
      · intro e st' h
        simp only [interpParts] at h
        simp at h
  | cons p rest ih =>
      cases p with
      | literal s =>
          simp only [interpParts]
          exact ih (acc ++ s) st
      | «variable» name =>
          simp only [interpParts]
          cases hv : getVar st name with
          | some v => exact ih _ _
          | none =>
              refine ⟨?_, ?_, by simp⟩
              · intro r st' h
                simp at h
              · intro e st' h
                cases h
                exact ⟨rfl, rfl, rfl, rfl⟩

/-- Handing back a builtin result only swaps the ledger in: counters,
function table and limits pass through, and the result is never
`out`. -/
theorem finishBuiltin_fields {σ : Type} (st : EvalState σ) (args : List Value)
    (r : MResult Value) :
    (∀ v st', finishBuiltin st args r = .ok v st' →
      st'.steps = st.steps ∧ st'.callDepth = st.callDepth ∧
      st'.functions = st.functions ∧ st'.limits = st.limits) ∧
    (∀ e st', finishBuiltin st args r = .err e st' →
      st'.steps = st.steps ∧ st'.callDepth = st.callDepth ∧
      st'.functions = st.functions ∧ st'.limits = st.limits) ∧
    finishBuiltin st args r ≠ .out := by
  unfold finishBuiltin
  cases hr : r.res with
  | ok v =>
      refine ⟨?_, ?_, by simp⟩
      · intro v2 st' h
        cases h
        exact ⟨rfl, rfl, rfl, rfl⟩
      · intro e st' h
        simp at h
  | error e =>
      refine ⟨?_, ?_, by simp⟩
      · intro v2 st' h
        simp at h
      · intro e2 st' h
        cases h
        exact ⟨rfl, rfl, rfl, rfl⟩

/-! ### The combined preservation / fuel-adequacy statement -/

/-- Combined preservation-and-adequacy property of one evaluation
result: the invariant transfers, and when the measure is below the fuel
the fuel cannot have run out. -/
def presAdeq (P : Nat) {σ α : Type} (st : EvalState σ) (s fuel : Nat)
    (r : RunRes σ α) : Prop :=
  presP P st r ∧ (evalMeasure P st s < fuel → r ≠ .out)

/-- The preservation/adequacy statement at a given fuel: one conjunct
per evaluator function, each with its work-item size. -/
def allPres (P : Nat) {σ : Type} (H : Host σ) (fuel : Nat) : Prop :=
  (∀ (stmts : List Stmt) (st : EvalState σ), Inv P st → sizeStmts stmts ≤ P →
    presAdeq P st (2 * sizeStmts stmts + 1) fuel (execBlock H fuel stmts st)) ∧
  (∀ (stmt : Stmt) (st : EvalState σ), Inv P st → sizeStmt stmt ≤ P →
    presAdeq P st (2 * sizeStmt stmt) fuel (execStmt H fuel stmt st)) ∧
  (∀ (elifs : List (Expr × List Stmt)) (elseB : Option (List Stmt))
      (st : EvalState σ), Inv P st → sizeElifs elifs + sizeOptBlock elseB ≤ P →
    presAdeq P st (2 * (sizeElifs elifs + sizeOptBlock elseB) + 3) fuel
      (execIfChain H fuel elifs elseB st)) ∧
  (∀ (line : Nat) (cond : Expr) (body : List Stmt) (st : EvalState σ),
    Inv P st → sizeExpr cond + sizeStmts body ≤ P →
    presAdeq P st 0 fuel (whileLoop H fuel line cond body st)) ∧
  (∀ (line count : Nat) (body : List Stmt) (st : EvalState σ),
    Inv P st → sizeStmts body ≤ P →
    presAdeq P st 0 fuel (repeatLoop H fuel line count body st)) ∧
  (∀ (line : Nat) (v : String) (items : List Value) (body : List Stmt)
      (st : EvalState σ), Inv P st → sizeStmts body ≤ P →
    presAdeq P st 0 fuel (forLoop H fuel line v items body st)) ∧
  (∀ (target : AssignTarget) (op : AssignOp) (nv : Value) (line : Nat)
      (st : EvalState σ), Inv P st → sizeTarget target ≤ P →
    presAdeq P st (2 * sizeTarget target) fuel
      (execAssign H fuel target op nv line st)) ∧
  (∀ (object : Expr) (idx valToSet : Value) (pending line : Nat)
      (st : EvalState σ), Inv P st →
    presAdeq P st 0 fuel
      (execAssignIndexStore H fuel object idx valToSet pending line st)) ∧
  (∀ (e : Expr) (st : EvalState σ), Inv P st → sizeExpr e ≤ P →
    presAdeq P st (2 * sizeExpr e) fuel (evalExpr H fuel e st)) ∧
  (∀ (es : List Expr) (st : EvalState σ), Inv P st → sizeExprList es ≤ P →
    presAdeq P st (2 * sizeExprList es + 1) fuel (evalExprList H fuel es st)) ∧
  (∀ (entries : List (String × Expr)) (st : EvalState σ), Inv P st →
    sizeDictEntries entries ≤ P →
    presAdeq P st (2 * sizeDictEntries entries + 1) fuel
      (evalDictEntries H fuel entries st)) ∧
  (∀ (name : String) (args : List Value) (line : Nat) (st : EvalState σ),
    Inv P st →
    presAdeq P st 1 fuel (callFunction H fuel name args line st))

/-- The measure is strictly monotone in the work-item size. -/
theorem measure_lt_s (P : Nat) {σ : Type} (st : EvalState σ) (s1 s2 : Nat)
    (h : s1 < s2) : evalMeasure P st s1 < evalMeasure P st s2 := by
  unfold evalMeasure
  omega

/-- Preservation results compose along a `PresOk` prefix. -/
theorem presP_chain {σ α : Type} {P : Nat} {st st1 : EvalState σ}
    {r : RunRes σ α} (h0 : PresOk P st st1) (h : presP P st1 r) :
    presP P st r := by
  cases r with
  | ok a st2 => exact h0.trans h
  | err e st2 => exact h0.err_trans h
  | out => trivial

theorem tick_presErr {σ : Type} {P : Nat} {H : Host σ} {line : Nat}
    {st st0 : EvalState σ} {e : BopError} (hInv : Inv P st)
    (ht : tick H line st = .err e st0) : PresErr st st0 :=
  tick_err_shape P H line st st0 e hInv ht

/-- At fuel zero every evaluator function returns `out`, which the
statement permits because the measure is never below zero. -/
theorem allPres_zero (P : Nat) {σ : Type} (H : Host σ) : allPres P H 0 := by
  refine ⟨?_, ?_, ?_, ?_, ?_, ?_, ?_, ?_, ?_, ?_, ?_, ?_⟩ <;>
    (intros
     simp only [presAdeq]
     refine ⟨?_, fun hm => absurd hm (by omega)⟩
     simp [execBlock, execStmt, execIfChain, whileLoop, repeatLoop, forLoop,
       execAssign, execAssignIndexStore, evalExpr, evalExprList,
       evalDictEntries, callFunction, presP])

/-! ### The induction step, function by function -/

theorem presStep_execAssignIndexStore {σ : Type} {P : Nat} {H : Host σ} {f : Nat}
    (object : Expr) (idx valToSet : Value) (pending line : Nat)
    (st : EvalState σ) (hInv : Inv P st) :
    presAdeq P st 0 (f + 1)
      (execAssignIndexStore H (f + 1) object idx valToSet pending line st) := by
  simp only [presAdeq, execAssignIndexStore]
  cases hk : object.kind
  case ident name =>
    cases hv : getVar st name with
    | none =>
        simp only [hv]
        exact ⟨(PresErr.of_inv hInv).congr rfl rfl, fun _ => by simp⟩
    | some obj0 =>
        cases hres : (setIndex obj0 idx valToSet line
            (stAlloc st (bytesVal obj0)).mem).res with
        | error e =>
            simp only [hv, hres]
            exact ⟨(PresErr.of_inv hInv).congr rfl rfl, fun _ => by simp⟩
        | ok newObj =>
            simp only [hv, hres]
            exact ⟨(PresOk.refl P st hInv).congr rfl rfl rfl rfl, fun _ => by simp⟩
  all_goals exact ⟨(PresErr.of_inv hInv).congr rfl rfl, fun _ => by simp⟩

theorem presStep_evalExprList {σ : Type} {P : Nat} {H : Host σ} {f : Nat}
    (ih : allPres P H f) (es : List Expr) (st : EvalState σ)
    (hInv : Inv P st) (hsz : sizeExprList es ≤ P) :
    presAdeq P st (2 * sizeExprList es + 1) (f + 1) (evalExprList H (f + 1) es st) := by
  obtain ⟨ihB, ihS, ihC, ihW, ihR, ihF, ihA, ihI, ihE, ihL, ihD, ihK⟩ := ih
  simp only [presAdeq]
  cases es with
  | nil =>
      simp only [evalExprList]
      exact ⟨PresOk.refl P st hInv, fun _ => by simp⟩
  | cons e rest =>
      simp only [evalExprList, sizeExprList] at hsz ⊢
      obtain ⟨hp1, ha1⟩ := ihE e st hInv (by omega)
      cases hres : evalExpr H f e st with
      | ok v st1 =>
          simp only [hres]
          rw [hres] at hp1
          have hp1' : PresOk P st st1 := hp1
          obtain ⟨hp2, ha2⟩ := ihL rest st1 hp1'.1 (by omega)
          cases hres2 : evalExprList H f rest st1 with
          | ok vs st2 =>
              simp only [hres2]
              rw [hres2] at hp2
              exact ⟨hp1'.trans hp2, fun _ => by simp⟩
          | err e2 st2 =>
              simp only [hres2]
              rw [hres2] at hp2
              exact ⟨(hp1'.err_trans hp2).congr rfl rfl, fun _ => by simp⟩
          | out =>
              simp only [hres2]
              refine ⟨trivial, fun hm => absurd hres2 (ha2 ?_)⟩
              have := measure_lt_chain hp1' (2 * sizeExprList rest + 1)
                (2 * (sizeExpr e + sizeExprList rest) + 1)
                (by have := sizeExpr_pos e; omega)
              omega
      | err e2 st1 =>
          simp only [hres]
          rw [hres] at hp1
          exact ⟨hp1, fun _ => by simp⟩
      | out =>
          simp only [hres]
          refine ⟨trivial, fun hm => absurd hres (ha1 ?_)⟩
          have := measure_lt_s P st (2 * sizeExpr e)
            (2 * (sizeExpr e + sizeExprList rest) + 1) (by omega)
          omega

theorem presStep_evalDictEntries {σ : Type} {P : Nat} {H : Host σ} {f : Nat}
    (ih : allPres P H f) (entries : List (String × Expr)) (st : EvalState σ)
    (hInv : Inv P st) (hsz : sizeDictEntries entries ≤ P) :
    presAdeq P st (2 * sizeDictEntries entries + 1) (f + 1)
      (evalDictEntries H (f + 1) entries st) := by
  obtain ⟨ihB, ihS, ihC, ihW, ihR, ihF, ihA, ihI, ihE, ihL, ihD, ihK⟩ := ih
  simp only [presAdeq]
  cases entries with
  | nil =>
      simp only [evalDictEntries]
      exact ⟨PresOk.refl P st hInv, fun _ => by simp⟩
  | cons kv rest =>
      obtain ⟨k, e⟩ := kv
      simp only [evalDictEntries, sizeDictEntries] at hsz ⊢
      obtain ⟨hp1, ha1⟩ := ihE e st hInv (by omega)
      cases hres : evalExpr H f e st with
      | ok v st1 =>
          simp only [hres]
          rw [hres] at hp1
          have hp1' : PresOk P st st1 := hp1
          obtain ⟨hp2, ha2⟩ := ihD rest st1 hp1'.1 (by omega)
          cases hres2 : evalDictEntries H f rest st1 with
          | ok pairs st2 =>
              simp only [hres2]
              rw [hres2] at hp2
              exact ⟨hp1'.trans hp2, fun _ => by simp⟩
          | err e2 st2 =>
              simp only [hres2]
              rw [hres2] at hp2
              exact ⟨(hp1'.err_trans hp2).congr rfl rfl, fun _ => by simp⟩
          | out =>
              simp only [hres2]
              refine ⟨trivial, fun hm => absurd hres2 (ha2 ?_)⟩
              have := measure_lt_chain hp1' (2 * sizeDictEntries rest + 1)
                (2 * (sizeExpr e + sizeDictEntries rest) + 1)
                (by have := sizeExpr_pos e; omega)
              omega
      | err e2 st1 =>
          simp only [hres]
          rw [hres] at hp1
          exact ⟨hp1, fun _ => by simp⟩
      | out =>
          simp only [hres]
          refine ⟨trivial, fun hm => absurd hres (ha1 ?_)⟩
          have := measure_lt_s P st (2 * sizeExpr e)
            (2 * (sizeExpr e + sizeDictEntries rest) + 1) (by omega)
          omega

theorem presStep_execBlock {σ : Type} {P : Nat} {H : Host σ} {f : Nat}
    (ih : allPres P H f) (stmts : List Stmt) (st : EvalState σ)
    (hInv : Inv P st) (hsz : sizeStmts stmts ≤ P) :
    presAdeq P st (2 * sizeStmts stmts + 1) (f + 1) (execBlock H (f + 1) stmts st) := by
  obtain ⟨ihB, ihS, ihC, ihW, ihR, ihF, ihA, ihI, ihE, ihL, ihD, ihK⟩ := ih
  simp only [presAdeq]
  cases stmts with
  | nil =>
      simp only [execBlock]
      exact ⟨PresOk.refl P st hInv, fun _ => by simp⟩
  | cons s rest =>
      simp only [execBlock, sizeStmts] at hsz ⊢
      obtain ⟨hp1, ha1⟩ := ihS s st hInv (by omega)
      cases hres : execStmt H f s st with
      | ok sig st1 =>
          rw [hres] at hp1
          have hp1' : PresOk P st st1 := hp1
          cases sig with
          | none =>
              simp only [hres]
              obtain ⟨hp2, ha2⟩ := ihB rest st1 hp1'.1 (by omega)
              refine ⟨presP_chain hp1' hp2, fun hm => ?_⟩
              refine ha2 ?_
              have := measure_lt_chain hp1' (2 * sizeStmts rest + 1)
                (2 * (sizeStmt s + sizeStmts rest) + 1)
                (by have := sizeStmt_pos s; omega)
              omega
          | brk =>
              simp only [hres]
              exact ⟨hp1', fun _ => by simp⟩
          | cont =>
              simp only [hres]
              exact ⟨hp1', fun _ => by simp⟩
          | ret v =>
              simp only [hres]
              exact ⟨hp1', fun _ => by simp⟩
      | err e st1 =>
          simp only [hres]
          rw [hres] at hp1
          exact ⟨hp1, fun _ => by simp⟩
      | out =>
          simp only [hres]
          refine ⟨trivial, fun hm => absurd hres (ha1 ?_)⟩
          have := measure_lt_s P st (2 * sizeStmt s)
            (2 * (sizeStmt s + sizeStmts rest) + 1) (by omega)
          omega

theorem presStep_execIfChain {σ : Type} {P : Nat} {H : Host σ} {f : Nat}
    (ih : allPres P H f) (elifs : List (Expr × List Stmt))
    (elseB : Option (List Stmt)) (st : EvalState σ) (hInv : Inv P st)
    (hsz : sizeElifs elifs + sizeOptBlock elseB ≤ P) :
    presAdeq P st (2 * (sizeElifs elifs + sizeOptBlock elseB) + 3) (f + 1)
      (execIfChain H (f + 1) elifs elseB st) := by
  obtain ⟨ihB, ihS, ihC, ihW, ihR, ihF, ihA, ihI, ihE, ihL, ihD, ihK⟩ := ih
  simp only [presAdeq]
  cases elifs with
  | nil =>
      cases elseB with
      | none =>
          simp only [execIfChain]
          exact ⟨PresOk.refl P st hInv, fun _ => by simp⟩
      | some eb =>
          simp only [execIfChain, sizeElifs, sizeOptBlock] at hsz ⊢
          have hpush : PresOk P st (pushScope st) :=
            (PresOk.refl P st hInv).congr (by simp) (by simp) (by simp) (by simp)
          obtain ⟨hp1, ha1⟩ := ihB eb (pushScope st) hpush.1 (by omega)
          cases hres : execBlock H f eb (pushScope st) with
          | ok sig st1 =>
              simp only [hres]
              rw [hres] at hp1
              exact ⟨(hpush.trans hp1).congr (by simp) (by simp) (by simp) (by simp),
                fun _ => by simp⟩
          | err e st1 =>
              simp only [hres]
              rw [hres] at hp1
              exact ⟨hpush.err_trans hp1, fun _ => by simp⟩
          | out =>
              simp only [hres]
              refine ⟨trivial, fun hm => absurd hres (ha1 ?_)⟩
              have := measure_lt_chain hpush (2 * sizeStmts eb + 1)
                (2 * (0 + sizeStmts eb) + 3) (by omega)
              omega
  | cons cb rest =>
      obtain ⟨c, b⟩ := cb
      simp only [execIfChain, sizeElifs] at hsz ⊢
      obtain ⟨hp1, ha1⟩ := ihE c st hInv (by omega)
      cases hres : evalExpr H f c st with
      | ok cv st1 =>
          simp only [hres]
          rw [hres] at hp1
          have hp1' : PresOk P st st1 := hp1
          have hp2 : PresOk P st (stDealloc st1 (bytesVal cv)) :=
            hp1'.congr (by simp) (by simp) (by simp) (by simp)
          cases hc : isTruthy cv with
          | true =>
              rw [if_pos rfl]
              have hpp : PresOk P st (pushScope (stDealloc st1 (bytesVal cv))) :=
                hp2.congr (by simp) (by simp) (by simp) (by simp)
              obtain ⟨hp3, ha3⟩ := ihB b (pushScope (stDealloc st1 (bytesVal cv)))
                hpp.1 (by omega)
              cases hres2 : execBlock H f b (pushScope (stDealloc st1 (bytesVal cv))) with
              | ok sig st3 =>
                  simp only [hres2]
                  rw [hres2] at hp3
                  exact ⟨(hpp.trans hp3).congr (by simp) (by simp) (by simp) (by simp),
                    fun _ => by simp⟩
              | err e st3 =>
                  simp only [hres2]
                  rw [hres2] at hp3
                  exact ⟨hpp.err_trans hp3, fun _ => by simp⟩
              | out =>
                  simp only [hres2]
                  refine ⟨trivial, fun hm => absurd hres2 (ha3 ?_)⟩
                  have := measure_lt_chain hpp (2 * sizeStmts b + 1)
                    (2 * (sizeExpr c + sizeStmts b + sizeElifs rest + sizeOptBlock elseB) + 3)
                    (by have := sizeExpr_pos c; omega)
                  omega
          | false =>
              rw [if_neg (by simp)]
              obtain ⟨hp3, ha3⟩ := ihC rest elseB (stDealloc st1 (bytesVal cv))
                hp2.1 (by omega)
              refine ⟨presP_chain hp2 hp3, fun hm => ha3 ?_⟩
              have := measure_lt_chain hp2 (2 * (sizeElifs rest + sizeOptBlock elseB) + 3)
                (2 * (sizeExpr c + sizeStmts b + sizeElifs rest + sizeOptBlock elseB) + 3)
                (by have := sizeExpr_pos c; omega)
              omega
      | err e st1 =>
          simp only [hres]
          rw [hres] at hp1
          exact ⟨hp1, fun _ => by simp⟩
      | out =>
          simp only [hres]
          refine ⟨trivial, fun hm => absurd hres (ha1 ?_)⟩
          have := measure_lt_s P st (2 * sizeExpr c)
            (2 * (sizeExpr c + sizeStmts b + sizeElifs rest + sizeOptBlock elseB) + 3)
            (by omega)
          omega

theorem presStep_whileLoop {σ : Type} {P : Nat} {H : Host σ} {f : Nat}
    (ih : allPres P H f) (line : Nat) (cond : Expr) (body : List Stmt)
    (st : EvalState σ) (hInv : Inv P st)
    (hsz : sizeExpr cond + sizeStmts body ≤ P) :
    presAdeq P st 0 (f + 1) (whileLoop H (f + 1) line cond body st) := by
  obtain ⟨ihB, ihS, ihC, ihW, ihR, ihF, ihA, ihI, ihE, ihL, ihD, ihK⟩ := ih
  simp only [presAdeq, whileLoop]
  cases ht : tick H line st with
  | err e st1 =>
      simp only [ht]
      exact ⟨tick_presErr hInv ht, fun _ => by simp⟩
  | out => exact absurd ht (tick_ne_out H line st)
  | ok a st1 =>
      simp only [ht]
      have hpt : PresOk P st st1 := tick_presOk hInv ht
      obtain ⟨hp1, ha1⟩ := ihE cond st1 hpt.1 (by omega)
      cases hres : evalExpr H f cond st1 with
      | ok cv st2 =>
          simp only [hres]
          rw [hres] at hp1
          have hp1' : PresOk P st1 st2 := hp1
          cases hc : isTruthy cv with
          | false =>
              rw [if_neg (by simp)]
              exact ⟨(hpt.trans hp1').congr (by simp) (by simp) (by simp) (by simp),
                fun _ => by simp⟩
          | true =>
              rw [if_pos rfl]
              have hch : PresOk P st1 (pushScope (stDealloc st2 (bytesVal cv))) :=
                hp1'.congr (by simp) (by simp) (by simp) (by simp)
              obtain ⟨hp2, ha2⟩ := ihB body (pushScope (stDealloc st2 (bytesVal cv)))
                hch.1 (by omega)
              cases hres2 : execBlock H f body (pushScope (stDealloc st2 (bytesVal cv))) with
              | ok sig st4 =>
                  simp only [hres2]
                  rw [hres2] at hp2
                  have hp4 : PresOk P st1 (popScope st4) :=
                    (hch.trans hp2).congr (by simp) (by simp) (by simp) (by simp)
                  cases sig with
                  | brk => exact ⟨hpt.trans hp4, fun _ => by simp⟩
                  | ret v => exact ⟨hpt.trans hp4, fun _ => by simp⟩
                  | none =>
                      obtain ⟨hp5, ha5⟩ := ihW line cond body (popScope st4) hp4.1 hsz
                      refine ⟨presP_chain (hpt.trans hp4) hp5, fun hm => ha5 ?_⟩
                      have := measure_lt_after_tick hInv ht hp4 0 0 (by omega)
                      omega
                  | cont =>
                      obtain ⟨hp5, ha5⟩ := ihW line cond body (popScope st4) hp4.1 hsz
                      refine ⟨presP_chain (hpt.trans hp4) hp5, fun hm => ha5 ?_⟩
                      have := measure_lt_after_tick hInv ht hp4 0 0 (by omega)
                      omega
              | err e st4 =>
                  simp only [hres2]
                  rw [hres2] at hp2
                  exact ⟨hpt.err_trans (hch.err_trans hp2), fun _ => by simp⟩
              | out =>
                  simp only [hres2]
                  refine ⟨trivial, fun hm => absurd hres2 (ha2 ?_)⟩
                  have := measure_lt_after_tick hInv ht hch (2 * sizeStmts body + 1) 0
                    (by omega)
                  omega
      | err e st2 =>
          simp only [hres]
          rw [hres] at hp1
          exact ⟨hpt.err_trans hp1, fun _ => by simp⟩
      | out =>
          simp only [hres]
          refine ⟨trivial, fun hm => absurd hres (ha1 ?_)⟩
          have := measure_lt_after_tick hInv ht (PresOk.refl P st1 hpt.1)
            (2 * sizeExpr cond) 0 (by omega)
          omega

theorem presStep_repeatLoop {σ : Type} {P : Nat} {H : Host σ} {f : Nat}
    (ih : allPres P H f) (line count : Nat) (body : List Stmt)
    (st : EvalState σ) (hInv : Inv P st) (hsz : sizeStmts body ≤ P) :
    presAdeq P st 0 (f + 1) (repeatLoop H (f + 1) line count body st) := by
  obtain ⟨ihB, ihS, ihC, ihW, ihR, ihF, ihA, ihI, ihE, ihL, ihD, ihK⟩ := ih
  simp only [presAdeq]
  cases count with
  | zero =>
      simp only [repeatLoop]
      exact ⟨PresOk.refl P st hInv, fun _ => by simp⟩
  | succ k =>
      simp only [repeatLoop]
      cases ht : tick H line st with
      | err e st1 =>
          simp only [ht]
          exact ⟨tick_presErr hInv ht, fun _ => by simp⟩
      | out => exact absurd ht (tick_ne_out H line st)
      | ok a st1 =>
          simp only [ht]
          have hpt : PresOk P st st1 := tick_presOk hInv ht
          have hch : PresOk P st1 (pushScope st1) :=
            (PresOk.refl P st1 hpt.1).congr (by simp) (by simp) (by simp) (by simp)
          obtain ⟨hp2, ha2⟩ := ihB body (pushScope st1) hch.1 hsz
          cases hres2 : execBlock H f body (pushScope st1) with
          | ok sig st2 =>
              simp only [hres2]
              rw [hres2] at hp2
              have hp3 : PresOk P st1 (popScope st2) :=
                (hch.trans hp2).congr (by simp) (by simp) (by simp) (by simp)
              cases sig with
              | brk => exact ⟨hpt.trans hp3, fun _ => by simp⟩
              | ret v => exact ⟨hpt.trans hp3, fun _ => by simp⟩
              | none =>
                  obtain ⟨hp5, ha5⟩ := ihR line k body (popScope st2) hp3.1 hsz
                  refine ⟨presP_chain (hpt.trans hp3) hp5, fun hm => ha5 ?_⟩
                  have := measure_lt_after_tick hInv ht hp3 0 0 (by omega)
                  omega
              | cont =>
                  obtain ⟨hp5, ha5⟩ := ihR line k body (popScope st2) hp3.1 hsz
                  refine ⟨presP_chain (hpt.trans hp3) hp5, fun hm => ha5 ?_⟩
                  have := measure_lt_after_tick hInv ht hp3 0 0 (by omega)
                  omega
          | err e st2 =>
              simp only [hres2]
              rw [hres2] at hp2
              exact ⟨hpt.err_trans (hch.err_trans hp2), fun _ => by simp⟩
          | out =>
              simp only [hres2]
              refine ⟨trivial, fun hm => absurd hres2 (ha2 ?_)⟩
              have := measure_lt_after_tick hInv ht hch (2 * sizeStmts body + 1) 0
                (by omega)
              omega

theorem presStep_forLoop {σ : Type} {P : Nat} {H : Host σ} {f : Nat}
    (ih : allPres P H f) (line : Nat) (v : String) (items : List Value)
    (body : List Stmt) (st : EvalState σ) (hInv : Inv P st)
    (hsz : sizeStmts body ≤ P) :
    presAdeq P st 0 (f + 1) (forLoop H (f + 1) line v items body st) := by
  obtain ⟨ihB, ihS, ihC, ihW, ihR, ihF, ihA, ihI, ihE, ihL, ihD, ihK⟩ := ih
  simp only [presAdeq]
  cases items with
  | nil =>
      simp only [forLoop]
      exact ⟨PresOk.refl P st hInv, fun _ => by simp⟩
  | cons item rest =>
      simp only [forLoop]
      cases ht : tick H line st with
      | err e st1 =>
          simp only [ht]
          exact ⟨(tick_presErr hInv ht).congr (by simp) (by simp), fun _ => by simp⟩
      | out => exact absurd ht (tick_ne_out H line st)
      | ok a st1 =>
          simp only [ht]
          have hpt : PresOk P st st1 := tick_presOk hInv ht
          have hch : PresOk P st1 (defineVar (pushScope st1) v item) :=
            (PresOk.refl P st1 hpt.1).congr (by simp) (by simp) (by simp) (by simp)
          obtain ⟨hp2, ha2⟩ := ihB body (defineVar (pushScope st1) v item) hch.1 hsz
          cases hres2 : execBlock H f body (defineVar (pushScope st1) v item) with
          | ok sig st2 =>
              simp only [hres2]
              rw [hres2] at hp2
              have hp3 : PresOk P st1 (popScope st2) :=
                (hch.trans hp2).congr (by simp) (by simp) (by simp) (by simp)
              cases sig with
              | brk =>
                  exact ⟨(hpt.trans hp3).congr (by simp) (by simp) (by simp) (by simp),
                    fun _ => by simp⟩
              | ret v2 =>
                  exact ⟨(hpt.trans hp3).congr (by simp) (by simp) (by simp) (by simp),
                    fun _ => by simp⟩
              | none =>
                  obtain ⟨hp5, ha5⟩ := ihF line v rest body (popScope st2) hp3.1 hsz
                  refine ⟨presP_chain (hpt.trans hp3) hp5, fun hm => ha5 ?_⟩
                  have := measure_lt_after_tick hInv ht hp3 0 0 (by omega)
                  omega
              | cont =>
                  obtain ⟨hp5, ha5⟩ := ihF line v rest body (popScope st2) hp3.1 hsz
                  refine ⟨presP_chain (hpt.trans hp3) hp5, fun hm => ha5 ?_⟩
                  have := measure_lt_after_tick hInv ht hp3 0 0 (by omega)
                  omega
          | err e st2 =>
              simp only [hres2]
              rw [hres2] at hp2
              exact ⟨(hpt.err_trans (hch.err_trans hp2)).congr (by simp) (by simp),
                fun _ => by simp⟩
          | out =>
              simp only [hres2]
              refine ⟨trivial, fun hm => absurd hres2 (ha2 ?_)⟩
              have := measure_lt_after_tick hInv ht hch (2 * sizeStmts body + 1) 0
                (by omega)
              omega

/-- Chain an inductive-hypothesis component through a `PresOk` prefix:
the callee starts at the chained state, the caller's work item strictly
shrinks. -/
theorem chain_call {σ α : Type} {P : Nat} {f : Nat} {st stx : EvalState σ}
    {F : EvalState σ → RunRes σ α} (sx s : Nat)
    (hF : ∀ s2 : EvalState σ, Inv P s2 → presAdeq P s2 sx f (F s2))
    (hp : PresOk P st stx) (hs : sx < s) :
    presAdeq P st s (f + 1) (F stx) := by
  obtain ⟨h1, h2⟩ := hF stx hp.1
  refine ⟨presP_chain hp h1, fun hm => h2 ?_⟩
  have := measure_lt_chain hp sx s hs
  omega

/-- Chain an inductive-hypothesis component when a successful tick lies
between the caller's entry state and the callee's state: the spent step
pays for an arbitrary work item below the coefficient. -/
theorem chain_call_tick {σ α : Type} {P : Nat} {H : Host σ} {line0 : Nat} {f : Nat}
    {st st0 stx : EvalState σ} {a : Unit} {F : EvalState σ → RunRes σ α} (sx s : Nat)
    (hInv : Inv P st) (ht : tick H line0 st = .ok a st0)
    (hF : ∀ s2 : EvalState σ, Inv P s2 → presAdeq P s2 sx f (F s2))
    (hp : PresOk P st0 stx) (hs : sx < 2 * P + 5) :
    presAdeq P st s (f + 1) (F stx) := by
  obtain ⟨h1, h2⟩ := hF stx hp.1
  have hpt : PresOk P st st0 := tick_presOk hInv ht
  refine ⟨presP_chain (hpt.trans hp) h1, fun hm => h2 ?_⟩
  have := measure_lt_after_tick hInv ht hp sx s hs
  omega

/-- A handed-back builtin result satisfies the preservation/adequacy
property from any base state with the same counters. -/
theorem finishBuiltin_presAdeq {σ : Type} {P : Nat} (st stB : EvalState σ)
    (args : List Value) (r : MResult Value) (hInv : Inv P st)
    (hs : stB.steps = st.steps) (hd : stB.callDepth = st.callDepth)
    (hf : stB.functions = st.functions) (hl : stB.limits = st.limits)
    (s fuel : Nat) : presAdeq P st s fuel (finishBuiltin stB args r) := by
  obtain ⟨hok, herr, hno⟩ := finishBuiltin_fields stB args r
  cases hres : finishBuiltin stB args r with
  | ok v st2 =>
      obtain ⟨h1, h2, h3, h4⟩ := hok v st2 hres
      exact ⟨(PresOk.refl P st hInv).congr (by rw [h1, hs]) (by rw [h2, hd])
        (by rw [h3, hf]) (by rw [h4, hl]), fun _ => by simp⟩
  | err e st2 =>
      obtain ⟨h1, h2, h3, h4⟩ := herr e st2 hres
      exact ⟨(PresErr.of_inv hInv).congr (by rw [h1, hs]) (by rw [h4, hl]),
        fun _ => by simp⟩
  | out => exact absurd hres hno

theorem presStep_execAssign {σ : Type} {P : Nat} {H : Host σ} {f : Nat}
    (ih : allPres P H f) (target : AssignTarget) (op : AssignOp) (nv : Value)
    (line : Nat) (st : EvalState σ) (hInv : Inv P st)
    (hsz : sizeTarget target ≤ P) :
    presAdeq P st (2 * sizeTarget target) (f + 1)
      (execAssign H (f + 1) target op nv line st) := by
  obtain ⟨ihB, ihS, ihC, ihW, ihR, ihF, ihA, ihI, ihE, ihL, ihD, ihK⟩ := ih
  cases target with
  | «variable» name =>
      cases op
      case eq =>
        simp only [execAssign]
        split
        · exact ⟨(PresOk.refl P st hInv).congr (by simp) (by simp) (by simp) (by simp),
            fun _ => by simp⟩
        · exact ⟨(PresErr.of_inv hInv).congr (by simp) (by simp), fun _ => by simp⟩
      all_goals
        simp only [execAssign]
        cases hg : getVar st name with
        | none =>
            simp only [hg]
            exact ⟨(PresErr.of_inv hInv).congr (by simp) (by simp), fun _ => by simp⟩
        | some current =>
            simp only [hg]
            split
            · exact ⟨(PresErr.of_inv hInv).congr (by simp) (by simp), fun _ => by simp⟩
            · split
              · exact ⟨(PresOk.refl P st hInv).congr (by simp) (by simp) (by simp)
                  (by simp), fun _ => by simp⟩
              · exact ⟨(PresErr.of_inv hInv).congr (by simp) (by simp), fun _ => by simp⟩
  | index object index =>
      simp only [execAssign, sizeTarget] at hsz ⊢
      obtain ⟨hp1, ha1⟩ := ihE index st hInv (by omega)
      cases hres : evalExpr H f index st with
      | err e st1 =>
          simp only [hres]
          rw [hres] at hp1
          have hpe : PresErr st st1 := hp1
          exact ⟨hpe.congr (by simp) (by simp), fun _ => by simp⟩
      | out =>
          simp only [hres]
          refine ⟨trivial, fun hm => absurd hres (ha1 ?_)⟩
          have := measure_lt_s P st (2 * sizeExpr index)
            (2 * (1 + sizeExpr object + sizeExpr index)) (by omega)
          omega
      | ok idx st1 =>
          simp only [hres]
          rw [hres] at hp1
          have hp1' : PresOk P st st1 := hp1
          cases op
          case eq =>
            exact chain_call 0 (2 * (1 + sizeExpr object + sizeExpr index))
              (fun s2 h2 => ihI object idx nv 0 line s2 h2) hp1' (by omega)
          all_goals
            obtain ⟨hp2, ha2⟩ := ihE object st1 hp1'.1 (by omega)
            cases hres2 : evalExpr H f object st1 with
            | err e st2 =>
                simp only [hres2]
                rw [hres2] at hp2
                have hpe : PresErr st1 st2 := hp2
                exact ⟨(hp1'.err_trans hpe).congr (by simp) (by simp), fun _ => by simp⟩
            | out =>
                simp only [hres2]
                refine ⟨trivial, fun hm => absurd hres2 (ha2 ?_)⟩
                have := measure_lt_chain hp1' (2 * sizeExpr object)
                  (2 * (1 + sizeExpr object + sizeExpr index)) (by omega)
                omega
            | ok obj st2 =>
                simp only [hres2]
                rw [hres2] at hp2
                have hp2' : PresOk P st st2 := hp1'.trans hp2
                split
                · exact ⟨(hp2'.toErr).congr (by simp) (by simp), fun _ => by simp⟩
                · split
                  · exact ⟨(hp2'.toErr).congr (by simp) (by simp), fun _ => by simp⟩
                  · exact chain_call 0 (2 * (1 + sizeExpr object + sizeExpr index))
                      (fun s2 h2 => ihI object idx _ (bytesVal nv) line s2 h2)
                      (hp2'.congr (by simp) (by simp) (by simp) (by simp)) (by omega)

/-- Leaving a user-function frame restores the caller's depth: the
preservation conclusion transfers to the restored state. -/
theorem presOk_popFrame {σ : Type} {P : Nat} {st st3 stR stF : EvalState σ}
    (hpCh : PresOk P st3 stR)
    (h3s : st3.steps = st.steps) (h3d : st3.callDepth = st.callDepth + 1)
    (h3f : st3.functions = st.functions) (h3l : st3.limits = st.limits)
    (hFs : stF.steps = stR.steps) (hFd : stF.callDepth = stR.callDepth - 1)
    (hFf : stF.functions = stR.functions) (hFl : stF.limits = stR.limits) :
    PresOk P st stF := by
  obtain ⟨⟨j1, j2, j3, j4⟩, m2, m3, m4⟩ := hpCh
  have hl : stF.limits.maxSteps = stR.limits.maxSteps := by rw [hFl]
  have hl2 : stR.limits.maxSteps = st3.limits.maxSteps := by rw [m4]
  have hl3 : st3.limits.maxSteps = st.limits.maxSteps := by rw [h3l]
  refine ⟨⟨by omega, by omega, by omega, by rw [hFf]; exact j4⟩, by omega, by omega,
    by rw [hFl, m4, h3l]⟩

theorem presErr_popFrame {σ : Type} {st st3 stR stF : EvalState σ}
    (hpe : PresErr st3 stR) (h3l : st3.limits = st.limits)
    (hFs : stF.steps = stR.steps) (hFl : stF.limits = stR.limits) :
    PresErr st stF := by
  obtain ⟨e1, e2⟩ := hpe
  have h1 : st3.limits.maxSteps = st.limits.maxSteps := by rw [h3l]
  exact ⟨by omega, by rw [hFl, e2, h3l]⟩

theorem presStep_callFunction {σ : Type} {P : Nat} {H : Host σ} {f : Nat}
    (ih : allPres P H f) (name : String) (args : List Value) (line : Nat)
    (st : EvalState σ) (hInv : Inv P st) :
    presAdeq P st 1 (f + 1) (callFunction H (f + 1) name args line st) := by
  obtain ⟨ihB, ihS, ihC, ihW, ihR, ihF, ihA, ihI, ihE, ihL, ihD, ihK⟩ := ih
  simp only [callFunction.eq_def]
  split
  all_goals try exact finishBuiltin_presAdeq st st args _ hInv rfl rfl rfl rfl 1 (f + 1)
  all_goals try
    exact finishBuiltin_presAdeq st _ args _ hInv (by rfl) (by rfl)
      (by rfl) (by rfl) 1 (f + 1)
  all_goals try
    exact ⟨(PresOk.refl P st hInv).congr (by simp) (by simp) (by simp)
      (by simp), fun _ => by simp⟩
  cases hcall : H.call st.host name args line with
  | mk h2 resOpt =>
      cases resOpt with
      | some result =>
          cases result with
          | ok v =>
              exact ⟨(PresOk.refl P st hInv).congr (by simp) (by simp) (by simp)
                (by simp), fun _ => by simp⟩
          | error e =>
              exact ⟨(PresErr.of_inv hInv).congr (by simp) (by simp), fun _ => by simp⟩
      | none =>
          cases hfl : fnLookup st.functions name with
          | none =>
              simp only [hfl]
              exact ⟨(PresErr.of_inv hInv).congr (by simp) (by simp), fun _ => by simp⟩
          | some fd =>
              simp only [hfl]
              split
              · exact ⟨(PresErr.of_inv hInv).congr (by simp) (by simp), fun _ => by simp⟩
              · split
                · exact ⟨(PresErr.of_inv hInv).congr (by simp) (by simp),
                    fun _ => by simp⟩
                · rename_i hlen hdep
                  have hdep2 : ¬ 64 ≤ st.callDepth := by simpa using hdep
                  obtain ⟨i1, i2, i3, i4⟩ := hInv
                  obtain ⟨kn, hmem⟩ := fnLookup_mem st.functions name fd hfl
                  have hbod : sizeStmts fd.body ≤ P := i4 (kn, fd) hmem
                  have hInv3 : Inv P (bindParams fd.params args
                      { scopes := [[]], functions := st.functions, steps := st.steps,
                        callDepth := st.callDepth + 1, limits := st.limits,
                        randState := st.randState, mem := st.mem, host := h2 }) :=
                    ⟨by simpa using i1, by simpa using i2,
                      by simp
                         omega,
                      by simpa using i4⟩
                  obtain ⟨hp2, ha2⟩ := ihB fd.body (bindParams fd.params args
                      { scopes := [[]], functions := st.functions, steps := st.steps,
                        callDepth := st.callDepth + 1, limits := st.limits,
                        randState := st.randState, mem := st.mem, host := h2 })
                    hInv3 hbod
                  cases hres2 : execBlock H f fd.body (bindParams fd.params args
                      { scopes := [[]], functions := st.functions, steps := st.steps,
                        callDepth := st.callDepth + 1, limits := st.limits,
                        randState := st.randState, mem := st.mem, host := h2 }) with
                  | ok sig stR =>
                      simp only [hres2]
                      rw [hres2] at hp2
                      have hpCh : PresOk P _ stR := hp2
                      have hInvR : Inv P st := ⟨i1, i2, i3, i4⟩
                      cases sig with
                      | ret v =>
                          exact ⟨presOk_popFrame hpCh (by simp) (by simp) (by simp)
                            (by simp) (by rfl) (by rfl) (by rfl) (by rfl), fun _ => by simp⟩
                      | none =>
                          exact ⟨presOk_popFrame hpCh (by simp) (by simp) (by simp)
                            (by simp) (by rfl) (by rfl) (by rfl) (by rfl), fun _ => by simp⟩
                      | brk =>
                          exact ⟨(presOk_popFrame hpCh (by simp) (by simp) (by simp)
                            (by simp) (by rfl) (by rfl) (by rfl) (by rfl)).toErr, fun _ => by simp⟩
                      | cont =>
                          exact ⟨(presOk_popFrame hpCh (by simp) (by simp) (by simp)
                            (by simp) (by rfl) (by rfl) (by rfl) (by rfl)).toErr, fun _ => by simp⟩
                  | err e stR =>
                      simp only [hres2]
                      rw [hres2] at hp2
                      have hpe : PresErr _ stR := hp2
                      exact ⟨presErr_popFrame hpe (by simp) (by rfl) (by rfl), fun _ => by simp⟩
                  | out =>
                      simp only [hres2]
                      refine ⟨trivial, fun hm => absurd hres2 (ha2 ?_)⟩
                      have := measure_lt_call P st (bindParams fd.params args
                          { scopes := [[]], functions := st.functions,
                            steps := st.steps, callDepth := st.callDepth + 1,
                            limits := st.limits, randState := st.randState,
                            mem := st.mem, host := h2 })
                        (by simp) (by simp) (by simp) (by omega)
                        (2 * sizeStmts fd.body + 1) 1 (by omega)
                      omega

set_option maxHeartbeats 1600000 in
theorem presStep_evalExpr {σ : Type} {P : Nat} {H : Host σ} {f : Nat}
    (ih : allPres P H f) (e : Expr) (st : EvalState σ) (hInv : Inv P st)
    (hsz : sizeExpr e ≤ P) :
    presAdeq P st (2 * sizeExpr e) (f + 1) (evalExpr H (f + 1) e st) := by
  obtain ⟨ihB, ihS, ihC, ihW, ihR, ihF, ihA, ihI, ihE, ihL, ihD, ihK⟩ := ih
  obtain ⟨kind, line⟩ := e
  cases kind with
  | number n =>
      simp only [evalExpr]
      exact ⟨PresOk.refl P st hInv, fun _ => by simp⟩
  | str s =>
      simp only [evalExpr]
      exact ⟨(PresOk.refl P st hInv).congr (by simp) (by simp) (by simp) (by simp),
        fun _ => by simp⟩
  | bool b =>
      simp only [evalExpr]
      exact ⟨PresOk.refl P st hInv, fun _ => by simp⟩
  | none =>
      simp only [evalExpr]
      exact ⟨PresOk.refl P st hInv, fun _ => by simp⟩
  | stringInterp parts =>
      simp only [evalExpr]
      obtain ⟨hok, herr, hno⟩ := interpParts_fields parts line "" st
      cases hres : interpParts parts line "" st with
      | ok r2 st1 =>
          simp only [hres]
          obtain ⟨q1, q2, q3, q4⟩ := hok r2 st1 hres
          exact ⟨(PresOk.refl P st hInv).congr (by simp [q1]) (by simp [q2])
            (by simp [q3]) (by simp [q4]), fun _ => by simp⟩
      | err e2 st1 =>
          simp only [hres]
          obtain ⟨q1, q2, q3, q4⟩ := herr e2 st1 hres
          exact ⟨(PresErr.of_inv hInv).congr (by simp [q1]) (by simp [q4]),
            fun _ => by simp⟩
      | out => exact absurd hres hno
  | ident name =>
      simp only [evalExpr]
      cases hv : getVar st name with
      | some v =>
          simp only [hv]
          exact ⟨(PresOk.refl P st hInv).congr (by simp) (by simp) (by simp) (by simp),
            fun _ => by simp⟩
      | none =>
          simp only [hv]
          exact ⟨PresErr.of_inv hInv, fun _ => by simp⟩
  | binaryOp l op r =>
      cases op
      case band =>
        simp only [evalExpr, sizeExpr] at hsz ⊢
        obtain ⟨hp1, ha1⟩ := ihE l st hInv (by omega)
        cases hres : evalExpr H f l st with
        | ok lv st1 =>
            simp only [hres]
            rw [hres] at hp1
            have hp1' : PresOk P st st1 := hp1
            cases hlv : isTruthy lv with
            | false =>
                rw [if_pos (by simp)]
                exact ⟨hp1'.congr (by simp) (by simp) (by simp) (by simp),
                  fun _ => by simp⟩
            | true =>
                rw [if_neg (by simp)]
                obtain ⟨hp2, ha2⟩ := ihE r st1 hp1'.1 (by omega)
                cases hres2 : evalExpr H f r st1 with
                | ok rv st2 =>
                    simp only [hres2]
                    rw [hres2] at hp2
                    have hp2' : PresOk P st st2 := hp1'.trans hp2
                    exact ⟨hp2'.congr (by simp) (by simp) (by simp) (by simp),
                      fun _ => by simp⟩
                | err e2 st2 =>
                    simp only [hres2]
                    rw [hres2] at hp2
                    have hpe : PresErr st1 st2 := hp2
                    exact ⟨(hp1'.err_trans hpe).congr (by simp) (by simp),
                      fun _ => by simp⟩
                | out =>
                    simp only [hres2]
                    refine ⟨trivial, fun hm => absurd hres2 (ha2 ?_)⟩
                    have := measure_lt_chain hp1' (2 * sizeExpr r)
                      (2 * (1 + sizeExpr l + sizeExpr r)) (by omega)
                    omega
        | err e2 st1 =>
            simp only [hres]
            rw [hres] at hp1
            exact ⟨hp1, fun _ => by simp⟩
        | out =>
            simp only [hres]
            refine ⟨trivial, fun hm => absurd hres (ha1 ?_)⟩
            have := measure_lt_s P st (2 * sizeExpr l)
              (2 * (1 + sizeExpr l + sizeExpr r)) (by omega)
            omega
      case bor =>
        simp only [evalExpr, sizeExpr] at hsz ⊢
        obtain ⟨hp1, ha1⟩ := ihE l st hInv (by omega)
        cases hres : evalExpr H f l st with
        | ok lv st1 =>
            simp only [hres]
            rw [hres] at hp1
            have hp1' : PresOk P st st1 := hp1
            cases hlv : isTruthy lv with
            | true =>
                rw [if_pos rfl]
                exact ⟨hp1'.congr (by simp) (by simp) (by simp) (by simp),
                  fun _ => by simp⟩
            | false =>
                rw [if_neg (by simp)]
                obtain ⟨hp2, ha2⟩ := ihE r st1 hp1'.1 (by omega)
                cases hres2 : evalExpr H f r st1 with
                | ok rv st2 =>
                    simp only [hres2]
                    rw [hres2] at hp2
                    have hp2' : PresOk P st st2 := hp1'.trans hp2
                    exact ⟨hp2'.congr (by simp) (by simp) (by simp) (by simp),
                      fun _ => by simp⟩
                | err e2 st2 =>
                    simp only [hres2]
                    rw [hres2] at hp2
                    have hpe : PresErr st1 st2 := hp2
                    exact ⟨(hp1'.err_trans hpe).congr (by simp) (by simp),
                      fun _ => by simp⟩
                | out =>
                    simp only [hres2]
                    refine ⟨trivial, fun hm => absurd hres2 (ha2 ?_)⟩
                    have := measure_lt_chain hp1' (2 * sizeExpr r)
                      (2 * (1 + sizeExpr l + sizeExpr r)) (by omega)
                    omega
        | err e2 st1 =>
            simp only [hres]
            rw [hres] at hp1
            exact ⟨hp1, fun _ => by simp⟩
        | out =>
            simp only [hres]
            refine ⟨trivial, fun hm => absurd hres (ha1 ?_)⟩
            have := measure_lt_s P st (2 * sizeExpr l)
              (2 * (1 + sizeExpr l + sizeExpr r)) (by omega)
            omega
      all_goals
        simp only [evalExpr, sizeExpr] at hsz ⊢
        obtain ⟨hp1, ha1⟩ := ihE l st hInv (by omega)
        cases hres : evalExpr H f l st with
        | ok lv st1 =>
            simp only [hres]
            rw [hres] at hp1
            have hp1' : PresOk P st st1 := hp1
            obtain ⟨hp2, ha2⟩ := ihE r st1 hp1'.1 (by omega)
            cases hres2 : evalExpr H f r st1 with
            | ok rv st2 =>
                simp only [hres2]
                rw [hres2] at hp2
                have hp2' : PresOk P st st2 := hp1'.trans hp2
                split
                · exact ⟨hp2'.congr (by simp) (by simp) (by simp) (by simp),
                    fun _ => by simp⟩
                · exact ⟨hp2'.toErr.congr (by simp) (by simp), fun _ => by simp⟩
            | err e2 st2 =>
                simp only [hres2]
                rw [hres2] at hp2
                have hpe : PresErr st1 st2 := hp2
                exact ⟨(hp1'.err_trans hpe).congr (by simp) (by simp),
                  fun _ => by simp⟩
            | out =>
                simp only [hres2]
                refine ⟨trivial, fun hm => absurd hres2 (ha2 ?_)⟩
                have := measure_lt_chain hp1' (2 * sizeExpr r)
                  (2 * (1 + sizeExpr l + sizeExpr r)) (by omega)
                omega
        | err e2 st1 =>
            simp only [hres]
            rw [hres] at hp1
            exact ⟨hp1, fun _ => by simp⟩
        | out =>
            simp only [hres]
            refine ⟨trivial, fun hm => absurd hres (ha1 ?_)⟩
            have := measure_lt_s P st (2 * sizeExpr l)
              (2 * (1 + sizeExpr l + sizeExpr r)) (by omega)
            omega
  | unaryOp op inner =>
      simp only [evalExpr, sizeExpr] at hsz ⊢
      obtain ⟨hp1, ha1⟩ := ihE inner st hInv (by omega)
      cases hres : evalExpr H f inner st with
      | ok v st1 =>
          simp only [hres]
          rw [hres] at hp1
          have hp1' : PresOk P st st1 := hp1
          cases op with
          | not =>
              exact ⟨hp1'.congr (by simp) (by simp) (by simp) (by simp),
                fun _ => by simp⟩
          | neg =>
              cases v
              case number n => exact ⟨hp1', fun _ => by simp⟩
              all_goals
                exact ⟨hp1'.toErr.congr (by simp) (by simp), fun _ => by simp⟩
      | err e2 st1 =>
          simp only [hres]
          rw [hres] at hp1
          exact ⟨hp1, fun _ => by simp⟩
      | out =>
          simp only [hres]
          refine ⟨trivial, fun hm => absurd hres (ha1 ?_)⟩
          have := measure_lt_s P st (2 * sizeExpr inner) (2 * (1 + sizeExpr inner))
            (by omega)
          omega
  | call callee args2 =>
      simp only [evalExpr, sizeExpr] at hsz ⊢
      cases hk : callee.kind
      case ident name =>
        simp only [hk]
        obtain ⟨hp1, ha1⟩ := ihL args2 st hInv (by omega)
        cases hres : evalExprList H f args2 st with
        | ok vs st1 =>
            simp only [hres]
            rw [hres] at hp1
            have hp1' : PresOk P st st1 := hp1
            exact chain_call 1 (2 * (1 + sizeExpr callee + sizeExprList args2))
              (fun s2 h2 => ihK name vs line s2 h2) hp1'
              (by have := sizeExpr_pos callee; omega)
        | err e2 st1 =>
            simp only [hres]
            rw [hres] at hp1
            exact ⟨hp1, fun _ => by simp⟩
        | out =>
            simp only [hres]
            refine ⟨trivial, fun hm => absurd hres (ha1 ?_)⟩
            have := measure_lt_s P st (2 * sizeExprList args2 + 1)
              (2 * (1 + sizeExpr callee + sizeExprList args2))
              (by have := sizeExpr_pos callee; omega)
            omega
      all_goals
        simp only [hk]
        exact ⟨PresErr.of_inv hInv, fun _ => by simp⟩
  | methodCall object method args2 =>
      simp only [evalExpr, sizeExpr] at hsz ⊢
      obtain ⟨hp1, ha1⟩ := ihL args2 st hInv (by omega)
      cases hres : evalExprList H f args2 st with
      | ok vs st1 =>
          simp only [hres]
          rw [hres] at hp1
          have hp1' : PresOk P st st1 := hp1
          obtain ⟨hp2, ha2⟩ := ihE object st1 hp1'.1 (by omega)
          cases hres2 : evalExpr H f object st1 with
          | ok objv st2 =>
              simp only [hres2]
              rw [hres2] at hp2
              have hp2' : PresOk P st st2 := hp1'.trans hp2
              split
              · exact ⟨hp2'.toErr.congr (by simp) (by simp), fun _ => by simp⟩
              · split
                all_goals try split
                all_goals
                  exact ⟨hp2'.congr (by simp) (by simp) (by simp) (by simp),
                    fun _ => by simp⟩
          | err e2 st2 =>
              simp only [hres2]
              rw [hres2] at hp2
              have hpe : PresErr st1 st2 := hp2
              exact ⟨(hp1'.err_trans hpe).congr (by simp) (by simp), fun _ => by simp⟩
          | out =>
              simp only [hres2]
              refine ⟨trivial, fun hm => absurd hres2 (ha2 ?_)⟩
              have := measure_lt_chain hp1' (2 * sizeExpr object)
                (2 * (1 + sizeExpr object + sizeExprList args2)) (by omega)
              omega
      | err e2 st1 =>
          simp only [hres]
          rw [hres] at hp1
          exact ⟨hp1, fun _ => by simp⟩
      | out =>
          simp only [hres]
          refine ⟨trivial, fun hm => absurd hres (ha1 ?_)⟩
          have := measure_lt_s P st (2 * sizeExprList args2 + 1)
            (2 * (1 + sizeExpr object + sizeExprList args2))
            (by have := sizeExpr_pos object; omega)
          omega
  | index object idx2 =>
      simp only [evalExpr, sizeExpr] at hsz ⊢
      obtain ⟨hp1, ha1⟩ := ihE object st hInv (by omega)
      cases hres : evalExpr H f object st with
      | ok obj st1 =>
          simp only [hres]
          rw [hres] at hp1
          have hp1' : PresOk P st st1 := hp1
          obtain ⟨hp2, ha2⟩ := ihE idx2 st1 hp1'.1 (by omega)
          cases hres2 : evalExpr H f idx2 st1 with
          | ok idx st2 =>
              simp only [hres2]
              rw [hres2] at hp2
              have hp2' : PresOk P st st2 := hp1'.trans hp2
              split
              · exact ⟨hp2'.congr (by simp) (by simp) (by simp) (by simp),
                  fun _ => by simp⟩
              · exact ⟨hp2'.toErr.congr (by simp) (by simp), fun _ => by simp⟩
          | err e2 st2 =>
              simp only [hres2]
              rw [hres2] at hp2
              have hpe : PresErr st1 st2 := hp2
              exact ⟨(hp1'.err_trans hpe).congr (by simp) (by simp), fun _ => by simp⟩
          | out =>
              simp only [hres2]
              refine ⟨trivial, fun hm => absurd hres2 (ha2 ?_)⟩
              have := measure_lt_chain hp1' (2 * sizeExpr idx2)
                (2 * (1 + sizeExpr object + sizeExpr idx2)) (by omega)
              omega
      | err e2 st1 =>
          simp only [hres]
          rw [hres] at hp1
          exact ⟨hp1, fun _ => by simp⟩
      | out =>
          simp only [hres]
          refine ⟨trivial, fun hm => absurd hres (ha1 ?_)⟩
          have := measure_lt_s P st (2 * sizeExpr object)
            (2 * (1 + sizeExpr object + sizeExpr idx2)) (by omega)
          omega
  | array elements =>
      simp only [evalExpr, sizeExpr] at hsz ⊢
      obtain ⟨hp1, ha1⟩ := ihL elements st hInv (by omega)
      cases hres : evalExprList H f elements st with
      | ok vs st1 =>
          simp only [hres]
          rw [hres] at hp1
          have hp1' : PresOk P st st1 := hp1
          exact ⟨hp1'.congr (by simp) (by simp) (by simp) (by simp), fun _ => by simp⟩
      | err e2 st1 =>
          simp only [hres]
          rw [hres] at hp1
          exact ⟨hp1, fun _ => by simp⟩
      | out =>
          simp only [hres]
          refine ⟨trivial, fun hm => absurd hres (ha1 ?_)⟩
          have := measure_lt_s P st (2 * sizeExprList elements + 1)
            (2 * (1 + sizeExprList elements)) (by omega)
          omega
  | dict entries =>
      simp only [evalExpr, sizeExpr] at hsz ⊢
      obtain ⟨hp1, ha1⟩ := ihD entries st hInv (by omega)
      cases hres : evalDictEntries H f entries st with
      | ok pairs st1 =>
          simp only [hres]
          rw [hres] at hp1
          have hp1' : PresOk P st st1 := hp1
          exact ⟨hp1'.congr (by simp) (by simp) (by simp) (by simp), fun _ => by simp⟩
      | err e2 st1 =>
          simp only [hres]
          rw [hres] at hp1
          exact ⟨hp1, fun _ => by simp⟩
      | out =>
          simp only [hres]
          refine ⟨trivial, fun hm => absurd hres (ha1 ?_)⟩
          have := measure_lt_s P st (2 * sizeDictEntries entries + 1)
            (2 * (1 + sizeDictEntries entries)) (by omega)
          omega
  | ifExpr cond thenE elseE =>
      simp only [evalExpr, sizeExpr] at hsz ⊢
      obtain ⟨hp1, ha1⟩ := ihE cond st hInv (by omega)
      cases hres : evalExpr H f cond st with
      | ok cv st1 =>
          simp only [hres]
          rw [hres] at hp1
          have hp1' : PresOk P st st1 := hp1
          have hp2 : PresOk P st (stDealloc st1 (bytesVal cv)) :=
            hp1'.congr (by simp) (by simp) (by simp) (by simp)
          cases hc : isTruthy cv with
          | true =>
              rw [if_pos rfl]
              obtain ⟨hp3, ha3⟩ := ihE thenE (stDealloc st1 (bytesVal cv)) hp2.1
                (by omega)
              refine ⟨presP_chain hp2 hp3, fun hm => ha3 ?_⟩
              have := measure_lt_chain hp2 (2 * sizeExpr thenE)
                (2 * (1 + sizeExpr cond + sizeExpr thenE + sizeExpr elseE)) (by omega)
              omega
          | false =>
              rw [if_neg (by simp)]
              obtain ⟨hp3, ha3⟩ := ihE elseE (stDealloc st1 (bytesVal cv)) hp2.1
                (by omega)
              refine ⟨presP_chain hp2 hp3, fun hm => ha3 ?_⟩
              have := measure_lt_chain hp2 (2 * sizeExpr elseE)
                (2 * (1 + sizeExpr cond + sizeExpr thenE + sizeExpr elseE)) (by omega)
              omega
      | err e2 st1 =>
          simp only [hres]
          rw [hres] at hp1
          exact ⟨hp1, fun _ => by simp⟩
      | out =>
          simp only [hres]
          refine ⟨trivial, fun hm => absurd hres (ha1 ?_)⟩
          have := measure_lt_s P st (2 * sizeExpr cond)
            (2 * (1 + sizeExpr cond + sizeExpr thenE + sizeExpr elseE)) (by omega)
          omega

set_option maxHeartbeats 1600000 in
theorem presStep_execStmt {σ : Type} {P : Nat} {H : Host σ} {f : Nat}
    (ih : allPres P H f) (stmt : Stmt) (st : EvalState σ) (hInv : Inv P st)
    (hsz : sizeStmt stmt ≤ P) :
    presAdeq P st (2 * sizeStmt stmt) (f + 1) (execStmt H (f + 1) stmt st) := by
  obtain ⟨ihB, ihS, ihC, ihW, ihR, ihF, ihA, ihI, ihE, ihL, ihD, ihK⟩ := ih
  obtain ⟨kind, line⟩ := stmt
  simp only [execStmt]
  cases ht : tick H line st with
  | err e st0 =>
      simp only [ht]
      exact ⟨tick_presErr hInv ht, fun _ => by simp⟩
  | out => exact absurd ht (tick_ne_out H line st)
  | ok a st0 =>
      simp only [ht]
      have hpt : PresOk P st st0 := tick_presOk hInv ht
      obtain ⟨hin0, hst0, hdp0, hlm0⟩ := hpt
      have hpt : PresOk P st st0 := ⟨hin0, hst0, hdp0, hlm0⟩
      cases kind with
      | sLet name value =>
          simp only [sizeStmt] at hsz ⊢
          obtain ⟨hp1, ha1⟩ := ihE value st0 hin0 (by omega)
          cases hres : evalExpr H f value st0 with
          | ok v st1 =>
              simp only [hres]
              rw [hres] at hp1
              have hp1' : PresOk P st0 st1 := hp1
              exact ⟨(hpt.trans hp1').congr (by simp) (by simp) (by simp) (by simp),
                fun _ => by simp⟩
          | err e2 st1 =>
              simp only [hres]
              rw [hres] at hp1
              exact ⟨hpt.err_trans hp1, fun _ => by simp⟩
          | out =>
              simp only [hres]
              refine ⟨trivial, fun hm => absurd hres (ha1 ?_)⟩
              have := measure_lt_after_tick hInv ht (PresOk.refl P st0 hin0)
                (2 * sizeExpr value) (2 * (1 + sizeExpr value)) (by omega)
              omega
      | assign target op value =>
          simp only [sizeStmt] at hsz ⊢
          obtain ⟨hp1, ha1⟩ := ihE value st0 hin0 (by omega)
          cases hres : evalExpr H f value st0 with
          | ok v st1 =>
              simp only [hres]
              rw [hres] at hp1
              have hp1' : PresOk P st0 st1 := hp1
              obtain ⟨hp2, ha2⟩ := ihA target op v line st1 hp1'.1 (by omega)
              cases hres2 : execAssign H f target op v line st1 with
              | ok u st2 =>
                  simp only [hres2]
                  rw [hres2] at hp2
                  have hp2' : PresOk P st1 st2 := hp2
                  exact ⟨hpt.trans (hp1'.trans hp2'), fun _ => by simp⟩
              | err e2 st2 =>
                  simp only [hres2]
                  rw [hres2] at hp2
                  exact ⟨hpt.err_trans (hp1'.err_trans hp2), fun _ => by simp⟩
              | out =>
                  simp only [hres2]
                  refine ⟨trivial, fun hm => absurd hres2 (ha2 ?_)⟩
                  have := measure_lt_after_tick hInv ht hp1' (2 * sizeTarget target)
                    (2 * (1 + sizeTarget target + sizeExpr value)) (by omega)
                  omega
          | err e2 st1 =>
              simp only [hres]
              rw [hres] at hp1
              exact ⟨hpt.err_trans hp1, fun _ => by simp⟩
          | out =>
              simp only [hres]
              refine ⟨trivial, fun hm => absurd hres (ha1 ?_)⟩
              have := measure_lt_after_tick hInv ht (PresOk.refl P st0 hin0)
                (2 * sizeExpr value) (2 * (1 + sizeTarget target + sizeExpr value))
                (by omega)
              omega
      | sIf cond body elifs elseB =>
          simp only [sizeStmt] at hsz ⊢
          obtain ⟨hp1, ha1⟩ := ihE cond st0 hin0 (by omega)
          cases hres : evalExpr H f cond st0 with
          | ok cv st1 =>
              simp only [hres]
              rw [hres] at hp1
              have hp1' : PresOk P st0 st1 := hp1
              have hp2 : PresOk P st0 (stDealloc st1 (bytesVal cv)) :=
                hp1'.congr (by simp) (by simp) (by simp) (by simp)
              cases hc : isTruthy cv with
              | true =>
                  rw [if_pos rfl]
                  have hpp : PresOk P st0 (pushScope (stDealloc st1 (bytesVal cv))) :=
                    hp2.congr (by simp) (by simp) (by simp) (by simp)
                  obtain ⟨hp3, ha3⟩ := ihB body
                    (pushScope (stDealloc st1 (bytesVal cv))) hpp.1 (by omega)
                  cases hres2 : execBlock H f body
                      (pushScope (stDealloc st1 (bytesVal cv))) with
                  | ok sig st3 =>
                      simp only [hres2]
                      rw [hres2] at hp3
                      exact ⟨(hpt.trans ((hpp.trans hp3).congr (by simp) (by simp)
                        (by simp) (by simp))), fun _ => by simp⟩
                  | err e2 st3 =>
                      simp only [hres2]
                      rw [hres2] at hp3
                      exact ⟨hpt.err_trans (hpp.err_trans hp3), fun _ => by simp⟩
                  | out =>
                      simp only [hres2]
                      refine ⟨trivial, fun hm => absurd hres2 (ha3 ?_)⟩
                      have := measure_lt_after_tick hInv ht hpp
                        (2 * sizeStmts body + 1)
                        (2 * (1 + sizeExpr cond + sizeStmts body + sizeElifs elifs +
                          sizeOptBlock elseB)) (by omega)
                      omega
              | false =>
                  rw [if_neg (by simp)]
                  obtain ⟨hp3, ha3⟩ := ihC elifs elseB (stDealloc st1 (bytesVal cv))
                    hp2.1 (by omega)
                  refine ⟨presP_chain hpt (presP_chain hp2 hp3), fun hm => ha3 ?_⟩
                  have := measure_lt_after_tick hInv ht hp2
                    (2 * (sizeElifs elifs + sizeOptBlock elseB) + 3)
                    (2 * (1 + sizeExpr cond + sizeStmts body + sizeElifs elifs +
                      sizeOptBlock elseB)) (by omega)
                  omega
          | err e2 st1 =>
              simp only [hres]
              rw [hres] at hp1
              exact ⟨hpt.err_trans hp1, fun _ => by simp⟩
          | out =>
              simp only [hres]
              refine ⟨trivial, fun hm => absurd hres (ha1 ?_)⟩
              have := measure_lt_after_tick hInv ht (PresOk.refl P st0 hin0)
                (2 * sizeExpr cond)
                (2 * (1 + sizeExpr cond + sizeStmts body + sizeElifs elifs +
                  sizeOptBlock elseB)) (by omega)
              omega
      | sWhile cond body =>
          simp only [sizeStmt] at hsz ⊢
          obtain ⟨hp2, ha2⟩ := ihW line cond body st0 hin0 (by omega)
          refine ⟨presP_chain hpt hp2, fun hm => ha2 ?_⟩
          have := measure_lt_after_tick hInv ht (PresOk.refl P st0 hin0) 0
            (2 * (1 + sizeExpr cond + sizeStmts body)) (by omega)
          omega
      | sRepeat count body =>
          simp only [sizeStmt] at hsz ⊢
          obtain ⟨hp1, ha1⟩ := ihE count st0 hin0 (by omega)
          cases hres : evalExpr H f count st0 with
          | ok v st1 =>
              rw [hres] at hp1
              have hp1' : PresOk P st0 st1 := hp1
              cases v
              case number n =>
                obtain ⟨hp2, ha2⟩ := ihR line (max (toI64 n) 0).toNat body st1
                  hp1'.1 (by omega)
                refine ⟨presP_chain hpt (presP_chain hp1' hp2), fun hm => ha2 ?_⟩
                have := measure_lt_after_tick hInv ht hp1' 0
                  (2 * (1 + sizeExpr count + sizeStmts body)) (by omega)
                omega
              all_goals
                exact ⟨(hpt.err_trans hp1'.toErr).congr (by simp) (by simp),
                  fun _ => by simp⟩
          | err e2 st1 =>
              simp only [hres]
              rw [hres] at hp1
              exact ⟨hpt.err_trans hp1, fun _ => by simp⟩
          | out =>
              simp only [hres]
              refine ⟨trivial, fun hm => absurd hres (ha1 ?_)⟩
              have := measure_lt_after_tick hInv ht (PresOk.refl P st0 hin0)
                (2 * sizeExpr count) (2 * (1 + sizeExpr count + sizeStmts body))
                (by omega)
              omega
      | forIn v iterable body =>
          simp only [sizeStmt] at hsz ⊢
          obtain ⟨hp1, ha1⟩ := ihE iterable st0 hin0 (by omega)
          cases hres : evalExpr H f iterable st0 with
          | ok itv st1 =>
              rw [hres] at hp1
              have hp1' : PresOk P st0 st1 := hp1
              cases itv
              case array items =>
                have hpD : PresOk P st0 (stDealloc st1 (items.length * sizeofValue)) :=
                  hp1'.congr (by simp) (by simp) (by simp) (by simp)
                obtain ⟨hp2, ha2⟩ := ihF line v items body
                  (stDealloc st1 (items.length * sizeofValue)) hpD.1 (by omega)
                refine ⟨presP_chain hpt (presP_chain hpD hp2), fun hm => ha2 ?_⟩
                have := measure_lt_after_tick hInv ht hpD 0
                  (2 * (1 + sizeExpr iterable + sizeStmts body)) (by omega)
                omega
              case str s =>
                have hpA : PresOk P st0 (stAlloc st1
                    (bytesValList (s.toList.map fun c => Value.str
                      (String.singleton c)))) :=
                  hp1'.congr (by simp) (by simp) (by simp) (by simp)
                obtain ⟨hp2, ha2⟩ := ihF line v
                  (s.toList.map fun c => Value.str (String.singleton c)) body
                  (stAlloc st1 (bytesValList (s.toList.map fun c => Value.str
                    (String.singleton c)))) hpA.1 (by omega)
                cases hres2 : forLoop H f line v
                    (s.toList.map fun c => Value.str (String.singleton c)) body
                    (stAlloc st1 (bytesValList (s.toList.map fun c => Value.str
                      (String.singleton c)))) with
                | ok sig st2 =>
                    simp only [hres2]
                    rw [hres2] at hp2
                    exact ⟨(hpt.trans (hpA.trans hp2)).congr (by simp) (by simp)
                      (by simp) (by simp), fun _ => by simp⟩
                | err e2 st2 =>
                    simp only [hres2]
                    rw [hres2] at hp2
                    exact ⟨(hpt.err_trans (hpA.err_trans hp2)).congr (by simp)
                      (by simp), fun _ => by simp⟩
                | out =>
                    simp only [hres2]
                    refine ⟨trivial, fun hm => absurd hres2 (ha2 ?_)⟩
                    have := measure_lt_after_tick hInv ht hpA 0
                      (2 * (1 + sizeExpr iterable + sizeStmts body)) (by omega)
                    omega
              all_goals
                exact ⟨(hpt.err_trans hp1'.toErr).congr (by simp) (by simp),
                  fun _ => by simp⟩
          | err e2 st1 =>
              simp only [hres]
              rw [hres] at hp1
              exact ⟨hpt.err_trans hp1, fun _ => by simp⟩
          | out =>
              simp only [hres]
              refine ⟨trivial, fun hm => absurd hres (ha1 ?_)⟩
              have := measure_lt_after_tick hInv ht (PresOk.refl P st0 hin0)
                (2 * sizeExpr iterable) (2 * (1 + sizeExpr iterable + sizeStmts body))
                (by omega)
              omega
      | fnDecl name params body =>
          simp only [sizeStmt] at hsz ⊢
          obtain ⟨j1, j2, j3, j4⟩ := hin0
          refine ⟨⟨⟨j1, j2, j3, ?_⟩, hst0, hdp0, hlm0⟩, fun _ => by simp⟩
          intro p hp
          rcases fnInsert_mem st0.functions name { params := params, body := body }
            p hp with h | h
          · rw [h]
            exact (by omega : sizeStmts body ≤ P)
          · exact j4 p h
      | sReturn value =>
          cases value with
          | some e2 =>
              simp only [sizeStmt] at hsz ⊢
              obtain ⟨hp1, ha1⟩ := ihE e2 st0 hin0 (by omega)
              cases hres : evalExpr H f e2 st0 with
              | ok v st1 =>
                  simp only [hres]
                  rw [hres] at hp1
                  have hp1' : PresOk P st0 st1 := hp1
                  exact ⟨hpt.trans hp1', fun _ => by simp⟩
              | err e3 st1 =>
                  simp only [hres]
                  rw [hres] at hp1
                  exact ⟨hpt.err_trans hp1, fun _ => by simp⟩
              | out =>
                  simp only [hres]
                  refine ⟨trivial, fun hm => absurd hres (ha1 ?_)⟩
                  have := measure_lt_after_tick hInv ht (PresOk.refl P st0 hin0)
                    (2 * sizeExpr e2) (2 * (1 + sizeExpr e2)) (by omega)
                  omega
          | none => exact ⟨hpt, fun _ => by simp⟩
      | sBreak => exact ⟨hpt, fun _ => by simp⟩
      | sContinue => exact ⟨hpt, fun _ => by simp⟩
      | exprStmt e2 =>
          simp only [sizeStmt] at hsz ⊢
          obtain ⟨hp1, ha1⟩ := ihE e2 st0 hin0 (by omega)
          cases hres : evalExpr H f e2 st0 with
          | ok v st1 =>
              simp only [hres]
              rw [hres] at hp1
              have hp1' : PresOk P st0 st1 := hp1
              exact ⟨(hpt.trans hp1').congr (by simp) (by simp) (by simp) (by simp),
                fun _ => by simp⟩
          | err e3 st1 =>
              simp only [hres]
              rw [hres] at hp1
              exact ⟨hpt.err_trans hp1, fun _ => by simp⟩
          | out =>
              simp only [hres]
              refine ⟨trivial, fun hm => absurd hres (ha1 ?_)⟩
              have := measure_lt_after_tick hInv ht (PresOk.refl P st0 hin0)
                (2 * sizeExpr e2) (2 * (1 + sizeExpr e2)) (by omega)
              omega

/-- Preservation and fuel adequacy hold at every fuel. -/
theorem allPres_all (P : Nat) {σ : Type} (H : Host σ) (fuel : Nat) :
    allPres P H fuel := by
  induction fuel with
  | zero => exact allPres_zero P H
  | succ f ih =>
      exact ⟨presStep_execBlock ih, presStep_execStmt ih, presStep_execIfChain ih,
        presStep_whileLoop ih, presStep_repeatLoop ih, presStep_forLoop ih,
        presStep_execAssign ih, presStep_execAssignIndexStore,
        presStep_evalExpr ih, presStep_evalExprList ih, presStep_evalDictEntries ih,
        presStep_callFunction ih⟩

/-- A fuel amount that provably suffices for a whole program run. -/
def c1Fuel (limits : BopLimits) (stmts : List Stmt) : Nat :=
  (limits.maxSteps + 1) * (65 * (2 * sizeStmts stmts + 5)) + 1

/-- Program used in the termination witness. -/
def c1Prog : List Stmt := [Stmt.mk (.exprStmt (Expr.mk (.number 1) 1)) 1]

/-- Program used in the termination counterexample: `while true {}`. -/
def c1While : List Stmt := [Stmt.mk (.sWhile (Expr.mk (.bool true) 1) []) 1]

/-- Halting of a program in the fuel-indexed embedding: some fuel makes
the evaluator return a result (success or error) instead of running
out. -/
def evalHalts {σ : Type} (H : Host σ) (host : σ) (limits : BopLimits)
    (stmts : List Stmt) : Prop :=
  ∃ fuel, evalProgram H fuel host limits stmts ≠ .out

end Bop

namespace Bop

/-- Claim C1 (amended): for every program, host and limits whose step
budget stays below the `u64` wrap point (`max_steps ≤ 2^64 - 2`),
evaluation halts — with fuel `c1Fuel` the run returns a success or an
error, never `out` — and the step counter (which counts exactly the
executed ticks: one per statement and one per loop iteration) ends at
most `max_steps` on success and at most `max_steps + 1` on error. -/
theorem evaluation_halts_within_budget {σ : Type} (H : Host σ) (host : σ)
    (limits : BopLimits) (stmts : List Stmt)
    (hms : limits.maxSteps ≤ 2 ^ 64 - 2) :
    evalProgram H (c1Fuel limits stmts) host limits stmts ≠ .out ∧
    (∀ (u : Unit) (st2 : EvalState σ),
      evalProgram H (c1Fuel limits stmts) host limits stmts = .ok u st2 →
      st2.steps ≤ limits.maxSteps) ∧
    (∀ (e : BopError) (st2 : EvalState σ),
      evalProgram H (c1Fuel limits stmts) host limits stmts = .err e st2 →
      st2.steps ≤ limits.maxSteps + 1) := by
  have hInv0 : Inv (sizeStmts stmts) (initState host limits) :=
    ⟨Nat.zero_le _, hms, Nat.zero_le 64, fun p hp => absurd hp (List.not_mem_nil p)⟩
  obtain ⟨hB, hrest⟩ := allPres_all (sizeStmts stmts) H (c1Fuel limits stmts)
  obtain ⟨hp, ha⟩ := hB stmts (initState host limits) hInv0 le_rfl
  have hmeas : evalMeasure (sizeStmts stmts) (initState host limits)
      (2 * sizeStmts stmts + 1) < c1Fuel limits stmts := by
    unfold evalMeasure c1Fuel initState
    have h1 : (limits.maxSteps + 1) * (65 * (2 * sizeStmts stmts + 5)) =
        limits.maxSteps * (65 * (2 * sizeStmts stmts + 5)) +
          65 * (2 * sizeStmts stmts + 5) := by ring
    simp only [Nat.sub_zero]
    omega
  have hne := ha hmeas
  simp only [evalProgram, runStmts]
  cases hres : execBlock H (c1Fuel limits stmts) stmts (initState host limits) with
  | out => exact absurd hres hne
  | ok sig st1 =>
      rw [hres] at hp
      have hp2 : PresOk (sizeStmts stmts) (initState host limits) st1 := hp
      obtain ⟨⟨k1, k2, k3, k4⟩, m2, m3, m4⟩ := hp2
      have hlim : st1.limits.maxSteps = limits.maxSteps := by
        rw [m4]
        rfl
      cases sig with
      | brk =>
          refine ⟨by simp, fun u st2 h => absurd h (by simp), fun e st2 h => ?_⟩
          cases h
          omega
      | cont =>
          refine ⟨by simp, fun u st2 h => absurd h (by simp), fun e st2 h => ?_⟩
          cases h
          omega
      | none =>
          refine ⟨by simp, fun u st2 h => ?_, fun e st2 h => absurd h (by simp)⟩
          cases h
          show st1.steps ≤ limits.maxSteps
          omega
      | ret v =>
          refine ⟨by simp, fun u st2 h => ?_, fun e st2 h => absurd h (by simp)⟩
          cases h
          show st1.steps ≤ limits.maxSteps
          omega
  | err e st1 =>
      rw [hres] at hp
      have hp2 : PresErr (initState host limits) st1 := hp
      obtain ⟨k1, k2⟩ := hp2
      refine ⟨by simp, fun u st2 h => absurd h (by simp), fun e2 st2 h => ?_⟩
      cases h
      exact k1

/-- Witness for C1 at a concrete program and budget. -/
theorem evaluation_halts_within_budget_witness :
    (5 ≤ 2 ^ 64 - 2) ∧
    (evalProgram stdHost (c1Fuel ⟨5, 1000⟩ c1Prog) () ⟨5, 1000⟩ c1Prog ≠ .out ∧
    (∀ (u : Unit) (st2 : EvalState Unit),
      evalProgram stdHost (c1Fuel ⟨5, 1000⟩ c1Prog) () ⟨5, 1000⟩ c1Prog = .ok u st2 →
      st2.steps ≤ (5 : Nat)) ∧
    (∀ (e : BopError) (st2 : EvalState Unit),
      evalProgram stdHost (c1Fuel ⟨5, 1000⟩ c1Prog) () ⟨5, 1000⟩ c1Prog = .err e st2 →
      st2.steps ≤ (5 : Nat) + 1)) :=
  ⟨by decide,
    evaluation_halts_within_budget stdHost () ⟨5, 1000⟩ c1Prog (by decide)⟩

/-- `while true {}` never terminates when the step budget sits at the
`u64` wrap point: the wrapped counter can never exceed
`max_steps = 2^64 - 1`, so the too-many-steps error never fires. -/
theorem c1_while_out (fuel : Nat) :
    ∀ st : EvalState Unit, memExceeded st.mem = false →
      st.limits.maxSteps = 2 ^ 64 - 1 →
      whileLoop stdHost fuel 1 (Expr.mk (.bool true) 1) [] st = .out := by
  induction fuel with
  | zero =>
      intro st hm hms
      simp [whileLoop]
  | succ f ihf =>
      intro st hm hms
      simp only [whileLoop, tick]
      have h9 : (st.steps + 1) % 2 ^ 64 < 2 ^ 64 := Nat.mod_lt _ (by norm_num)
      rw [if_neg (by omega)]
      rw [if_neg (by simp [hm])]
      simp only [stdHost]
      cases f with
      | zero => simp [evalExpr]
      | succ f2 =>
          simp only [evalExpr]
          rw [if_pos (show isTruthy (Value.bool true) = true from rfl)]
          simp only [execBlock]
          exact ihf _ hm hms

/-- Counterexample to the original C1: with the finite budget
`max_steps = 2^64 - 1` (the `u64` maximum), the program
`while true {}` never halts — the run exhausts every fuel. -/
theorem c1_counterexample :
    ¬ evalHalts stdHost () ⟨2 ^ 64 - 1, 1000⟩ c1While := by
  rintro ⟨fuel, hne⟩
  apply hne
  simp only [evalProgram, runStmts, c1While]
  cases fuel with
  | zero => simp [execBlock]
  | succ f =>
      simp only [execBlock]
      cases f with
      | zero => simp [execStmt]
      | succ f2 =>
          simp only [execStmt, tick, initState]
          rw [if_neg (by decide)]
          rw [if_neg (by decide)]
          simp only [stdHost]
          have hHost : ({ call := fun s _ _ _ => (s, Option.none), onPrint := fun s _ => s, functionHint := fun _ => "", onTick := fun s => (s, Option.none) } : Host Unit) = stdHost := rfl
          rw [hHost]
          have := c1_while_out f2
            { scopes := [[]], functions := [], steps := (0 + 1) % 2 ^ 64,
              callDepth := 0, limits := ⟨2 ^ 64 - 1, 1000⟩, randState := 0,
              mem := memInit 1000, host := () } (by decide) (by decide)
          rw [this]

/-! ## Ledger conservation: footprint identities -/

/-- Footprint of the values of evaluated dict-literal entries (their
keys are allocated later, by the dict constructor). -/
def bytesEntryVals : List (String × Value) → Nat
  | [] => 0
  | (_, v) :: rest => bytesVal v + bytesEntryVals rest

theorem bytesValList_append (a b : List Value) :
    bytesValList (a ++ b) = bytesValList a + bytesValList b := by
  induction a with
  | nil => simp [bytesValList]
  | cons v rest ih => simp [bytesValList, ih]; omega

theorem bytesValList_dropLast (arr : List Value) :
    bytesValList arr =
      bytesValList arr.dropLast + bytesVal (arr.getLast?.getD Value.none) := by
  induction arr with
  | nil => simp [bytesValList, bytesVal]
  | cons v rest ih =>
      cases rest with
      | nil => simp [bytesValList, bytesVal]
      | cons w r2 =>
          simp only [List.dropLast_cons₂, List.getLast?_cons_cons, bytesValList] at ih ⊢
          omega

theorem bytesValList_insertIdx (arr : List Value) (i : Nat) (v : Value)
    (h : i ≤ arr.length) :
    bytesValList (arr.insertIdx i v) = bytesValList arr + bytesVal v := by
  induction arr generalizing i with
  | nil =>
      simp only [List.length_nil, Nat.le_zero] at h
      subst h
      simp [List.insertIdx, bytesValList]
  | cons w rest ih =>
      cases i with
      | zero =>
          have hstep : (w :: rest).insertIdx 0 v = v :: w :: rest := rfl
          rw [hstep]
          simp only [bytesValList]
          omega
      | succ j =>
          have hstep : (w :: rest).insertIdx (j + 1) v = w :: rest.insertIdx j v := rfl
          rw [hstep]
          simp only [bytesValList]
          rw [ih j (by simpa using h)]
          omega

theorem bytesValList_eraseIdx (arr : List Value) (i : Nat) (h : i < arr.length) :
    bytesValList (arr.eraseIdx i) + bytesVal (arr.get ⟨i, h⟩) = bytesValList arr := by
  induction arr generalizing i with
  | nil => simp at h
  | cons w rest ih =>
      cases i with
      | zero => simp [List.eraseIdx, bytesValList, List.get]; omega
      | succ j =>
          simp only [List.eraseIdx_cons_succ, bytesValList, List.get]
          have := ih j (by simpa using h)
          omega

theorem bytesValList_set (arr : List Value) (i : Nat) (v : Value) (h : i < arr.length) :
    bytesValList (arr.set i v) + bytesVal (arr.get ⟨i, h⟩) =
      bytesValList arr + bytesVal v := by
  induction arr generalizing i with
  | nil => simp at h
  | cons w rest ih =>
      cases i with
      | zero => simp [List.set, bytesValList, List.get]; omega
      | succ j =>
          simp only [List.set, bytesValList, List.get]
          have := ih j (by simpa using h)
          omega

theorem bytesValList_eq_sum (l : List Value) :
    bytesValList l = (l.map bytesVal).sum := by
  induction l with
  | nil => simp [bytesValList]
  | cons v rest ih => simp [bytesValList, ih]

theorem bytesValList_reverse (l : List Value) :
    bytesValList l.reverse = bytesValList l := by
  rw [bytesValList_eq_sum, bytesValList_eq_sum, List.map_reverse, List.sum_reverse]

theorem bytesValList_mergeSort (l : List Value) (le : Value → Value → Bool) :
    bytesValList (l.mergeSort le) = bytesValList l := by
  rw [bytesValList_eq_sum, bytesValList_eq_sum]
  exact List.Perm.sum_eq (List.Perm.map bytesVal (List.mergeSort_perm l le))

theorem bytesValList_map_str (pieces : List String) :
    bytesValList (pieces.map Value.str) = (pieces.map String.utf8ByteSize).sum := by
  induction pieces with
  | nil => simp [bytesValList]
  | cons s rest ih => simp [bytesValList, ih, bytesVal]

theorem bytesValList_map_keyStr (entries : List (String × Value)) :
    bytesValList (entries.map fun e => Value.str e.1) =
      (entries.map fun e => e.1.utf8ByteSize).sum := by
  induction entries with
  | nil => simp [bytesValList]
  | cons e rest ih => simp [bytesValList, ih, bytesVal]

theorem bytesValList_map_number (l : List Rat) :
    bytesValList (l.map Value.number) = 0 := by
  induction l with
  | nil => simp [bytesValList]
  | cons q rest ih => simp [bytesValList, ih, bytesVal]

theorem bytesEntryVals_keys (pairs : List (String × Value)) :
    (pairs.map fun p => p.1.utf8ByteSize).sum + bytesEntryVals pairs =
      bytesValDict pairs := by
  induction pairs with
  | nil => simp [bytesEntryVals, bytesValDict]
  | cons p rest ih =>
      obtain ⟨k, v⟩ := p
      simp only [List.map_cons, List.sum_cons, bytesEntryVals, bytesValDict]
      omega

/-! ## Ledger conservation: memory-field facts -/

theorem satAdd_le (a b : Nat) : satAdd a b ≤ a + b := by
  unfold satAdd
  omega

@[simp] theorem memAlloc_used (m : Mem) (b : Nat) :
    (memAlloc m b).used = min (m.used + b) usizeMax := rfl

@[simp] theorem memDealloc_used (m : Mem) (b : Nat) :
    (memDealloc m b).used = m.used - b := rfl

@[simp] theorem stAlloc_mem_used {σ : Type} (st : EvalState σ) (b : Nat) :
    (stAlloc st b).mem.used = min (st.mem.used + b) usizeMax := rfl

@[simp] theorem stDealloc_mem_used {σ : Type} (st : EvalState σ) (b : Nat) :
    (stDealloc st b).mem.used = st.mem.used - b := rfl

@[simp] theorem stAlloc_scopes {σ : Type} (st : EvalState σ) (b : Nat) :
    (stAlloc st b).scopes = st.scopes := rfl

@[simp] theorem stDealloc_scopes {σ : Type} (st : EvalState σ) (b : Nat) :
    (stDealloc st b).scopes = st.scopes := rfl

@[simp] theorem usizeMax_val : usizeMax = 2 ^ 64 - 1 := rfl

/-- One bookkeeping step that moves a paid-for value into (or drops it
from) the scope stack: the ledger sheds at least as many bytes as the
scope footprint gives up of what was paid. -/
def memConsume {σ : Type} (st st' : EvalState σ) (paid : Nat) : Prop :=
  ∃ w, st'.mem.used = st.mem.used - w ∧
    scopesBytes st.scopes + paid ≤ scopesBytes st'.scopes + w

theorem memConsume.le {σ : Type} {st st' : EvalState σ} {paid : Nat}
    (h : memConsume st st' paid) (B X : Nat)
    (hU : st.mem.used ≤ B + scopesBytes st.scopes + paid + X) :
    st'.mem.used ≤ B + scopesBytes st'.scopes + X := by
  obtain ⟨w, h1, h2⟩ := h
  omega

theorem memConsume.of_eq {σ : Type} {st st' : EvalState σ}
    (h1 : st'.mem.used = st.mem.used) (h2 : st'.scopes = st.scopes) :
    memConsume st st' 0 :=
  ⟨0, by omega, by rw [h2]⟩

def memConsume.trans {σ : Type} {st1 st2 st3 : EvalState σ} {p q : Nat}
    (h1 : memConsume st1 st2 p) (h2 : memConsume st2 st3 q) :
    memConsume st1 st3 (p + q) := by
  obtain ⟨w1, a1, a2⟩ := h1
  obtain ⟨w2, b1, b2⟩ := h2
  exact ⟨w1 + w2, by omega, by omega⟩

theorem pushScope_consume {σ : Type} (st : EvalState σ) :
    memConsume st (pushScope st) 0 := by
  refine ⟨0, rfl, ?_⟩
  simp [pushScope, scopesBytes, scopeBytes]

theorem popScope_consume {σ : Type} (st : EvalState σ) :
    memConsume st (popScope st) 0 := by
  unfold popScope
  cases hsc : st.scopes with
  | nil => exact ⟨0, by simp, by simp⟩
  | cons sc rest =>
      refine ⟨scopeBytes sc, by simp, ?_⟩
      simp only [hsc, scopesBytes]
      omega

theorem scopeInsert_consume (sc : List (String × Value)) (n : String) (v : Value)
    (m : Mem) :
    ∃ w, (scopeInsert sc n v m).2.used = m.used - w ∧
      scopeBytes sc + bytesVal v ≤ scopeBytes (scopeInsert sc n v m).1 + w := by
  induction sc with
  | nil =>
      refine ⟨0, by simp [scopeInsert], ?_⟩
      simp [scopeInsert, scopeBytes]
  | cons kv rest ih =>
      obtain ⟨k, v0⟩ := kv
      simp only [scopeInsert]
      split
      · refine ⟨bytesVal v0, by simp, ?_⟩
        simp only [scopeBytes]
        omega
      · obtain ⟨w, h1, h2⟩ := ih
        refine ⟨w, h1, ?_⟩
        simp only [scopeBytes]
        omega

theorem defineVar_consume {σ : Type} (st : EvalState σ) (n : String) (v : Value) :
    memConsume st (defineVar st n v) (bytesVal v) := by
  unfold defineVar
  cases hsc : st.scopes with
  | nil =>
      refine ⟨bytesVal v, by simp, ?_⟩
      simp [hsc]
  | cons sc rest =>
      obtain ⟨w, h1, h2⟩ := scopeInsert_consume sc n v st.mem
      refine ⟨w, by simpa using h1, ?_⟩
      simp only [hsc, scopesBytes]
      omega

theorem setVarScopes_consume (scopes : List (List (String × Value))) (n : String)
    (v : Value) (m : Mem) :
    ∃ w, (setVarScopes scopes n v m).2.1.used = m.used - w ∧
      scopesBytes scopes + bytesVal v ≤
        scopesBytes (setVarScopes scopes n v m).1 + w := by
  induction scopes with
  | nil =>
      refine ⟨bytesVal v, by simp [setVarScopes], ?_⟩
      simp [setVarScopes, scopesBytes]
  | cons sc rest ih =>
      simp only [setVarScopes]
      split
      · obtain ⟨w, h1, h2⟩ := scopeInsert_consume sc n v m
        refine ⟨w, h1, ?_⟩
        simp only [scopesBytes]
        omega
      · obtain ⟨w, h1, h2⟩ := ih
        refine ⟨w, h1, ?_⟩
        simp only [scopesBytes]
        omega

theorem setVar_consume {σ : Type} (st : EvalState σ) (n : String) (v : Value) :
    memConsume st (setVar st n v).1 (bytesVal v) := by
  obtain ⟨w, h1, h2⟩ := setVarScopes_consume st.scopes n v st.mem
  exact ⟨w, h1, h2⟩

theorem bindParams_consume {σ : Type} (ps : List String) (args : List Value)
    (st : EvalState σ) (hlen : ps.length = args.length) :
    memConsume st (bindParams ps args st) (bytesValList args) := by
  induction ps generalizing args st with
  | nil =>
      cases args with
      | nil => exact ⟨0, by simp [bindParams], by simp [bindParams, bytesValList]⟩
      | cons a as2 => simp at hlen
  | cons p ps2 ih =>
      cases args with
      | nil => simp at hlen
      | cons a as2 =>
          have h1 := defineVar_consume st p a
          have h2 := ih as2 (defineVar st p a) (by simpa using hlen)
          have h3 := h1.trans h2
          obtain ⟨w, q1, q2⟩ := h3
          have hunf : bindParams (p :: ps2) (a :: as2) st =
              bindParams ps2 as2 (defineVar st p a) := rfl
          rw [hunf]
          refine ⟨w, q1, ?_⟩
          simp only [bytesValList]
          omega

/-! ## Ledger conservation: value-operation bounds -/

/-- Footprint of an optional written-back object. -/
def optBytes : Option Value → Nat
  | some v => bytesVal v
  | Option.none => 0

theorem indexInto_mem (obj idx : Value) (line : Nat) (m : Mem) :
    (∀ v, (indexInto obj idx line m).res = .ok v →
      (indexInto obj idx line m).mem.used ≤ m.used + bytesVal v) ∧
    (∀ e, (indexInto obj idx line m).res = .error e →
      (indexInto obj idx line m).mem.used ≤ m.used) := by
  constructor <;> intro x <;>
    cases obj <;> cases idx <;>
    simp only [indexInto] <;>
    (repeat' split) <;>
    intro hx <;>
    first
      | (injection hx
         done)
      | (injection hx with h
         subst h
         simp [bytesVal, bytesValList_append]
         try omega
         done)
      | (simp at hx
         done)
      | (simp
         try omega
         done)
      | omega

set_option maxHeartbeats 3200000 in
theorem binaryOp_mem (l : Value) (op : BinOp) (r : Value) (line : Nat) (m : Mem) :
    (∀ v, (binaryOp l op r line m).res = .ok v →
      (binaryOp l op r line m).mem.used ≤ m.used + bytesVal v) ∧
    (∀ e, (binaryOp l op r line m).res = .error e →
      (binaryOp l op r line m).mem.used ≤ m.used) := by
  constructor <;> intro x <;>
    cases op <;> cases l <;> cases r <;>
    simp only [binaryOp] <;>
    (repeat' split) <;>
    intro hx <;>
    first
      | (injection hx
         done)
      | (injection hx with h
         subst h
         simp [bytesVal, bytesValList_append]
         try omega
         done)
      | (simp at hx
         done)
      | (simp
         try omega
         done)
      | omega

theorem applyCompoundOp_mem (l : Value) (op : AssignOp) (r : Value) (line : Nat)
    (m : Mem) :
    (∀ v, (applyCompoundOp l op r line m).res = .ok v →
      (applyCompoundOp l op r line m).mem.used ≤ m.used + bytesVal v) ∧
    (∀ e, (applyCompoundOp l op r line m).res = .error e →
      (applyCompoundOp l op r line m).mem.used ≤ m.used) := by
  cases op with
  | eq =>
      constructor <;> intro x hx <;> simp only [applyCompoundOp] at hx ⊢
      · injection hx with h
        subst h
        simp
      · exfalso
        simp at hx
  | addEq => exact binaryOp_mem l .add r line m
  | subEq => exact binaryOp_mem l .sub r line m
  | mulEq => exact binaryOp_mem l .mul r line m
  | divEq => exact binaryOp_mem l .div r line m
  | modEq => exact binaryOp_mem l .mod r line m

set_option maxHeartbeats 3200000 in
theorem arrayMethod_mem (arr : List Value) (method : String) (args : List Value)
    (line : Nat) (m : Mem) :
    (∀ p, (arrayMethod arr method args line m).res = .ok p →
      (arrayMethod arr method args line m).mem.used ≤
        m.used + bytesVal p.1 + optBytes p.2) ∧
    (∀ e, (arrayMethod arr method args line m).res = .error e →
      (arrayMethod arr method args line m).mem.used ≤ m.used) := by
  have hd := bytesValList_dropLast arr
  constructor <;> intro x <;>
    simp only [arrayMethod] <;>
    (repeat' split) <;>
    intro hx <;>
    first
      | (injection hx
         done)
      | (injection hx with h
         subst h
         simp [bytesVal, optBytes, bytesValList_append, bytesValList,
               bytesValList_reverse, bytesValList_mergeSort]
         try omega
         done)
      | (injection hx with h
         subst h
         simp only [bytesVal, optBytes, memAlloc_used, memDealloc_used]
         rw [bytesValList_insertIdx]
         omega
         omega)
      | (injection hx with h
         subst h
         rename_i n hlt
         have hid := bytesValList_eraseIdx arr (toUsize n) hlt
         simp only [bytesVal, optBytes, memAlloc_used, memDealloc_used]
         omega)
      | (injection hx with h
         subst h
         rename_i a0 n hlt
         have hid := bytesValList_eraseIdx arr (toUsize n) hlt
         simp only [bytesVal, optBytes, memAlloc_used, memDealloc_used]
         omega)
      | (injection hx with h
         subst h
         rename_i a0 n heq hlt
         have hid := bytesValList_eraseIdx arr (toUsize n) hlt
         simp only [bytesVal, optBytes, memAlloc_used, memDealloc_used]
         omega)
      | (simp at hx
         done)
      | (simp
         try omega
         done)

set_option maxHeartbeats 3200000 in
theorem stringMethod_mem (s : String) (method : String) (args : List Value)
    (line : Nat) (m : Mem) :
    (∀ p, (stringMethod s method args line m).res = .ok p →
      (stringMethod s method args line m).mem.used ≤
        m.used + bytesVal p.1 + optBytes p.2) ∧
    (∀ e, (stringMethod s method args line m).res = .error e →
      (stringMethod s method args line m).mem.used ≤ m.used) := by
  constructor <;> intro x <;>
    simp only [stringMethod] <;>
    (repeat' split) <;>
    intro hx <;>
    first
      | (injection hx
         done)
      | (injection hx with h
         subst h
         simp only [bytesVal, optBytes, bytesValList_map_str, memAlloc_used,
                    memDealloc_used, List.length_map]
         try omega
         done)
      | (injection hx with h
         subst h
         simp [bytesVal, optBytes, bytesValList_map_str]
         try omega
         done)
      | (simp at hx
         done)
      | (simp
         try omega
         done)
      | omega

theorem dictMethod_mem (entries : List (String × Value)) (method : String)
    (args : List Value) (line : Nat) (m : Mem) :
    (∀ p, (dictMethod entries method args line m).res = .ok p →
      (dictMethod entries method args line m).mem.used ≤
        m.used + bytesVal p.1 + optBytes p.2) ∧
    (∀ e, (dictMethod entries method args line m).res = .error e →
      (dictMethod entries method args line m).mem.used ≤ m.used) := by
  constructor <;> intro x <;>
    simp only [dictMethod] <;>
    (repeat' split) <;>
    intro hx <;>
    first
      | (injection hx
         done)
      | (injection hx with h
         subst h
         simp [bytesVal, optBytes, bytesValList_map_keyStr]
         try omega
         done)
      | (simp at hx
         done)
      | (simp
         try omega
         done)
      | omega

theorem callMethod_mem (obj : Value) (method : String) (args : List Value)
    (line : Nat) (m : Mem) :
    (∀ p, (callMethod obj method args line m).res = .ok p →
      (callMethod obj method args line m).mem.used ≤
        m.used + bytesVal p.1 + optBytes p.2) ∧
    (∀ e, (callMethod obj method args line m).res = .error e →
      (callMethod obj method args line m).mem.used ≤ m.used) := by
  cases obj with
  | array arr => exact arrayMethod_mem arr method args line m
  | str s => exact stringMethod_mem s method args line m
  | dict entries => exact dictMethod_mem entries method args line m
  | number n =>
      constructor <;> intro x hx <;> simp only [callMethod] at hx ⊢
      · exact absurd hx (by simp)
      · exact Nat.le_refl _
  | bool b =>
      constructor <;> intro x hx <;> simp only [callMethod] at hx ⊢
      · exact absurd hx (by simp)
      · exact Nat.le_refl _
  | none =>
      constructor <;> intro x hx <;> simp only [callMethod] at hx ⊢
      · exact absurd hx (by simp)
      · exact Nat.le_refl _

/-! ## Ledger conservation: the memory contract

`memOut B g r` bounds the ledger of a result by the caller-held bytes
`B`, the live scope footprint and the returned value's footprint `g`;
`memRes g own st r` says the bound is preserved from an entry state
that additionally owns `own` bytes of moved-in arguments. -/

/-- Exit bound of a run result under caller-held bytes `B`. -/
def memOut {σ α : Type} (B : Nat) (g : α → Nat) : RunRes σ α → Prop
  | .ok a st' => st'.mem.used ≤ B + scopesBytes st'.scopes + g a
  | .err _ st' => st'.mem.used ≤ B + scopesBytes st'.scopes
  | .out => True

/-- The ledger contract of an evaluator call: entry bound in, exit
bound out, for every caller-held byte count. -/
def memRes {σ α : Type} (g : α → Nat) (own : Nat) (st : EvalState σ)
    (r : RunRes σ α) : Prop :=
  ∀ B, st.mem.used ≤ B + scopesBytes st.scopes + own → memOut B g r

@[simp] theorem pushScope_mem {σ : Type} (st : EvalState σ) :
    (pushScope st).mem = st.mem := rfl

@[simp] theorem pushScope_scopesBytes {σ : Type} (st : EvalState σ) :
    scopesBytes (pushScope st).scopes = scopesBytes st.scopes := by
  simp [pushScope, scopesBytes, scopeBytes]

theorem popScope_mem_le {σ : Type} (st : EvalState σ) (B X : Nat)
    (h : st.mem.used ≤ B + scopesBytes st.scopes + X) :
    (popScope st).mem.used ≤ B + scopesBytes (popScope st).scopes + X :=
  (popScope_consume st).le B X (by omega)

theorem defineVar_mem_le {σ : Type} (st : EvalState σ) (n : String) (v : Value)
    (B X : Nat) (h : st.mem.used ≤ B + scopesBytes st.scopes + bytesVal v + X) :
    (defineVar st n v).mem.used ≤ B + scopesBytes (defineVar st n v).scopes + X :=
  (defineVar_consume st n v).le B X (by omega)

theorem setVar_mem_le {σ : Type} (st : EvalState σ) (n : String) (v : Value)
    (B X : Nat) (h : st.mem.used ≤ B + scopesBytes st.scopes + bytesVal v + X) :
    (setVar st n v).1.mem.used ≤
      B + scopesBytes (setVar st n v).1.scopes + X :=
  (setVar_consume st n v).le B X (by omega)

theorem bindParams_mem_le {σ : Type} (ps : List String) (args : List Value)
    (st : EvalState σ) (hlen : ps.length = args.length) (B X : Nat)
    (h : st.mem.used ≤ B + scopesBytes st.scopes + bytesValList args + X) :
    (bindParams ps args st).mem.used ≤
      B + scopesBytes (bindParams ps args st).scopes + X :=
  (bindParams_consume ps args st hlen).le B X (by omega)

/-- A failing tick leaves the ledger and the scope stack unchanged. -/
theorem tick_err_mem {σ : Type} {H : Host σ} {line : Nat} {st st' : EvalState σ}
    {e : BopError} (h : tick H line st = .err e st') :
    st'.scopes = st.scopes ∧ st'.mem = st.mem := by
  simp only [tick] at h
  split at h
  · cases h
    exact ⟨rfl, rfl⟩
  · split at h
    · cases h
      exact ⟨rfl, rfl⟩
    · cases hot : H.onTick st.host with
      | mk h2 opt =>
          rw [hot] at h
          cases opt with
          | none => simp at h
          | some e2 =>
              cases h
              exact ⟨rfl, rfl⟩

/-- String interpolation never grows the ledger and never touches the
scope stack. -/
theorem interpParts_mem {σ : Type} (parts : List StringPart) (line : Nat)
    (acc : String) (st : EvalState σ) :
    (∀ r st', interpParts parts line acc st = .ok r st' →
      st'.mem.used ≤ st.mem.used ∧ st'.scopes = st.scopes) ∧
    (∀ e st', interpParts parts line acc st = .err e st' →
      st'.mem.used ≤ st.mem.used ∧ st'.scopes = st.scopes) := by
  induction parts generalizing acc st with
  | nil =>
      constructor
      · intro r st' h
        simp only [interpParts] at h
        cases h
        exact ⟨Nat.le_refl _, rfl⟩
      · intro e st' h
        simp only [interpParts] at h
        simp at h
  | cons p rest ih =>
      cases p with
      | literal s =>
          simp only [interpParts]
          exact ih (acc ++ s) st
      | «variable» name =>
          cases hv : getVar st name with
          | none =>
              constructor
              · intro r st' h
                simp only [interpParts, hv] at h
                simp at h
              · intro e st' h
                simp only [interpParts, hv] at h
                cases h
                exact ⟨Nat.le_refl _, rfl⟩
          | some v =>
              have hdrop :
                  (stDealloc (stAlloc st (bytesVal v)) (bytesVal v)).mem.used ≤
                    st.mem.used := by
                simp
              constructor
              · intro r st' h
                simp only [interpParts, hv] at h
                obtain ⟨ihok, iherr⟩ := ih (acc ++ displayVal v)
                  (stDealloc (stAlloc st (bytesVal v)) (bytesVal v))
                have h2 := ihok r st' h
                refine ⟨le_trans h2.1 hdrop, ?_⟩
                rw [h2.2]
                simp
              · intro e st' h
                simp only [interpParts, hv] at h
                obtain ⟨ihok, iherr⟩ := ih (acc ++ displayVal v)
                  (stDealloc (stAlloc st (bytesVal v)) (bytesVal v))
                have h2 := iherr e st' h
                refine ⟨le_trans h2.1 hdrop, ?_⟩
                rw [h2.2]
                simp

/-- `finishBuiltin` turns a value-level ledger bound into the call
contract: the borrowed argument vector is dropped on the way out. -/
theorem finishBuiltin_mem {σ : Type} (st : EvalState σ) (args : List Value)
    (r : MResult Value)
    (hok : ∀ v, r.res = .ok v → r.mem.used ≤ st.mem.used + bytesVal v)
    (herr : ∀ e, r.res = .error e → r.mem.used ≤ st.mem.used) :
    memRes bytesVal (bytesValList args) st (finishBuiltin st args r) := by
  intro B hB
  unfold finishBuiltin
  cases hr : r.res with
  | ok v =>
      have hb := hok v hr
      simp only [memOut]
      simp
      omega
  | error e =>
      have hb := herr e hr
      simp only [memOut]
      simp
      omega

/-! ## Ledger conservation: built-in function bounds -/

theorem builtinStr_mem (args : List Value) (line : Nat) (m : Mem) :
    (∀ v, (builtinStr args line m).res = .ok v →
      (builtinStr args line m).mem.used ≤ m.used + bytesVal v) ∧
    (∀ e, (builtinStr args line m).res = .error e →
      (builtinStr args line m).mem.used ≤ m.used) := by
  constructor <;> intro x <;>
    simp only [builtinStr] <;>
    (repeat' split) <;>
    intro hx <;>
    first
      | (injection hx
         done)
      | (injection hx with h
         subst h
         simp [bytesVal]
         try omega
         done)
      | (simp at hx
         done)
      | (simp
         try omega
         done)
      | omega

theorem builtinInt_mem (args : List Value) (line : Nat) (m : Mem) :
    (∀ v, (builtinInt args line m).res = .ok v →
      (builtinInt args line m).mem.used ≤ m.used + bytesVal v) ∧
    (∀ e, (builtinInt args line m).res = .error e →
      (builtinInt args line m).mem.used ≤ m.used) := by
  constructor <;> intro x <;>
    simp only [builtinInt] <;>
    (repeat' split) <;>
    intro hx <;>
    first
      | (injection hx
         done)
      | (injection hx with h
         subst h
         simp [bytesVal]
         try omega
         done)
      | (simp at hx
         done)
      | (simp
         try omega
         done)
      | omega

theorem builtinType_mem (args : List Value) (line : Nat) (m : Mem) :
    (∀ v, (builtinType args line m).res = .ok v →
      (builtinType args line m).mem.used ≤ m.used + bytesVal v) ∧
    (∀ e, (builtinType args line m).res = .error e →
      (builtinType args line m).mem.used ≤ m.used) := by
  constructor <;> intro x <;>
    simp only [builtinType] <;>
    (repeat' split) <;>
    intro hx <;>
    first
      | (injection hx
         done)
      | (injection hx with h
         subst h
         simp [bytesVal]
         try omega
         done)
      | (simp at hx
         done)
      | (simp
         try omega
         done)
      | omega

theorem builtinAbs_mem (args : List Value) (line : Nat) (m : Mem) :
    (∀ v, (builtinAbs args line m).res = .ok v →
      (builtinAbs args line m).mem.used ≤ m.used + bytesVal v) ∧
    (∀ e, (builtinAbs args line m).res = .error e →
      (builtinAbs args line m).mem.used ≤ m.used) := by
  constructor <;> intro x <;>
    simp only [builtinAbs] <;>
    (repeat' split) <;>
    intro hx <;>
    first
      | (injection hx
         done)
      | (injection hx with h
         subst h
         simp [bytesVal]
         try omega
         done)
      | (simp at hx
         done)
      | (simp
         try omega
         done)
      | omega

theorem builtinMin_mem (args : List Value) (line : Nat) (m : Mem) :
    (∀ v, (builtinMin args line m).res = .ok v →
      (builtinMin args line m).mem.used ≤ m.used + bytesVal v) ∧
    (∀ e, (builtinMin args line m).res = .error e →
      (builtinMin args line m).mem.used ≤ m.used) := by
  constructor <;> intro x <;>
    simp only [builtinMin] <;>
    (repeat' split) <;>
    intro hx <;>
    first
      | (injection hx
         done)
      | (injection hx with h
         subst h
         simp [bytesVal]
         try omega
         done)
      | (simp at hx
         done)
      | (simp
         try omega
         done)
      | omega

theorem builtinMax_mem (args : List Value) (line : Nat) (m : Mem) :
    (∀ v, (builtinMax args line m).res = .ok v →
      (builtinMax args line m).mem.used ≤ m.used + bytesVal v) ∧
    (∀ e, (builtinMax args line m).res = .error e →
      (builtinMax args line m).mem.used ≤ m.used) := by
  constructor <;> intro x <;>
    simp only [builtinMax] <;>
    (repeat' split) <;>
    intro hx <;>
    first
      | (injection hx
         done)
      | (injection hx with h
         subst h
         simp [bytesVal]
         try omega
         done)
      | (simp at hx
         done)
      | (simp
         try omega
         done)
      | omega

theorem builtinLen_mem (args : List Value) (line : Nat) (m : Mem) :
    (∀ v, (builtinLen args line m).res = .ok v →
      (builtinLen args line m).mem.used ≤ m.used + bytesVal v) ∧
    (∀ e, (builtinLen args line m).res = .error e →
      (builtinLen args line m).mem.used ≤ m.used) := by
  constructor <;> intro x <;>
    simp only [builtinLen] <;>
    (repeat' split) <;>
    intro hx <;>
    first
      | (injection hx
         done)
      | (injection hx with h
         subst h
         simp [bytesVal]
         try omega
         done)
      | (simp at hx
         done)
      | (simp
         try omega
         done)
      | omega

theorem builtinInspect_mem (args : List Value) (line : Nat) (m : Mem) :
    (∀ v, (builtinInspect args line m).res = .ok v →
      (builtinInspect args line m).mem.used ≤ m.used + bytesVal v) ∧
    (∀ e, (builtinInspect args line m).res = .error e →
      (builtinInspect args line m).mem.used ≤ m.used) := by
  constructor <;> intro x <;>
    simp only [builtinInspect] <;>
    (repeat' split) <;>
    intro hx <;>
    first
      | (injection hx
         done)
      | (injection hx with h
         subst h
         simp [bytesVal]
         try omega
         done)
      | (simp at hx
         done)
      | (simp
         try omega
         done)
      | omega

theorem builtinRange_mem (args : List Value) (line : Nat) (rs : Nat) (m : Mem) :
    (∀ v, (builtinRange args line rs m).res = .ok v →
      (builtinRange args line rs m).mem.used ≤ m.used + bytesVal v) ∧
    (∀ e, (builtinRange args line rs m).res = .error e →
      (builtinRange args line rs m).mem.used ≤ m.used) := by
  constructor <;> intro x <;>
    simp only [builtinRange] <;>
    (repeat' split) <;>
    intro hx <;>
    first
      | (injection hx
         done)
      | (injection hx with h
         subst h
         simp [bytesVal, bytesValList_map_number, List.length_map]
         try omega
         done)
      | (simp at hx
         done)
      | (simp
         try omega
         done)
      | omega

theorem builtinRand_mem (args : List Value) (line : Nat) (rs : Nat) (m : Mem) :
    (∀ v, (builtinRand args line rs m).1.res = .ok v →
      (builtinRand args line rs m).1.mem.used ≤ m.used + bytesVal v) ∧
    (∀ e, (builtinRand args line rs m).1.res = .error e →
      (builtinRand args line rs m).1.mem.used ≤ m.used) := by
  constructor <;> intro x <;>
    simp only [builtinRand] <;>
    (repeat' split) <;>
    intro hx <;>
    first
      | (injection hx
         done)
      | (injection hx with h
         subst h
         simp [bytesVal]
         try omega
         done)
      | (simp at hx
         done)
      | (simp
         try omega
         done)
      | omega

/-! ## Ledger conservation: indexed-write bounds -/

/-- `set_key` exchanges the old entry footprint for the new one (plus
key and slot growth on insert), never increasing the ledger beyond the
replaced dict's footprint. -/
theorem setKey_mem (entries : List (String × Value)) (key : String) (v : Value)
    (m : Mem) :
    ∀ C, m.used ≤ C + bytesValDict entries + entries.length * sizeofPair +
        bytesVal v →
      (setKey entries key v m).2.used ≤
        C + bytesValDict (setKey entries key v m).1 +
          (setKey entries key v m).1.length * sizeofPair := by
  induction entries generalizing m with
  | nil =>
      intro C h
      simp only [setKey, bytesValDict, List.length_cons, List.length_nil,
        sizeofPair] at h ⊢
      simp
      omega
  | cons e rest ih =>
      obtain ⟨k, v0⟩ := e
      intro C h
      simp only [setKey]
      split
      · simp only [bytesValDict, List.length_cons, sizeofPair] at h ⊢
        simp
        omega
      · simp only [bytesValDict, List.length_cons, sizeofPair] at h ⊢
        have ih2 := ih m (C + k.utf8ByteSize + bytesVal v0 + 56)
        simp only [sizeofPair] at ih2
        have := ih2 (by omega)
        omega

/-- `set_index` consumes the stored value and the replaced object (on
success: exchanging it for the written object; on failure: dropping the
value). -/
theorem setIndex_mem (obj idx v : Value) (line : Nat) (m : Mem) :
    (∀ nv, (setIndex obj idx v line m).res = .ok nv →
      ∀ C, m.used ≤ C + bytesVal obj + bytesVal v →
        (setIndex obj idx v line m).mem.used ≤ C + bytesVal nv) ∧
    (∀ e, (setIndex obj idx v line m).res = .error e →
      ∀ C, m.used ≤ C + bytesVal v →
        (setIndex obj idx v line m).mem.used ≤ C) := by
  constructor <;> intro x <;>
    cases obj <;> cases idx <;>
    simp only [setIndex] <;>
    (repeat' split) <;>
    intro hx <;>
    first
      | (injection hx
         done)
      | (injection hx with h
         subst h
         rename_i hlt
         intro C hC
         have hset := bytesValList_set _ _ v hlt
         simp only [bytesVal, memDealloc_used, List.length_set, sizeofValue]
           at hC ⊢
         omega)
      | (injection hx with h
         subst h
         intro C hC
         rename_i entries key
         simp only [bytesVal, sizeofPair] at hC ⊢
         have hsk := setKey_mem entries key v m C (by simp only [sizeofPair]; omega)
         simp only [sizeofPair] at hsk
         omega)
      | (injection hx with h
         subst h
         intro C hC
         simp only [bytesVal] at hC ⊢
         simp
         omega)
      | (simp at hx
         done)
      | (intro C hC
         simp [bytesVal] at hC ⊢
         try omega
         done)
      | omega

/-! ## Ledger conservation: the induction over fuel -/

/-- The ledger contract at a given fuel: one conjunct per evaluator
function, each with the footprint of its returned value and of the
arguments whose ownership moves into the call. -/
def allMem {σ : Type} (H : Host σ) (fuel : Nat) : Prop :=
  (∀ (stmts : List Stmt) (st : EvalState σ),
    memRes bytesSignal 0 st (execBlock H fuel stmts st)) ∧
  (∀ (stmt : Stmt) (st : EvalState σ),
    memRes bytesSignal 0 st (execStmt H fuel stmt st)) ∧
  (∀ (elifs : List (Expr × List Stmt)) (elseB : Option (List Stmt))
      (st : EvalState σ),
    memRes bytesSignal 0 st (execIfChain H fuel elifs elseB st)) ∧
  (∀ (line : Nat) (cond : Expr) (body : List Stmt) (st : EvalState σ),
    memRes bytesSignal 0 st (whileLoop H fuel line cond body st)) ∧
  (∀ (line count : Nat) (body : List Stmt) (st : EvalState σ),
    memRes bytesSignal 0 st (repeatLoop H fuel line count body st)) ∧
  (∀ (line : Nat) (v : String) (items : List Value) (body : List Stmt)
      (st : EvalState σ),
    memRes bytesSignal (bytesValList items) st
      (forLoop H fuel line v items body st)) ∧
  (∀ (target : AssignTarget) (op : AssignOp) (nv : Value) (line : Nat)
      (st : EvalState σ),
    memRes (fun _ => 0) (bytesVal nv) st
      (execAssign H fuel target op nv line st)) ∧
  (∀ (object : Expr) (idx valToSet : Value) (pending line : Nat)
      (st : EvalState σ),
    memRes (fun _ => 0) (bytesVal valToSet + bytesVal idx + pending) st
      (execAssignIndexStore H fuel object idx valToSet pending line st)) ∧
  (∀ (e : Expr) (st : EvalState σ),
    memRes bytesVal 0 st (evalExpr H fuel e st)) ∧
  (∀ (es : List Expr) (st : EvalState σ),
    memRes bytesValList 0 st (evalExprList H fuel es st)) ∧
  (∀ (entries : List (String × Expr)) (st : EvalState σ),
    memRes bytesEntryVals 0 st (evalDictEntries H fuel entries st)) ∧
  (∀ (name : String) (args : List Value) (line : Nat) (st : EvalState σ),
    memRes bytesVal (bytesValList args) st (callFunction H fuel name args line st))

/-- At fuel 0 every evaluator function returns the out-of-fuel marker,
for which the exit bound is vacuous. -/
theorem allMem_zero {σ : Type} (H : Host σ) : allMem H 0 := by
  refine ⟨?_, ?_, ?_, ?_, ?_, ?_, ?_, ?_, ?_, ?_, ?_, ?_⟩ <;>
    (intros
     intro B hB
     simp [execBlock, execStmt, execIfChain, whileLoop, repeatLoop, forLoop,
       execAssign, execAssignIndexStore, evalExpr, evalExprList, evalDictEntries,
       callFunction, memOut])

theorem memStep_execBlock {σ : Type} {H : Host σ} {f : Nat} (ih : allMem H f)
    (stmts : List Stmt) (st : EvalState σ) :
    memRes bytesSignal 0 st (execBlock H (f + 1) stmts st) := by
  obtain ⟨ihB, ihS, ihC, ihW, ihR, ihF, ihA, ihI, ihE, ihL, ihD, ihK⟩ := ih
  intro B hB
  cases stmts with
  | nil =>
      simp only [execBlock, memOut, bytesSignal]
      omega
  | cons s rest =>
      simp only [execBlock]
      have h1 := ihS s st B hB
      cases hres : execStmt H f s st with
      | ok sig st1 =>
          rw [hres] at h1
          simp only [memOut] at h1
          cases sig with
          | none => exact ihB rest st1 B (by simpa [bytesSignal] using h1)
          | brk => exact h1
          | cont => exact h1
          | ret v => exact h1
      | err e st1 =>
          rw [hres] at h1
          exact h1
      | out => trivial

theorem memStep_execIfChain {σ : Type} {H : Host σ} {f : Nat} (ih : allMem H f)
    (elifs : List (Expr × List Stmt)) (elseB : Option (List Stmt))
    (st : EvalState σ) :
    memRes bytesSignal 0 st (execIfChain H (f + 1) elifs elseB st) := by
  obtain ⟨ihB, ihS, ihC, ihW, ihR, ihF, ihA, ihI, ihE, ihL, ihD, ihK⟩ := ih
  intro B hB
  cases elifs with
  | nil =>
      cases elseB with
      | none =>
          simp only [execIfChain, memOut, bytesSignal]
          omega
      | some eb =>
          simp only [execIfChain]
          have h1 := ihB eb (pushScope st) B (by simpa using hB)
          cases hres : execBlock H f eb (pushScope st) with
          | ok sig st1 =>
              rw [hres] at h1
              simp only [memOut] at h1 ⊢
              exact popScope_mem_le st1 B (bytesSignal sig) h1
          | err e st1 =>
              rw [hres] at h1
              exact h1
          | out => trivial
  | cons cb rest =>
      obtain ⟨c, b⟩ := cb
      simp only [execIfChain]
      have h1 := ihE c st B hB
      cases hres : evalExpr H f c st with
      | ok cv st1 =>
          simp only [hres]
          rw [hres] at h1
          simp only [memOut] at h1
          have h2 : (stDealloc st1 (bytesVal cv)).mem.used ≤
              B + scopesBytes (stDealloc st1 (bytesVal cv)).scopes + 0 := by
            simp
            omega
          cases hc : isTruthy cv
          · rw [if_neg (by simp)]
            exact ihC rest elseB (stDealloc st1 (bytesVal cv)) B h2
          · rw [if_pos rfl]
            have h3 := ihB b (pushScope (stDealloc st1 (bytesVal cv))) B
              (by simpa using h2)
            cases hres2 : execBlock H f b (pushScope (stDealloc st1 (bytesVal cv))) with
            | ok sig st3 =>
                rw [hres2] at h3
                simp only [memOut] at h3 ⊢
                exact popScope_mem_le st3 B (bytesSignal sig) h3
            | err e2 st3 =>
                rw [hres2] at h3
                exact h3
            | out => trivial
      | err e2 st1 =>
          rw [hres] at h1
          exact h1
      | out => trivial

theorem memStep_whileLoop {σ : Type} {H : Host σ} {f : Nat} (ih : allMem H f)
    (line : Nat) (cond : Expr) (body : List Stmt) (st : EvalState σ) :
    memRes bytesSignal 0 st (whileLoop H (f + 1) line cond body st) := by
  obtain ⟨ihB, ihS, ihC, ihW, ihR, ihF, ihA, ihI, ihE, ihL, ihD, ihK⟩ := ih
  intro B hB
  simp only [whileLoop]
  cases ht : tick H line st with
  | err e st1 =>
      simp only [ht]
      obtain ⟨hsc, hmem⟩ := tick_err_mem ht
      simp only [memOut]
      rw [hmem, hsc]
      omega
  | out => trivial
  | ok u st1 =>
      simp only [ht]
      obtain ⟨_, _, _, _, _, hsc, hmem⟩ := tick_ok_shape H line st st1 u ht
      have hB1 : st1.mem.used ≤ B + scopesBytes st1.scopes + 0 := by
        rw [hmem, hsc]
        omega
      have h1 := ihE cond st1 B hB1
      cases hres : evalExpr H f cond st1 with
      | ok cv st2 =>
          simp only [hres]
          rw [hres] at h1
          simp only [memOut] at h1
          have h2 : (stDealloc st2 (bytesVal cv)).mem.used ≤
              B + scopesBytes (stDealloc st2 (bytesVal cv)).scopes + 0 := by
            simp
            omega
          cases hc : isTruthy cv
          · rw [if_neg (by simp)]
            simp only [memOut, bytesSignal]
            omega
          · rw [if_pos rfl]
            have h3 := ihB body (pushScope (stDealloc st2 (bytesVal cv))) B
              (by simpa using h2)
            cases hres2 : execBlock H f body
                (pushScope (stDealloc st2 (bytesVal cv))) with
            | ok sig st4 =>
                simp only [hres2]
                rw [hres2] at h3
                simp only [memOut] at h3
                have h5 := popScope_mem_le st4 B (bytesSignal sig) h3
                cases sig with
                | brk =>
                    simp only [memOut, bytesSignal]
                    simp only [bytesSignal] at h5
                    omega
                | ret v =>
                    simp only [memOut]
                    simpa [bytesSignal] using h5
                | none =>
                    exact ihW line cond body (popScope st4) B
                      (by simp only [bytesSignal] at h5; omega)
                | cont =>
                    exact ihW line cond body (popScope st4) B
                      (by simp only [bytesSignal] at h5; omega)
            | err e2 st4 =>
                rw [hres2] at h3
                exact h3
            | out => trivial
      | err e2 st2 =>
          rw [hres] at h1
          exact h1
      | out => trivial

theorem memStep_repeatLoop {σ : Type} {H : Host σ} {f : Nat} (ih : allMem H f)
    (line count : Nat) (body : List Stmt) (st : EvalState σ) :
    memRes bytesSignal 0 st (repeatLoop H (f + 1) line count body st) := by
  obtain ⟨ihB, ihS, ihC, ihW, ihR, ihF, ihA, ihI, ihE, ihL, ihD, ihK⟩ := ih
  intro B hB
  cases count with
  | zero =>
      simp only [repeatLoop, memOut, bytesSignal]
      omega
  | succ k =>
      simp only [repeatLoop]
      cases ht : tick H line st with
      | err e st1 =>
          simp only [ht]
          obtain ⟨hsc, hmem⟩ := tick_err_mem ht
          simp only [memOut]
          rw [hmem, hsc]
          omega
      | out => trivial
      | ok u st1 =>
          simp only [ht]
          obtain ⟨_, _, _, _, _, hsc, hmem⟩ := tick_ok_shape H line st st1 u ht
          have hB1 : (pushScope st1).mem.used ≤
              B + scopesBytes (pushScope st1).scopes + 0 := by
            simp [hmem, hsc]
            omega
          have h3 := ihB body (pushScope st1) B hB1
          cases hres : execBlock H f body (pushScope st1) with
          | ok sig st2 =>
              simp only [hres]
              rw [hres] at h3
              simp only [memOut] at h3
              have h5 := popScope_mem_le st2 B (bytesSignal sig) h3
              cases sig with
              | brk =>
                  simp only [memOut, bytesSignal]
                  simp only [bytesSignal] at h5
                  omega
              | ret v =>
                  simp only [memOut]
                  simpa [bytesSignal] using h5
              | none =>
                  exact ihR line k body (popScope st2) B
                    (by simp only [bytesSignal] at h5; omega)
              | cont =>
                  exact ihR line k body (popScope st2) B
                    (by simp only [bytesSignal] at h5; omega)
          | err e st2 =>
              rw [hres] at h3
              exact h3
          | out => trivial

theorem memStep_forLoop {σ : Type} {H : Host σ} {f : Nat} (ih : allMem H f)
    (line : Nat) (var : String) (items : List Value) (body : List Stmt)
    (st : EvalState σ) :
    memRes bytesSignal (bytesValList items) st
      (forLoop H (f + 1) line var items body st) := by
  obtain ⟨ihB, ihS, ihC, ihW, ihR, ihF, ihA, ihI, ihE, ihL, ihD, ihK⟩ := ih
  intro B hB
  cases items with
  | nil =>
      simp only [bytesValList] at hB
      simp only [forLoop, memOut, bytesSignal]
      omega
  | cons item rest =>
      simp only [bytesValList] at hB
      simp only [forLoop]
      cases ht : tick H line st with
      | err e st1 =>
          simp only [ht]
          obtain ⟨hsc, hmem⟩ := tick_err_mem ht
          simp only [memOut, stDealloc_mem_used, stDealloc_scopes]
          rw [hmem, hsc]
          omega
      | out => trivial
      | ok u st1 =>
          simp only [ht]
          obtain ⟨_, _, _, _, _, hsc, hmem⟩ := tick_ok_shape H line st st1 u ht
          have hD := defineVar_mem_le (pushScope st1) var item
            (B + bytesValList rest) 0 (by simp [hmem, hsc]; omega)
          have h3 := ihB body (defineVar (pushScope st1) var item)
            (B + bytesValList rest) (by simpa using hD)
          cases hres : execBlock H f body (defineVar (pushScope st1) var item) with
          | ok sig st2 =>
              simp only [hres]
              rw [hres] at h3
              simp only [memOut] at h3
              have h5 := popScope_mem_le st2 (B + bytesValList rest)
                (bytesSignal sig) h3
              cases sig with
              | brk =>
                  simp only [memOut, bytesSignal, stDealloc_mem_used,
                    stDealloc_scopes]
                  simp only [bytesSignal] at h5
                  omega
              | ret v =>
                  simp only [memOut, bytesSignal, stDealloc_mem_used,
                    stDealloc_scopes]
                  simp only [bytesSignal] at h5
                  omega
              | none =>
                  exact ihF line var rest body (popScope st2) B
                    (by simp only [bytesSignal] at h5; omega)
              | cont =>
                  exact ihF line var rest body (popScope st2) B
                    (by simp only [bytesSignal] at h5; omega)
          | err e st2 =>
              simp only [hres]
              rw [hres] at h3
              simp only [memOut] at h3
              simp only [memOut, stDealloc_mem_used, stDealloc_scopes]
              omega
          | out => trivial

theorem memStep_evalExprList {σ : Type} {H : Host σ} {f : Nat} (ih : allMem H f)
    (es : List Expr) (st : EvalState σ) :
    memRes bytesValList 0 st (evalExprList H (f + 1) es st) := by
  obtain ⟨ihB, ihS, ihC, ihW, ihR, ihF, ihA, ihI, ihE, ihL, ihD, ihK⟩ := ih
  intro B hB
  cases es with
  | nil =>
      simp only [evalExprList, memOut, bytesValList]
      omega
  | cons e rest =>
      simp only [evalExprList]
      have h1 := ihE e st B hB
      cases hres : evalExpr H f e st with
      | ok v st1 =>
          simp only [hres]
          rw [hres] at h1
          simp only [memOut] at h1
          have h2 := ihL rest st1 (B + bytesVal v) (by omega)
          cases hres2 : evalExprList H f rest st1 with
          | ok vs st2 =>
              simp only [hres2]
              rw [hres2] at h2
              simp only [memOut] at h2
              simp only [memOut, bytesValList]
              omega
          | err e2 st2 =>
              simp only [hres2]
              rw [hres2] at h2
              simp only [memOut] at h2
              simp only [memOut, stDealloc_mem_used, stDealloc_scopes]
              omega
          | out => trivial
      | err e2 st1 =>
          rw [hres] at h1
          exact h1
      | out => trivial

theorem memStep_evalDictEntries {σ : Type} {H : Host σ} {f : Nat}
    (ih : allMem H f) (entries : List (String × Expr)) (st : EvalState σ) :
    memRes bytesEntryVals 0 st (evalDictEntries H (f + 1) entries st) := by
  obtain ⟨ihB, ihS, ihC, ihW, ihR, ihF, ihA, ihI, ihE, ihL, ihD, ihK⟩ := ih
  intro B hB
  cases entries with
  | nil =>
      simp only [evalDictEntries, memOut, bytesEntryVals]
      omega
  | cons ke rest =>
      obtain ⟨k, e⟩ := ke
      simp only [evalDictEntries]
      have h1 := ihE e st B hB
      cases hres : evalExpr H f e st with
      | ok v st1 =>
          simp only [hres]
          rw [hres] at h1
          simp only [memOut] at h1
          have h2 := ihD rest st1 (B + bytesVal v) (by omega)
          cases hres2 : evalDictEntries H f rest st1 with
          | ok pairs st2 =>
              simp only [hres2]
              rw [hres2] at h2
              simp only [memOut] at h2
              simp only [memOut, bytesEntryVals]
              omega
          | err e2 st2 =>
              simp only [hres2]
              rw [hres2] at h2
              simp only [memOut] at h2
              simp only [memOut, stDealloc_mem_used, stDealloc_scopes]
              omega
          | out => trivial
      | err e2 st1 =>
          rw [hres] at h1
          exact h1
      | out => trivial

/-- Exit bound of an error result that drops `d` owned bytes. -/
theorem err_dealloc_memOut {σ α : Type} {g : α → Nat} (st : EvalState σ)
    (e : BopError) (B d : Nat)
    (h : st.mem.used ≤ B + scopesBytes st.scopes + d) :
    memOut B g (RunRes.err e (stDealloc st d)) := by
  simp only [memOut, stDealloc_mem_used, stDealloc_scopes]
  omega

/-- Exit bound of `set_var`'s two outcomes (the moved-in value is
consumed either way). -/
theorem setVar_memOut {σ : Type} (st : EvalState σ) (name : String) (v : Value)
    (B : Nat) (e : BopError)
    (h : st.mem.used ≤ B + scopesBytes st.scopes + bytesVal v) :
    memOut B (fun _ : Unit => 0)
      (if (setVar st name v).2 then RunRes.ok () (setVar st name v).1
       else RunRes.err e (setVar st name v).1) := by
  have hs := setVar_mem_le st name v B 0 (by omega)
  split
  · simp only [memOut]
    omega
  · simp only [memOut]
    omega

/-- Exit bound of the index-store tail: write the new object back and
drop `d` owned bytes. -/
theorem setVar_dealloc_memOut {σ : Type} (st : EvalState σ) (name : String)
    (v : Value) (B d : Nat)
    (h : st.mem.used ≤ B + scopesBytes st.scopes + bytesVal v + d) :
    memOut B (fun _ : Unit => 0)
      (RunRes.ok () (stDealloc (setVar st name v).1 d)) := by
  have hs := setVar_mem_le st name v B d h
  simp only [memOut, stDealloc_mem_used, stDealloc_scopes]
  omega

set_option maxHeartbeats 1600000 in
theorem memStep_execAssign {σ : Type} {H : Host σ} {f : Nat} (ih : allMem H f)
    (target : AssignTarget) (op : AssignOp) (nv : Value) (line : Nat)
    (st : EvalState σ) :
    memRes (fun _ => 0) (bytesVal nv) st
      (execAssign H (f + 1) target op nv line st) := by
  obtain ⟨ihB, ihS, ihC, ihW, ihR, ihF, ihA, ihI, ihE, ihL, ihD, ihK⟩ := ih
  intro B hB
  cases target with
  | «variable» name =>
      cases op
      case eq =>
          simp only [execAssign]
          refine setVar_memOut _ name nv B _ ?_
          omega
      case addEq =>
          simp only [execAssign]
          cases hv : getVar st name with
          | none =>
              refine err_dealloc_memOut _ _ _ _ ?_
              omega
          | some current =>
              simp only [hv]
              obtain ⟨hCok, hCerr⟩ := applyCompoundOp_mem current .addEq nv line
                (stAlloc st (bytesVal current)).mem
              cases hrc : (applyCompoundOp current .addEq nv line
                  (stAlloc st (bytesVal current)).mem).res with
              | error e =>
                  simp only [hrc]
                  have hb := hCerr e hrc
                  simp only [stAlloc_mem_used] at hb
                  simp only [memOut]
                  simp
                  omega
              | ok finalVal =>
                  simp only [hrc]
                  have hb := hCok finalVal hrc
                  simp only [stAlloc_mem_used] at hb
                  refine setVar_memOut _ name finalVal B _ ?_
                  simp
                  omega
      case subEq =>
          simp only [execAssign]
          cases hv : getVar st name with
          | none =>
              refine err_dealloc_memOut _ _ _ _ ?_
              omega
          | some current =>
              simp only [hv]
              obtain ⟨hCok, hCerr⟩ := applyCompoundOp_mem current .subEq nv line
                (stAlloc st (bytesVal current)).mem
              cases hrc : (applyCompoundOp current .subEq nv line
                  (stAlloc st (bytesVal current)).mem).res with
              | error e =>
                  simp only [hrc]
                  have hb := hCerr e hrc
                  simp only [stAlloc_mem_used] at hb
                  simp only [memOut]
                  simp
                  omega
              | ok finalVal =>
                  simp only [hrc]
                  have hb := hCok finalVal hrc
                  simp only [stAlloc_mem_used] at hb
                  refine setVar_memOut _ name finalVal B _ ?_
                  simp
                  omega
      case mulEq =>
          simp only [execAssign]
          cases hv : getVar st name with
          | none =>
              refine err_dealloc_memOut _ _ _ _ ?_
              omega
          | some current =>
              simp only [hv]
              obtain ⟨hCok, hCerr⟩ := applyCompoundOp_mem current .mulEq nv line
                (stAlloc st (bytesVal current)).mem
              cases hrc : (applyCompoundOp current .mulEq nv line
                  (stAlloc st (bytesVal current)).mem).res with
              | error e =>
                  simp only [hrc]
                  have hb := hCerr e hrc
                  simp only [stAlloc_mem_used] at hb
                  simp only [memOut]
                  simp
                  omega
              | ok finalVal =>
                  simp only [hrc]
                  have hb := hCok finalVal hrc
                  simp only [stAlloc_mem_used] at hb
                  refine setVar_memOut _ name finalVal B _ ?_
                  simp
                  omega
      case divEq =>
          simp only [execAssign]
          cases hv : getVar st name with
          | none =>
              refine err_dealloc_memOut _ _ _ _ ?_
              omega
          | some current =>
              simp only [hv]
              obtain ⟨hCok, hCerr⟩ := applyCompoundOp_mem current .divEq nv line
                (stAlloc st (bytesVal current)).mem
              cases hrc : (applyCompoundOp current .divEq nv line
                  (stAlloc st (bytesVal current)).mem).res with
              | error e =>
                  simp only [hrc]
                  have hb := hCerr e hrc
                  simp only [stAlloc_mem_used] at hb
                  simp only [memOut]
                  simp
                  omega
              | ok finalVal =>
                  simp only [hrc]
                  have hb := hCok finalVal hrc
                  simp only [stAlloc_mem_used] at hb
                  refine setVar_memOut _ name finalVal B _ ?_
                  simp
                  omega
      case modEq =>
          simp only [execAssign]
          cases hv : getVar st name with
          | none =>
              refine err_dealloc_memOut _ _ _ _ ?_
              omega
          | some current =>
              simp only [hv]
              obtain ⟨hCok, hCerr⟩ := applyCompoundOp_mem current .modEq nv line
                (stAlloc st (bytesVal current)).mem
              cases hrc : (applyCompoundOp current .modEq nv line
                  (stAlloc st (bytesVal current)).mem).res with
              | error e =>
                  simp only [hrc]
                  have hb := hCerr e hrc
                  simp only [stAlloc_mem_used] at hb
                  simp only [memOut]
                  simp
                  omega
              | ok finalVal =>
                  simp only [hrc]
                  have hb := hCok finalVal hrc
                  simp only [stAlloc_mem_used] at hb
                  refine setVar_memOut _ name finalVal B _ ?_
                  simp
                  omega
  | index object index =>
      simp only [execAssign]
      have h1 := ihE index st (B + bytesVal nv) (by omega)
      cases hres : evalExpr H f index st with
      | err e st1 =>
          simp only [hres]
          rw [hres] at h1
          simp only [memOut] at h1
          refine err_dealloc_memOut _ _ _ _ ?_
          omega
      | out => trivial
      | ok idx st1 =>
          simp only [hres]
          rw [hres] at h1
          simp only [memOut] at h1
          cases op
          case eq =>
              exact ihI object idx nv 0 line st1 B (by omega)
          case addEq =>
              have h2 := ihE object st1 (B + bytesVal nv + bytesVal idx)
                (by omega)
              cases hres2 : evalExpr H f object st1 with
              | err e st2 =>
                  simp only [hres2]
                  rw [hres2] at h2
                  simp only [memOut] at h2
                  refine err_dealloc_memOut _ _ _ _ ?_
                  omega
              | out => trivial
              | ok obj st2 =>
                  simp only [hres2]
                  rw [hres2] at h2
                  simp only [memOut] at h2
                  obtain ⟨hIok, hIerr⟩ := indexInto_mem obj idx line st2.mem
                  cases hri : (indexInto obj idx line st2.mem).res with
                  | error e =>
                      simp only [hri]
                      have hb := hIerr e hri
                      refine err_dealloc_memOut _ _ _ _ ?_
                      simp
                      omega
                  | ok current =>
                      simp only [hri]
                      have hb := hIok current hri
                      obtain ⟨hCok, hCerr⟩ := applyCompoundOp_mem current
                        .addEq nv line (indexInto obj idx line st2.mem).mem
                      cases hrc : (applyCompoundOp current .addEq nv line
                          (indexInto obj idx line st2.mem).mem).res with
                      | error e =>
                          simp only [hrc]
                          have hb2 := hCerr e hrc
                          refine err_dealloc_memOut _ _ _ _ ?_
                          simp
                          omega
                      | ok valToSet =>
                          simp only [hrc]
                          have hb2 := hCok valToSet hrc
                          refine ihI object idx valToSet (bytesVal nv) line _ B ?_
                          simp
                          omega
          case subEq =>
              have h2 := ihE object st1 (B + bytesVal nv + bytesVal idx)
                (by omega)
              cases hres2 : evalExpr H f object st1 with
              | err e st2 =>
                  simp only [hres2]
                  rw [hres2] at h2
                  simp only [memOut] at h2
                  refine err_dealloc_memOut _ _ _ _ ?_
                  omega
              | out => trivial
              | ok obj st2 =>
                  simp only [hres2]
                  rw [hres2] at h2
                  simp only [memOut] at h2
                  obtain ⟨hIok, hIerr⟩ := indexInto_mem obj idx line st2.mem
                  cases hri : (indexInto obj idx line st2.mem).res with
                  | error e =>
                      simp only [hri]
                      have hb := hIerr e hri
                      refine err_dealloc_memOut _ _ _ _ ?_
                      simp
                      omega
                  | ok current =>
                      simp only [hri]
                      have hb := hIok current hri
                      obtain ⟨hCok, hCerr⟩ := applyCompoundOp_mem current
                        .subEq nv line (indexInto obj idx line st2.mem).mem
                      cases hrc : (applyCompoundOp current .subEq nv line
                          (indexInto obj idx line st2.mem).mem).res with
                      | error e =>
                          simp only [hrc]
                          have hb2 := hCerr e hrc
                          refine err_dealloc_memOut _ _ _ _ ?_
                          simp
                          omega
                      | ok valToSet =>
                          simp only [hrc]
                          have hb2 := hCok valToSet hrc
                          refine ihI object idx valToSet (bytesVal nv) line _ B ?_
                          simp
                          omega
          case mulEq =>
              have h2 := ihE object st1 (B + bytesVal nv + bytesVal idx)
                (by omega)
              cases hres2 : evalExpr H f object st1 with
              | err e st2 =>
                  simp only [hres2]
                  rw [hres2] at h2
                  simp only [memOut] at h2
                  refine err_dealloc_memOut _ _ _ _ ?_
                  omega
              | out => trivial
              | ok obj st2 =>
                  simp only [hres2]
                  rw [hres2] at h2
                  simp only [memOut] at h2
                  obtain ⟨hIok, hIerr⟩ := indexInto_mem obj idx line st2.mem
                  cases hri : (indexInto obj idx line st2.mem).res with
                  | error e =>
                      simp only [hri]
                      have hb := hIerr e hri
                      refine err_dealloc_memOut _ _ _ _ ?_
                      simp
                      omega
                  | ok current =>
                      simp only [hri]
                      have hb := hIok current hri
                      obtain ⟨hCok, hCerr⟩ := applyCompoundOp_mem current
                        .mulEq nv line (indexInto obj idx line st2.mem).mem
                      cases hrc : (applyCompoundOp current .mulEq nv line
                          (indexInto obj idx line st2.mem).mem).res with
                      | error e =>
                          simp only [hrc]
                          have hb2 := hCerr e hrc
                          refine err_dealloc_memOut _ _ _ _ ?_
                          simp
                          omega
                      | ok valToSet =>
                          simp only [hrc]
                          have hb2 := hCok valToSet hrc
                          refine ihI object idx valToSet (bytesVal nv) line _ B ?_
                          simp
                          omega
          case divEq =>
              have h2 := ihE object st1 (B + bytesVal nv + bytesVal idx)
                (by omega)
              cases hres2 : evalExpr H f object st1 with
              | err e st2 =>
                  simp only [hres2]
                  rw [hres2] at h2
                  simp only [memOut] at h2
                  refine err_dealloc_memOut _ _ _ _ ?_
                  omega
              | out => trivial
              | ok obj st2 =>
                  simp only [hres2]
                  rw [hres2] at h2
                  simp only [memOut] at h2
                  obtain ⟨hIok, hIerr⟩ := indexInto_mem obj idx line st2.mem
                  cases hri : (indexInto obj idx line st2.mem).res with
                  | error e =>
                      simp only [hri]
                      have hb := hIerr e hri
                      refine err_dealloc_memOut _ _ _ _ ?_
                      simp
                      omega
                  | ok current =>
                      simp only [hri]
                      have hb := hIok current hri
                      obtain ⟨hCok, hCerr⟩ := applyCompoundOp_mem current
                        .divEq nv line (indexInto obj idx line st2.mem).mem
                      cases hrc : (applyCompoundOp current .divEq nv line
                          (indexInto obj idx line st2.mem).mem).res with
                      | error e =>
                          simp only [hrc]
                          have hb2 := hCerr e hrc
                          refine err_dealloc_memOut _ _ _ _ ?_
                          simp
                          omega
                      | ok valToSet =>
                          simp only [hrc]
                          have hb2 := hCok valToSet hrc
                          refine ihI object idx valToSet (bytesVal nv) line _ B ?_
                          simp
                          omega
          case modEq =>
              have h2 := ihE object st1 (B + bytesVal nv + bytesVal idx)
                (by omega)
              cases hres2 : evalExpr H f object st1 with
              | err e st2 =>
                  simp only [hres2]
                  rw [hres2] at h2
                  simp only [memOut] at h2
                  refine err_dealloc_memOut _ _ _ _ ?_
                  omega
              | out => trivial
              | ok obj st2 =>
                  simp only [hres2]
                  rw [hres2] at h2
                  simp only [memOut] at h2
                  obtain ⟨hIok, hIerr⟩ := indexInto_mem obj idx line st2.mem
                  cases hri : (indexInto obj idx line st2.mem).res with
                  | error e =>
                      simp only [hri]
                      have hb := hIerr e hri
                      refine err_dealloc_memOut _ _ _ _ ?_
                      simp
                      omega
                  | ok current =>
                      simp only [hri]
                      have hb := hIok current hri
                      obtain ⟨hCok, hCerr⟩ := applyCompoundOp_mem current
                        .modEq nv line (indexInto obj idx line st2.mem).mem
                      cases hrc : (applyCompoundOp current .modEq nv line
                          (indexInto obj idx line st2.mem).mem).res with
                      | error e =>
                          simp only [hrc]
                          have hb2 := hCerr e hrc
                          refine err_dealloc_memOut _ _ _ _ ?_
                          simp
                          omega
                      | ok valToSet =>
                          simp only [hrc]
                          have hb2 := hCok valToSet hrc
                          refine ihI object idx valToSet (bytesVal nv) line _ B ?_
                          simp
                          omega

set_option maxHeartbeats 1600000 in
theorem memStep_execAssignIndexStore {σ : Type} {H : Host σ} {f : Nat}
    (ih : allMem H f) (object : Expr) (idx valToSet : Value) (pending line : Nat)
    (st : EvalState σ) :
    memRes (fun _ => 0) (bytesVal valToSet + bytesVal idx + pending) st
      (execAssignIndexStore H (f + 1) object idx valToSet pending line st) := by
  obtain ⟨ihB, ihS, ihC, ihW, ihR, ihF, ihA, ihI, ihE, ihL, ihD, ihK⟩ := ih
  intro B hB
  simp only [execAssignIndexStore]
  cases hk : object.kind
  case ident name =>
      simp only [hk]
      cases hv : getVar st name with
      | none =>
          refine err_dealloc_memOut _ _ _ _ ?_
          omega
      | some obj0 =>
          simp only [hv]
          obtain ⟨hSok, hSerr⟩ := setIndex_mem obj0 idx valToSet line
            (stAlloc st (bytesVal obj0)).mem
          cases hri : (setIndex obj0 idx valToSet line
              (stAlloc st (bytesVal obj0)).mem).res with
          | error e =>
              simp only [hri]
              have hb := hSerr e hri
                (B + scopesBytes st.scopes + bytesVal idx + pending + bytesVal obj0)
                (by simp; omega)
              refine err_dealloc_memOut _ _ _ _ ?_
              simp
              omega
          | ok newObj =>
              simp only [hri]
              have hb := hSok newObj hri
                (B + scopesBytes st.scopes + bytesVal idx + pending)
                (by simp; omega)
              refine setVar_dealloc_memOut _ name newObj B
                (bytesVal idx + pending) ?_
              simp
              omega
  all_goals refine err_dealloc_memOut _ _ _ _ (by omega)

set_option maxHeartbeats 3200000 in
theorem memStep_execStmt {σ : Type} {H : Host σ} {f : Nat} (ih : allMem H f)
    (stmt : Stmt) (st : EvalState σ) :
    memRes bytesSignal 0 st (execStmt H (f + 1) stmt st) := by
  obtain ⟨ihB, ihS, ihC, ihW, ihR, ihF, ihA, ihI, ihE, ihL, ihD, ihK⟩ := ih
  intro B hB
  obtain ⟨kind, line⟩ := stmt
  simp only [execStmt]
  cases ht : tick H line st with
  | err e st0 =>
      simp only [ht]
      obtain ⟨hsc, hmem⟩ := tick_err_mem ht
      simp only [memOut]
      rw [hmem, hsc]
      omega
  | out => trivial
  | ok u st0 =>
      simp only [ht]
      obtain ⟨_, _, _, _, _, hsc, hmem⟩ := tick_ok_shape H line st st0 u ht
      have hB0 : st0.mem.used ≤ B + scopesBytes st0.scopes + 0 := by
        rw [hmem, hsc]
        omega
      cases kind with
      | sLet name value =>
          have h1 := ihE value st0 B hB0
          cases hres : evalExpr H f value st0 with
          | ok v st1 =>
              simp only [hres]
              rw [hres] at h1
              simp only [memOut] at h1
              have hd := defineVar_mem_le st1 name v B 0 (by omega)
              simp only [memOut, bytesSignal]
              omega
          | err e2 st1 =>
              simp only [hres]
              rw [hres] at h1
              exact h1
          | out => simp only [hres, memOut]
      | assign target op value =>
          have h1 := ihE value st0 B hB0
          cases hres : evalExpr H f value st0 with
          | ok v st1 =>
              simp only [hres]
              rw [hres] at h1
              simp only [memOut] at h1
              have h2 := ihA target op v line st1 B (by omega)
              cases hres2 : execAssign H f target op v line st1 with
              | ok u2 st2 =>
                  simp only [hres2]
                  rw [hres2] at h2
                  simp only [memOut] at h2
                  simp only [memOut, bytesSignal]
                  omega
              | err e2 st2 =>
                  simp only [hres2]
                  rw [hres2] at h2
                  exact h2
              | out => simp only [hres2, memOut]
          | err e2 st1 =>
              simp only [hres]
              rw [hres] at h1
              exact h1
          | out => simp only [hres, memOut]
      | sIf cond body elifs elseB =>
          have h1 := ihE cond st0 B hB0
          cases hres : evalExpr H f cond st0 with
          | ok cv st1 =>
              simp only [hres]
              rw [hres] at h1
              simp only [memOut] at h1
              have h2 : (stDealloc st1 (bytesVal cv)).mem.used ≤
                  B + scopesBytes (stDealloc st1 (bytesVal cv)).scopes + 0 := by
                simp
                omega
              cases hc : isTruthy cv
              · rw [if_neg (by simp)]
                exact ihC elifs elseB (stDealloc st1 (bytesVal cv)) B h2
              · rw [if_pos rfl]
                have h3 := ihB body (pushScope (stDealloc st1 (bytesVal cv))) B
                  (by simpa using h2)
                cases hres2 : execBlock H f body
                    (pushScope (stDealloc st1 (bytesVal cv))) with
                | ok sig st3 =>
                    simp only [hres2]
                    rw [hres2] at h3
                    simp only [memOut] at h3 ⊢
                    exact popScope_mem_le st3 B (bytesSignal sig) h3
                | err e2 st3 =>
                    simp only [hres2]
                    rw [hres2] at h3
                    exact h3
                | out => simp only [hres2, memOut]
          | err e2 st1 =>
              simp only [hres]
              rw [hres] at h1
              exact h1
          | out => simp only [hres, memOut]
      | sWhile cond body => exact ihW line cond body st0 B hB0
      | sRepeat count body =>
          have h1 := ihE count st0 B hB0
          cases hres : evalExpr H f count st0 with
          | ok v st1 =>
              simp only [hres]
              rw [hres] at h1
              simp only [memOut] at h1
              cases v
              case number n =>
                exact ihR line (max (toI64 n) 0).toNat body st1 B
                  (by simp only [bytesVal] at h1; omega)
              all_goals refine err_dealloc_memOut _ _ _ _ (by omega)
          | err e2 st1 =>
              simp only [hres]
              rw [hres] at h1
              exact h1
          | out => simp only [hres, memOut]
      | forIn var iterable body =>
          have h1 := ihE iterable st0 B hB0
          cases hres : evalExpr H f iterable st0 with
          | ok v st1 =>
              simp only [hres]
              rw [hres] at h1
              simp only [memOut] at h1
              cases v
              case array items =>
                refine ihF line var items body
                  (stDealloc st1 (items.length * sizeofValue)) B ?_
                simp only [bytesVal] at h1
                simp
                omega
              case str s =>
                have h3 := ihF line var
                  (s.toList.map (fun c => Value.str (String.singleton c))) body
                  (stAlloc st1 (bytesValList
                    (s.toList.map (fun c => Value.str (String.singleton c)))))
                  (B + s.utf8ByteSize)
                  (by simp only [bytesVal] at h1
                      simp
                      omega)
                cases hres2 : forLoop H f line var
                    (s.toList.map (fun c => Value.str (String.singleton c))) body
                    (stAlloc st1 (bytesValList
                      (s.toList.map (fun c => Value.str (String.singleton c))))) with
                | ok sig st2 =>
                    simp only [hres2]
                    rw [hres2] at h3
                    simp only [memOut] at h3
                    simp only [memOut, stDealloc_mem_used, stDealloc_scopes]
                    omega
                | err e2 st2 =>
                    simp only [hres2]
                    rw [hres2] at h3
                    simp only [memOut] at h3
                    simp only [memOut, stDealloc_mem_used, stDealloc_scopes]
                    omega
                | out => simp only [hres2, memOut]
              all_goals refine err_dealloc_memOut _ _ _ _ (by omega)
          | err e2 st1 =>
              simp only [hres]
              rw [hres] at h1
              exact h1
          | out => simp only [hres, memOut]
      | fnDecl name params body =>
          simp only [memOut, bytesSignal]
          simp
          omega
      | sReturn value =>
          cases value with
          | some e =>
              have h1 := ihE e st0 B hB0
              cases hres : evalExpr H f e st0 with
              | ok v st1 =>
                  simp only [hres]
                  rw [hres] at h1
                  simp only [memOut] at h1
                  simp only [memOut, bytesSignal]
                  omega
              | err e2 st1 =>
                  simp only [hres]
                  rw [hres] at h1
                  exact h1
              | out => simp only [hres, memOut]
          | none =>
              simp only [memOut, bytesSignal, bytesVal]
              omega
      | sBreak =>
          simp only [memOut, bytesSignal]
          omega
      | sContinue =>
          simp only [memOut, bytesSignal]
          omega
      | exprStmt e =>
          have h1 := ihE e st0 B hB0
          cases hres : evalExpr H f e st0 with
          | ok v st1 =>
              simp only [hres]
              rw [hres] at h1
              simp only [memOut] at h1
              simp only [memOut, bytesSignal, stDealloc_mem_used, stDealloc_scopes]
              omega
          | err e2 st1 =>
              simp only [hres]
              rw [hres] at h1
              exact h1
          | out => simp only [hres, memOut]

/-- Exit bound of a method call's write-back through `set_var`. -/
theorem setVar_dealloc_ret_memOut {σ : Type} (st : EvalState σ) (name : String)
    (v : Value) (B d : Nat) (ret : Value)
    (h : st.mem.used ≤ B + scopesBytes st.scopes + bytesVal v + bytesVal ret + d) :
    memOut B bytesVal (RunRes.ok ret (stDealloc (setVar st name v).1 d)) := by
  have hs := setVar_mem_le st name v (B + bytesVal ret) d (by omega)
  simp only [memOut, stDealloc_mem_used, stDealloc_scopes]
  omega

set_option maxHeartbeats 6400000 in
theorem memStep_evalExpr {σ : Type} {H : Host σ} {f : Nat} (ih : allMem H f)
    (e : Expr) (st : EvalState σ) :
    memRes bytesVal 0 st (evalExpr H (f + 1) e st) := by
  obtain ⟨ihB, ihS, ihC, ihW, ihR, ihF, ihA, ihI, ihE, ihL, ihD, ihK⟩ := ih
  intro B hB
  obtain ⟨kind, line⟩ := e
  cases kind with
  | number n =>
      simp only [evalExpr]
      simp only [memOut, bytesVal]
      omega
  | str s =>
      simp only [evalExpr]
      simp only [memOut, bytesVal, stAlloc_mem_used, stAlloc_scopes]
      omega
  | bool b =>
      simp only [evalExpr]
      simp only [memOut, bytesVal]
      omega
  | none =>
      simp only [evalExpr]
      simp only [memOut, bytesVal]
      omega
  | stringInterp parts =>
      simp only [evalExpr]
      obtain ⟨hIok, hIerr⟩ := interpParts_mem parts line "" st
      cases hres : interpParts parts line "" st with
      | ok result st1 =>
          simp only [hres]
          obtain ⟨hu, hsc⟩ := hIok result st1 hres
          simp only [memOut, bytesVal, stAlloc_mem_used, stAlloc_scopes]
          rw [hsc]
          omega
      | err e2 st1 =>
          simp only [hres]
          obtain ⟨hu, hsc⟩ := hIerr e2 st1 hres
          simp only [memOut]
          rw [hsc]
          omega
      | out => simp only [hres, memOut]
  | ident name =>
      simp only [evalExpr]
      cases hv : getVar st name with
      | none =>
          simp only [hv, memOut]
          omega
      | some v =>
          simp only [hv]
          simp only [memOut, stAlloc_mem_used, stAlloc_scopes]
          omega
  | binaryOp l op r =>
      cases op
      case band =>
          simp only [evalExpr]
          have h1 := ihE l st B hB
          cases hres : evalExpr H f l st with
          | ok lv st1 =>
              simp only [hres]
              rw [hres] at h1
              simp only [memOut] at h1
              split
              · simp only [memOut, bytesVal, stDealloc_mem_used, stDealloc_scopes]
                omega
              · have h2 := ihE r st1 (B + bytesVal lv) (by omega)
                cases hres2 : evalExpr H f r st1 with
                | ok rv st2 =>
                    simp only [hres2]
                    rw [hres2] at h2
                    simp only [memOut] at h2
                    simp only [memOut, bytesVal, stDealloc_mem_used,
                      stDealloc_scopes]
                    omega
                | err e2 st2 =>
                    simp only [hres2]
                    rw [hres2] at h2
                    simp only [memOut] at h2
                    simp only [memOut, stDealloc_mem_used, stDealloc_scopes]
                    omega
                | out => simp only [hres2, memOut]
          | err e2 st1 =>
              simp only [hres]
              rw [hres] at h1
              exact h1
          | out => simp only [hres, memOut]
      case bor =>
          simp only [evalExpr]
          have h1 := ihE l st B hB
          cases hres : evalExpr H f l st with
          | ok lv st1 =>
              simp only [hres]
              rw [hres] at h1
              simp only [memOut] at h1
              split
              · simp only [memOut, bytesVal, stDealloc_mem_used, stDealloc_scopes]
                omega
              · have h2 := ihE r st1 (B + bytesVal lv) (by omega)
                cases hres2 : evalExpr H f r st1 with
                | ok rv st2 =>
                    simp only [hres2]
                    rw [hres2] at h2
                    simp only [memOut] at h2
                    simp only [memOut, bytesVal, stDealloc_mem_used,
                      stDealloc_scopes]
                    omega
                | err e2 st2 =>
                    simp only [hres2]
                    rw [hres2] at h2
                    simp only [memOut] at h2
                    simp only [memOut, stDealloc_mem_used, stDealloc_scopes]
                    omega
                | out => simp only [hres2, memOut]
          | err e2 st1 =>
              simp only [hres]
              rw [hres] at h1
              exact h1
          | out => simp only [hres, memOut]
      case add =>
          simp only [evalExpr]
          have h1 := ihE l st B hB
          cases hres : evalExpr H f l st with
          | ok lv st1 =>
              simp only [hres]
              rw [hres] at h1
              simp only [memOut] at h1
              have h2 := ihE r st1 (B + bytesVal lv) (by omega)
              cases hres2 : evalExpr H f r st1 with
              | ok rv st2 =>
                  simp only [hres2]
                  rw [hres2] at h2
                  simp only [memOut] at h2
                  obtain ⟨hOk, hErr⟩ := binaryOp_mem lv .add rv line st2.mem
                  cases hrb : (binaryOp lv .add rv line st2.mem).res with
                  | ok v =>
                      simp only [hrb]
                      have hb := hOk v hrb
                      simp only [memOut]
                      simp
                      omega
                  | error e2 =>
                      simp only [hrb]
                      have hb := hErr e2 hrb
                      simp only [memOut]
                      simp
                      omega
              | err e2 st2 =>
                  simp only [hres2]
                  rw [hres2] at h2
                  simp only [memOut] at h2
                  simp only [memOut, stDealloc_mem_used, stDealloc_scopes]
                  omega
              | out => simp only [hres2, memOut]
          | err e2 st1 =>
              simp only [hres]
              rw [hres] at h1
              exact h1
          | out => simp only [hres, memOut]
      case sub =>
          simp only [evalExpr]
          have h1 := ihE l st B hB
          cases hres : evalExpr H f l st with
          | ok lv st1 =>
              simp only [hres]
              rw [hres] at h1
              simp only [memOut] at h1
              have h2 := ihE r st1 (B + bytesVal lv) (by omega)
              cases hres2 : evalExpr H f r st1 with
              | ok rv st2 =>
                  simp only [hres2]
                  rw [hres2] at h2
                  simp only [memOut] at h2
                  obtain ⟨hOk, hErr⟩ := binaryOp_mem lv .sub rv line st2.mem
                  cases hrb : (binaryOp lv .sub rv line st2.mem).res with
                  | ok v =>
                      simp only [hrb]
                      have hb := hOk v hrb
                      simp only [memOut]
                      simp
                      omega
                  | error e2 =>
                      simp only [hrb]
                      have hb := hErr e2 hrb
                      simp only [memOut]
                      simp
                      omega
              | err e2 st2 =>
                  simp only [hres2]
                  rw [hres2] at h2
                  simp only [memOut] at h2
                  simp only [memOut, stDealloc_mem_used, stDealloc_scopes]
                  omega
              | out => simp only [hres2, memOut]
          | err e2 st1 =>
              simp only [hres]
              rw [hres] at h1
              exact h1
          | out => simp only [hres, memOut]
      case mul =>
          simp only [evalExpr]
          have h1 := ihE l st B hB
          cases hres : evalExpr H f l st with
          | ok lv st1 =>
              simp only [hres]
              rw [hres] at h1
              simp only [memOut] at h1
              have h2 := ihE r st1 (B + bytesVal lv) (by omega)
              cases hres2 : evalExpr H f r st1 with
              | ok rv st2 =>
                  simp only [hres2]
                  rw [hres2] at h2
                  simp only [memOut] at h2
                  obtain ⟨hOk, hErr⟩ := binaryOp_mem lv .mul rv line st2.mem
                  cases hrb : (binaryOp lv .mul rv line st2.mem).res with
                  | ok v =>
                      simp only [hrb]
                      have hb := hOk v hrb
                      simp only [memOut]
                      simp
                      omega
                  | error e2 =>
                      simp only [hrb]
                      have hb := hErr e2 hrb
                      simp only [memOut]
                      simp
                      omega
              | err e2 st2 =>
                  simp only [hres2]
                  rw [hres2] at h2
                  simp only [memOut] at h2
                  simp only [memOut, stDealloc_mem_used, stDealloc_scopes]
                  omega
              | out => simp only [hres2, memOut]
          | err e2 st1 =>
              simp only [hres]
              rw [hres] at h1
              exact h1
          | out => simp only [hres, memOut]
      case div =>
          simp only [evalExpr]
          have h1 := ihE l st B hB
          cases hres : evalExpr H f l st with
          | ok lv st1 =>
              simp only [hres]
              rw [hres] at h1
              simp only [memOut] at h1
              have h2 := ihE r st1 (B + bytesVal lv) (by omega)
              cases hres2 : evalExpr H f r st1 with
              | ok rv st2 =>
                  simp only [hres2]
                  rw [hres2] at h2
                  simp only [memOut] at h2
                  obtain ⟨hOk, hErr⟩ := binaryOp_mem lv .div rv line st2.mem
                  cases hrb : (binaryOp lv .div rv line st2.mem).res with
                  | ok v =>
                      simp only [hrb]
                      have hb := hOk v hrb
                      simp only [memOut]
                      simp
                      omega
                  | error e2 =>
                      simp only [hrb]
                      have hb := hErr e2 hrb
                      simp only [memOut]
                      simp
                      omega
              | err e2 st2 =>
                  simp only [hres2]
                  rw [hres2] at h2
                  simp only [memOut] at h2
                  simp only [memOut, stDealloc_mem_used, stDealloc_scopes]
                  omega
              | out => simp only [hres2, memOut]
          | err e2 st1 =>
              simp only [hres]
              rw [hres] at h1
              exact h1
          | out => simp only [hres, memOut]
      case mod =>
          simp only [evalExpr]
          have h1 := ihE l st B hB
          cases hres : evalExpr H f l st with
          | ok lv st1 =>
              simp only [hres]
              rw [hres] at h1
              simp only [memOut] at h1
              have h2 := ihE r st1 (B + bytesVal lv) (by omega)
              cases hres2 : evalExpr H f r st1 with
              | ok rv st2 =>
                  simp only [hres2]
                  rw [hres2] at h2
                  simp only [memOut] at h2
                  obtain ⟨hOk, hErr⟩ := binaryOp_mem lv .mod rv line st2.mem
                  cases hrb : (binaryOp lv .mod rv line st2.mem).res with
                  | ok v =>
                      simp only [hrb]
                      have hb := hOk v hrb
                      simp only [memOut]
                      simp
                      omega
                  | error e2 =>
                      simp only [hrb]
                      have hb := hErr e2 hrb
                      simp only [memOut]
                      simp
                      omega
              | err e2 st2 =>
                  simp only [hres2]
                  rw [hres2] at h2
                  simp only [memOut] at h2
                  simp only [memOut, stDealloc_mem_used, stDealloc_scopes]
                  omega
              | out => simp only [hres2, memOut]
          | err e2 st1 =>
              simp only [hres]
              rw [hres] at h1
              exact h1
          | out => simp only [hres, memOut]
      case beq =>
          simp only [evalExpr]
          have h1 := ihE l st B hB
          cases hres : evalExpr H f l st with
          | ok lv st1 =>
              simp only [hres]
              rw [hres] at h1
              simp only [memOut] at h1
              have h2 := ihE r st1 (B + bytesVal lv) (by omega)
              cases hres2 : evalExpr H f r st1 with
              | ok rv st2 =>
                  simp only [hres2]
                  rw [hres2] at h2
                  simp only [memOut] at h2
                  obtain ⟨hOk, hErr⟩ := binaryOp_mem lv .beq rv line st2.mem
                  cases hrb : (binaryOp lv .beq rv line st2.mem).res with
                  | ok v =>
                      simp only [hrb]
                      have hb := hOk v hrb
                      simp only [memOut]
                      simp
                      omega
                  | error e2 =>
                      simp only [hrb]
                      have hb := hErr e2 hrb
                      simp only [memOut]
                      simp
                      omega
              | err e2 st2 =>
                  simp only [hres2]
                  rw [hres2] at h2
                  simp only [memOut] at h2
                  simp only [memOut, stDealloc_mem_used, stDealloc_scopes]
                  omega
              | out => simp only [hres2, memOut]
          | err e2 st1 =>
              simp only [hres]
              rw [hres] at h1
              exact h1
          | out => simp only [hres, memOut]
      case bneq =>
          simp only [evalExpr]
          have h1 := ihE l st B hB
          cases hres : evalExpr H f l st with
          | ok lv st1 =>
              simp only [hres]
              rw [hres] at h1
              simp only [memOut] at h1
              have h2 := ihE r st1 (B + bytesVal lv) (by omega)
              cases hres2 : evalExpr H f r st1 with
              | ok rv st2 =>
                  simp only [hres2]
                  rw [hres2] at h2
                  simp only [memOut] at h2
                  obtain ⟨hOk, hErr⟩ := binaryOp_mem lv .bneq rv line st2.mem
                  cases hrb : (binaryOp lv .bneq rv line st2.mem).res with
                  | ok v =>
                      simp only [hrb]
                      have hb := hOk v hrb
                      simp only [memOut]
                      simp
                      omega
                  | error e2 =>
                      simp only [hrb]
                      have hb := hErr e2 hrb
                      simp only [memOut]
                      simp
                      omega
              | err e2 st2 =>
                  simp only [hres2]
                  rw [hres2] at h2
                  simp only [memOut] at h2
                  simp only [memOut, stDealloc_mem_used, stDealloc_scopes]
                  omega
              | out => simp only [hres2, memOut]
          | err e2 st1 =>
              simp only [hres]
              rw [hres] at h1
              exact h1
          | out => simp only [hres, memOut]
      case blt =>
          simp only [evalExpr]
          have h1 := ihE l st B hB
          cases hres : evalExpr H f l st with
          | ok lv st1 =>
              simp only [hres]
              rw [hres] at h1
              simp only [memOut] at h1
              have h2 := ihE r st1 (B + bytesVal lv) (by omega)
              cases hres2 : evalExpr H f r st1 with
              | ok rv st2 =>
                  simp only [hres2]
                  rw [hres2] at h2
                  simp only [memOut] at h2
                  obtain ⟨hOk, hErr⟩ := binaryOp_mem lv .blt rv line st2.mem
                  cases hrb : (binaryOp lv .blt rv line st2.mem).res with
                  | ok v =>
                      simp only [hrb]
                      have hb := hOk v hrb
                      simp only [memOut]
                      simp
                      omega
                  | error e2 =>
                      simp only [hrb]
                      have hb := hErr e2 hrb
                      simp only [memOut]
                      simp
                      omega
              | err e2 st2 =>
                  simp only [hres2]
                  rw [hres2] at h2
                  simp only [memOut] at h2
                  simp only [memOut, stDealloc_mem_used, stDealloc_scopes]
                  omega
              | out => simp only [hres2, memOut]
          | err e2 st1 =>
              simp only [hres]
              rw [hres] at h1
              exact h1
          | out => simp only [hres, memOut]
      case bgt =>
          simp only [evalExpr]
          have h1 := ihE l st B hB
          cases hres : evalExpr H f l st with
          | ok lv st1 =>
              simp only [hres]
              rw [hres] at h1
              simp only [memOut] at h1
              have h2 := ihE r st1 (B + bytesVal lv) (by omega)
              cases hres2 : evalExpr H f r st1 with
              | ok rv st2 =>
                  simp only [hres2]
                  rw [hres2] at h2
                  simp only [memOut] at h2
                  obtain ⟨hOk, hErr⟩ := binaryOp_mem lv .bgt rv line st2.mem
                  cases hrb : (binaryOp lv .bgt rv line st2.mem).res with
                  | ok v =>
                      simp only [hrb]
                      have hb := hOk v hrb
                      simp only [memOut]
                      simp
                      omega
                  | error e2 =>
                      simp only [hrb]
                      have hb := hErr e2 hrb
                      simp only [memOut]
                      simp
                      omega
              | err e2 st2 =>
                  simp only [hres2]
                  rw [hres2] at h2
                  simp only [memOut] at h2
                  simp only [memOut, stDealloc_mem_used, stDealloc_scopes]
                  omega
              | out => simp only [hres2, memOut]
          | err e2 st1 =>
              simp only [hres]
              rw [hres] at h1
              exact h1
          | out => simp only [hres, memOut]
      case bltEq =>
          simp only [evalExpr]
          have h1 := ihE l st B hB
          cases hres : evalExpr H f l st with
          | ok lv st1 =>
              simp only [hres]
              rw [hres] at h1
              simp only [memOut] at h1
              have h2 := ihE r st1 (B + bytesVal lv) (by omega)
              cases hres2 : evalExpr H f r st1 with
              | ok rv st2 =>
                  simp only [hres2]
                  rw [hres2] at h2
                  simp only [memOut] at h2
                  obtain ⟨hOk, hErr⟩ := binaryOp_mem lv .bltEq rv line st2.mem
                  cases hrb : (binaryOp lv .bltEq rv line st2.mem).res with
                  | ok v =>
                      simp only [hrb]
                      have hb := hOk v hrb
                      simp only [memOut]
                      simp
                      omega
                  | error e2 =>
                      simp only [hrb]
                      have hb := hErr e2 hrb
                      simp only [memOut]
                      simp
                      omega
              | err e2 st2 =>
                  simp only [hres2]
                  rw [hres2] at h2
                  simp only [memOut] at h2
                  simp only [memOut, stDealloc_mem_used, stDealloc_scopes]
                  omega
              | out => simp only [hres2, memOut]
          | err e2 st1 =>
              simp only [hres]
              rw [hres] at h1
              exact h1
          | out => simp only [hres, memOut]
      case bgtEq =>
          simp only [evalExpr]
          have h1 := ihE l st B hB
          cases hres : evalExpr H f l st with
          | ok lv st1 =>
              simp only [hres]
              rw [hres] at h1
              simp only [memOut] at h1
              have h2 := ihE r st1 (B + bytesVal lv) (by omega)
              cases hres2 : evalExpr H f r st1 with
              | ok rv st2 =>
                  simp only [hres2]
                  rw [hres2] at h2
                  simp only [memOut] at h2
                  obtain ⟨hOk, hErr⟩ := binaryOp_mem lv .bgtEq rv line st2.mem
                  cases hrb : (binaryOp lv .bgtEq rv line st2.mem).res with
                  | ok v =>
                      simp only [hrb]
                      have hb := hOk v hrb
                      simp only [memOut]
                      simp
                      omega
                  | error e2 =>
                      simp only [hrb]
                      have hb := hErr e2 hrb
                      simp only [memOut]
                      simp
                      omega
              | err e2 st2 =>
                  simp only [hres2]
                  rw [hres2] at h2
                  simp only [memOut] at h2
                  simp only [memOut, stDealloc_mem_used, stDealloc_scopes]
                  omega
              | out => simp only [hres2, memOut]
          | err e2 st1 =>
              simp only [hres]
              rw [hres] at h1
              exact h1
          | out => simp only [hres, memOut]
  | unaryOp op inner =>
      simp only [evalExpr]
      have h1 := ihE inner st B hB
      cases hres : evalExpr H f inner st with
      | ok v st1 =>
          simp only [hres]
          rw [hres] at h1
          simp only [memOut] at h1
          cases op
          case neg =>
              cases v
              case number n =>
                  simp only [memOut, bytesVal]
                  simp only [bytesVal] at h1
                  omega
              all_goals refine err_dealloc_memOut _ _ _ _ (by omega)
          case not =>
              simp only [memOut, bytesVal, stDealloc_mem_used, stDealloc_scopes]
              omega
      | err e2 st1 =>
          simp only [hres]
          rw [hres] at h1
          exact h1
      | out => simp only [hres, memOut]
  | call callee args =>
      simp only [evalExpr]
      cases hk : callee.kind
      case ident name =>
          simp only [hk]
          have h1 := ihL args st B hB
          cases hres : evalExprList H f args st with
          | ok vs st1 =>
              simp only [hres]
              rw [hres] at h1
              simp only [memOut] at h1
              exact ihK name vs line st1 B (by omega)
          | err e2 st1 =>
              simp only [hres]
              rw [hres] at h1
              exact h1
          | out => simp only [hres, memOut]
      all_goals (simp only [hk, memOut]; omega)
  | methodCall object method args =>
      simp only [evalExpr]
      have h1 := ihL args st B hB
      cases hres : evalExprList H f args st with
      | ok vs st1 =>
          simp only [hres]
          rw [hres] at h1
          simp only [memOut] at h1
          have h2 := ihE object st1 (B + bytesValList vs) (by omega)
          cases hres2 : evalExpr H f object st1 with
          | ok objv st2 =>
              simp only [hres2]
              rw [hres2] at h2
              simp only [memOut] at h2
              obtain ⟨hMok, hMerr⟩ := callMethod_mem objv method vs line st2.mem
              cases hrm : (callMethod objv method vs line st2.mem).res with
              | error e2 =>
                  simp only [hrm]
                  have hb := hMerr e2 hrm
                  refine err_dealloc_memOut _ _ _ _ ?_
                  simp
                  omega
              | ok p =>
                  obtain ⟨ret, mutated⟩ := p
                  simp only [hrm]
                  have hb := hMok (ret, mutated) hrm
                  split
                  · split
                    · refine setVar_dealloc_ret_memOut _ _ _ B _ _ ?_
                      simp only [optBytes] at hb
                      simp
                      omega
                    · simp only [memOut, stDealloc_mem_used, stDealloc_scopes]
                      simp only [optBytes] at hb
                      simp
                      omega
                    · simp only [memOut, stDealloc_mem_used, stDealloc_scopes]
                      simp only [optBytes] at hb
                      simp
                      omega
                  · split
                    · simp only [memOut, stDealloc_mem_used, stDealloc_scopes]
                      simp only [optBytes] at hb
                      simp
                      omega
                    · simp only [memOut, stDealloc_mem_used, stDealloc_scopes]
                      simp only [optBytes] at hb
                      simp
                      omega
          | err e2 st2 =>
              simp only [hres2]
              rw [hres2] at h2
              simp only [memOut] at h2
              simp only [memOut, stDealloc_mem_used, stDealloc_scopes]
              omega
          | out => simp only [hres2, memOut]
      | err e2 st1 =>
          simp only [hres]
          rw [hres] at h1
          exact h1
      | out => simp only [hres, memOut]
  | index object index =>
      simp only [evalExpr]
      have h1 := ihE object st B hB
      cases hres : evalExpr H f object st with
      | ok obj st1 =>
          simp only [hres]
          rw [hres] at h1
          simp only [memOut] at h1
          have h2 := ihE index st1 (B + bytesVal obj) (by omega)
          cases hres2 : evalExpr H f index st1 with
          | ok idx st2 =>
              simp only [hres2]
              rw [hres2] at h2
              simp only [memOut] at h2
              obtain ⟨hIok, hIerr⟩ := indexInto_mem obj idx line st2.mem
              cases hri : (indexInto obj idx line st2.mem).res with
              | ok v =>
                  simp only [hri]
                  have hb := hIok v hri
                  simp only [memOut]
                  simp
                  omega
              | error e2 =>
                  simp only [hri]
                  have hb := hIerr e2 hri
                  simp only [memOut]
                  simp
                  omega
          | err e2 st2 =>
              simp only [hres2]
              rw [hres2] at h2
              simp only [memOut] at h2
              simp only [memOut, stDealloc_mem_used, stDealloc_scopes]
              omega
          | out => simp only [hres2, memOut]
      | err e2 st1 =>
          simp only [hres]
          rw [hres] at h1
          exact h1
      | out => simp only [hres, memOut]
  | array elements =>
      simp only [evalExpr]
      have h1 := ihL elements st B hB
      cases hres : evalExprList H f elements st with
      | ok vs st1 =>
          simp only [hres]
          rw [hres] at h1
          simp only [memOut] at h1
          simp only [memOut, bytesVal, stAlloc_mem_used, stAlloc_scopes]
          omega
      | err e2 st1 =>
          simp only [hres]
          rw [hres] at h1
          exact h1
      | out => simp only [hres, memOut]
  | dict entries =>
      simp only [evalExpr]
      have h1 := ihD entries st B hB
      cases hres : evalDictEntries H f entries st with
      | ok pairs st1 =>
          simp only [hres]
          rw [hres] at h1
          simp only [memOut] at h1
          have hk2 := bytesEntryVals_keys pairs
          simp only [memOut, bytesVal, stAlloc_mem_used, stAlloc_scopes]
          omega
      | err e2 st1 =>
          simp only [hres]
          rw [hres] at h1
          exact h1
      | out => simp only [hres, memOut]
  | ifExpr cond thenE elseE =>
      simp only [evalExpr]
      have h1 := ihE cond st B hB
      cases hres : evalExpr H f cond st with
      | ok cv st1 =>
          simp only [hres]
          rw [hres] at h1
          simp only [memOut] at h1
          split
          · exact ihE thenE (stDealloc st1 (bytesVal cv)) B (by simp; omega)
          · exact ihE elseE (stDealloc st1 (bytesVal cv)) B (by simp; omega)
      | err e2 st1 =>
          simp only [hres]
          rw [hres] at h1
          exact h1
      | out => simp only [hres, memOut]

set_option maxHeartbeats 3200000 in
theorem memStep_callFunction {σ : Type} {H : Host σ} {f : Nat} (ih : allMem H f)
    (name : String) (args : List Value) (line : Nat) (st : EvalState σ) :
    memRes bytesVal (bytesValList args) st
      (callFunction H (f + 1) name args line st) := by
  obtain ⟨ihB, ihS, ihC, ihW, ihR, ihF, ihA, ihI, ihE, ihL, ihD, ihK⟩ := ih
  intro B hB
  simp only [callFunction.eq_def]
  split
  · exact finishBuiltin_mem st args _ (builtinRange_mem args line st.randState st.mem).1
      (builtinRange_mem args line st.randState st.mem).2 B hB
  · exact finishBuiltin_mem st args _ (builtinStr_mem args line st.mem).1
      (builtinStr_mem args line st.mem).2 B hB
  · exact finishBuiltin_mem st args _ (builtinInt_mem args line st.mem).1
      (builtinInt_mem args line st.mem).2 B hB
  · exact finishBuiltin_mem st args _ (builtinType_mem args line st.mem).1
      (builtinType_mem args line st.mem).2 B hB
  · exact finishBuiltin_mem st args _ (builtinAbs_mem args line st.mem).1
      (builtinAbs_mem args line st.mem).2 B hB
  · exact finishBuiltin_mem st args _ (builtinMin_mem args line st.mem).1
      (builtinMin_mem args line st.mem).2 B hB
  · exact finishBuiltin_mem st args _ (builtinMax_mem args line st.mem).1
      (builtinMax_mem args line st.mem).2 B hB
  · exact finishBuiltin_mem
      ({ st with randState := (builtinRand args line st.randState st.mem).2 } :
        EvalState σ) args _
      (builtinRand_mem args line st.randState st.mem).1
      (builtinRand_mem args line st.randState st.mem).2 B (by simpa using hB)
  · exact finishBuiltin_mem st args _ (builtinLen_mem args line st.mem).1
      (builtinLen_mem args line st.mem).2 B hB
  · exact finishBuiltin_mem st args _ (builtinInspect_mem args line st.mem).1
      (builtinInspect_mem args line st.mem).2 B hB
  · simp only [memOut, bytesVal, stDealloc_mem_used, stDealloc_scopes]
    simp
    omega
  cases hcall : H.call st.host name args line with
  | mk h2 resOpt =>
      cases resOpt with
      | some result =>
          cases result with
          | ok v =>
              simp only [memOut, stDealloc_mem_used, stDealloc_scopes,
                stAlloc_mem_used, stAlloc_scopes]
              simp
              omega
          | error e =>
              simp only [memOut, stDealloc_mem_used, stDealloc_scopes]
              simp
              omega
      | none =>
          cases hfl : fnLookup st.functions name with
          | none =>
              simp only [hfl]
              simp only [memOut, stDealloc_mem_used, stDealloc_scopes]
              simp
              omega
          | some fd =>
              simp only [hfl]
              split
              · simp only [memOut, stDealloc_mem_used, stDealloc_scopes]
                simp
                omega
              · split
                · simp only [memOut, stDealloc_mem_used, stDealloc_scopes]
                  simp
                  omega
                · rename_i hlen hdep
                  have hlen2 : fd.params.length = args.length := by
                    have := not_ne_iff.mp hlen
                    omega
                  have hbind := bindParams_mem_le fd.params args
                    ({ scopes := [[]], functions := st.functions, steps := st.steps,
                       callDepth := st.callDepth + 1, limits := st.limits,
                       randState := st.randState, mem := st.mem, host := h2 } :
                      EvalState σ) hlen2 (B + scopesBytes st.scopes) 0
                    (by simp [scopesBytes, scopeBytes]
                        omega)
                  have h3 := ihB fd.body (bindParams fd.params args
                      { scopes := [[]], functions := st.functions, steps := st.steps,
                        callDepth := st.callDepth + 1, limits := st.limits,
                        randState := st.randState, mem := st.mem, host := h2 })
                    (B + scopesBytes st.scopes) (by simpa using hbind)
                  cases hres2 : execBlock H f fd.body (bindParams fd.params args
                      { scopes := [[]], functions := st.functions, steps := st.steps,
                        callDepth := st.callDepth + 1, limits := st.limits,
                        randState := st.randState, mem := st.mem, host := h2 }) with
                  | ok sig stR =>
                      simp only [hres2]
                      rw [hres2] at h3
                      simp only [memOut] at h3
                      cases sig with
                      | ret v =>
                          simp only [memOut]
                          simp
                          simp only [bytesSignal] at h3
                          omega
                      | none =>
                          simp only [memOut, bytesVal]
                          simp
                          simp only [bytesSignal] at h3
                          omega
                      | brk =>
                          simp only [memOut]
                          simp
                          simp only [bytesSignal] at h3
                          omega
                      | cont =>
                          simp only [memOut]
                          simp
                          simp only [bytesSignal] at h3
                          omega
                  | err e2 stR =>
                      simp only [hres2]
                      rw [hres2] at h3
                      simp only [memOut] at h3 ⊢
                      simp
                      omega
                  | out => simp only [hres2, memOut]

/-- The ledger contract holds at every fuel. -/
theorem allMem_all {σ : Type} (H : Host σ) : ∀ fuel, allMem H fuel := by
  intro fuel
  induction fuel with
  | zero => exact allMem_zero H
  | succ f ihf =>
      exact ⟨fun stmts st => memStep_execBlock ihf stmts st,
             fun stmt st => memStep_execStmt ihf stmt st,
             fun elifs elseB st => memStep_execIfChain ihf elifs elseB st,
             fun line cond body st => memStep_whileLoop ihf line cond body st,
             fun line count body st => memStep_repeatLoop ihf line count body st,
             fun line v items body st => memStep_forLoop ihf line v items body st,
             fun target op nv line st => memStep_execAssign ihf target op nv line st,
             fun object idx vts p line st =>
               memStep_execAssignIndexStore ihf object idx vts p line st,
             fun e st => memStep_evalExpr ihf e st,
             fun es st => memStep_evalExprList ihf es st,
             fun entries st => memStep_evalDictEntries ihf entries st,
             fun name args line st => memStep_callFunction ihf name args line st⟩

/-- Claim C2: for every program and every execution outcome (success or
failure), after the evaluator and all values it produced are dropped, the
memory ledger's tracked byte count equals 0: every allocation recorded by
the tracked constructors, clones and `set_key` is matched by an equal
deallocation from drops and takes. -/
theorem ledger_conservation {σ : Type} (H : Host σ) (fuel : Nat) (host : σ)
    (limits : BopLimits) (stmts : List Stmt) (m : Mem)
    (hm : finalLedger (evalProgram H fuel host limits stmts) = some m) :
    m.used = 0 := by
  obtain ⟨ihB, _⟩ := allMem_all H fuel
  have h1 := ihB stmts (initState host limits) 0
    (by simp [initState, memInit, scopesBytes, scopeBytes])
  simp only [evalProgram, runStmts] at hm
  cases hres : execBlock H fuel stmts (initState host limits) with
  | ok sig st1 =>
      rw [hres] at hm h1
      simp only [memOut] at h1
      cases sig with
      | brk =>
          simp only [finalLedger] at hm
          cases hm
          simp only [memDealloc_used]
          simp only [bytesSignal] at h1
          omega
      | cont =>
          simp only [finalLedger] at hm
          cases hm
          simp only [memDealloc_used]
          simp only [bytesSignal] at h1
          omega
      | none =>
          simp only [finalLedger] at hm
          cases hm
          simp only [memDealloc_used, stDealloc_mem_used, stDealloc_scopes,
            bytesSignal]
          simp only [bytesSignal] at h1
          omega
      | ret v =>
          simp only [finalLedger] at hm
          cases hm
          simp only [memDealloc_used, stDealloc_mem_used, stDealloc_scopes,
            bytesSignal]
          simp only [bytesSignal] at h1
          omega
  | err e st1 =>
      rw [hres] at hm h1
      simp only [memOut] at h1
      simp only [finalLedger] at hm
      cases hm
      simp only [memDealloc_used]
      omega
  | out =>
      rw [hres] at hm
      simp only [finalLedger] at hm
      cases hm

/-- Witness: the empty program under the standard host ends with a
ledger of exactly 0 tracked bytes. -/
theorem ledger_conservation_witness :
    finalLedger (evalProgram stdHost 1 () ⟨10, 100⟩ ([] : List Stmt)) =
      some { used := 0, limit := 100 } ∧
    ({ used := 0, limit := 100 } : Mem).used = 0 :=
  ⟨by simp [evalProgram, runStmts, execBlock, initState, memInit, finalLedger,
      stDealloc, memDealloc, scopesBytes, scopeBytes, bytesSignal],
   ledger_conservation stdHost 1 () ⟨10, 100⟩ [] _
     (by simp [evalProgram, runStmts, execBlock, initState, memInit, finalLedger,
       stDealloc, memDealloc, scopesBytes, scopeBytes, bytesSignal])⟩

end Bop
